import Mathlib

/-!
Verification development for the lead-deduplication core of the
Lead-Enrichment-Pipeline repository (`deduplicate_companies.py` and
`deduplicate_contacts.py`).

The Python code is shallowly embedded:
* Python strings become `List Char` (`PStr`); the embedding models the ASCII
  behaviour of `str.lower`, `str.strip`, `\w`, `\s` (all inputs of interest
  are ASCII).
* Python scalar values stored in a lead dict become `PyV`
  (`None`, a string, or an int); a lead record (a Python dict) becomes an
  insertion-ordered association list `Lead`.
* Code that can raise (e.g. calling `.lower()` on `None`, tuple-unpacking a
  `split` result, indexing a dict with a missing key) returns
  `Except Unit _`; `Except.error ()` marks a raised exception.
* `difflib.SequenceMatcher.ratio()` is modelled exactly (the matching-block
  algorithm with `isjunk=None`, including the `autojunk` popularity filter),
  except that the final `2.0*M/T` float is represented by the exact rational
  `2*M/T : ℚ` and the `0.85` threshold by `17/20 : ℚ`.  For any strings of
  total length below 2^50 the IEEE-double comparison `ratio >= 0.85` agrees
  with the rational comparison, because a non-equal rational `2M/T` differs
  from `17/20` by at least `1/(20T)`, far above the rounding error of a
  single double division.
-/

set_option maxHeartbeats 1600000
set_option maxRecDepth 100000

/-! ## Python string primitives (ASCII model) -/

/-- Python strings as lists of characters. -/
abbrev PStr := List Char

/-- Coerce a Lean string literal to the embedding's string type. -/
def pstr (s : String) : PStr := s.toList

/-- Python `\s` (ASCII): space, tab, newline, carriage return, vertical tab,
form feed. -/
def isPySpace (c : Char) : Bool :=
  c = ' ' || c = '\t' || c = '\n' || c = '\r' || c = '\x0b' || c = '\x0c'

/-- Python `\w` (ASCII): letters, digits, underscore. -/
def isWordChar (c : Char) : Bool :=
  c.isAlpha || c.isDigit || c = '_'

/-- ASCII `str.lower` on one character. -/
def lowerChar (c : Char) : Char :=
  if 65 ≤ c.toNat ∧ c.toNat ≤ 90 then Char.ofNat (c.toNat + 32) else c

/-- `str.lower` (ASCII model). -/
def pyLower (s : PStr) : PStr := s.map lowerChar

/-- `str.strip()`: drop leading and trailing whitespace. -/
def pyStrip (s : PStr) : PStr :=
  (((s.dropWhile isPySpace).reverse).dropWhile isPySpace).reverse

/-- `str.split(sep)` for a one-character separator: keeps empty pieces,
exactly like Python (`"a@@b".split("@") == ["a","","b"]`, `"".split("@") ==
[""]`). -/
def splitOnChar (sep : Char) : PStr → List PStr
  | [] => [[]]
  | c :: cs =>
    match splitOnChar sep cs with
    | [] => [[]]
    | w :: ws => if c = sep then [] :: w :: ws else (c :: w) :: ws

/-- `re.split` over a one-character class (used for `re.split(r'[._\-]', s)`):
like `splitOnChar` but splitting at every character satisfying `p`. -/
def splitOnPred (p : Char → Bool) : PStr → List PStr
  | [] => [[]]
  | c :: cs =>
    match splitOnPred p cs with
    | [] => [[]]
    | w :: ws => if p c then [] :: w :: ws else (c :: w) :: ws

/-- Helper for `runsOf`: `acc` holds the current (reversed) run. -/
def runsOfAux (keep : Char → Bool) : PStr → PStr → List PStr
  | [], acc => if acc = [] then [] else [acc.reverse]
  | c :: cs, acc =>
    if keep c then runsOfAux keep cs (c :: acc)
    else if acc = [] then runsOfAux keep cs []
    else acc.reverse :: runsOfAux keep cs []

/-- The maximal nonempty runs of characters satisfying `keep`.  With
`keep = [a-z]` this is `re.findall(r'[a-z]+', s)`; with
`keep = not whitespace` it is `str.split()` with no arguments. -/
def runsOf (keep : Char → Bool) (s : PStr) : List PStr := runsOfAux keep s []

/-- `str.split()` with no arguments: whitespace-separated words, no empties. -/
def pySplitWs (s : PStr) : List PStr := runsOf (fun c => !(isPySpace c)) s

/-- `' '.join(words)`. -/
def joinSpace : List PStr → PStr
  | [] => []
  | [w] => w
  | w :: ws => w ++ ' ' :: joinSpace ws

/-- `re.sub(r'\s+', ' ', s)`, character by character: `sp` records whether
the previous character belonged to a whitespace run already replaced by the
single space. -/
def collapseAux (sp : Bool) : PStr → PStr
  | [] => []
  | c :: cs =>
    if isPySpace c then
      if sp then collapseAux true cs else ' ' :: collapseAux true cs
    else c :: collapseAux false cs

/-- `re.sub(r'\s+', ' ', s)`: replace each maximal whitespace run by one
space. -/
def collapseRuns (s : PStr) : PStr := collapseAux false s

/-! ## Python values and dicts -/

/-- A Python scalar value as stored in a lead record: `None`, a string, or an
int. -/
inductive PyV : Type where
  | vnone : PyV
  | vstr : PStr → PyV
  | vint : Int → PyV
deriving DecidableEq, Repr

/-- Python truthiness of a value (`if v:`). -/
def pyTruthy : PyV → Bool
  | PyV.vnone => false
  | PyV.vstr s => !(s.isEmpty)
  | PyV.vint n => n != 0

/-- Truthiness of the result of `d.get(k)` with no default (`None` ⇒ falsy,
missing ⇒ falsy). -/
def pyTruthyO : Option PyV → Bool
  | none => false
  | some v => pyTruthy v

/-- `v.lower()`: succeeds only on a string (AttributeError otherwise). -/
def pyLowerV : PyV → Except Unit PStr
  | PyV.vstr s => Except.ok (pyLower s)
  | _ => Except.error ()

/-- `c in v` for a one-character needle: TypeError unless `v` is a string. -/
def pyContainsV (c : Char) : PyV → Except Unit Bool
  | PyV.vstr s => Except.ok (c ∈ s)
  | _ => Except.error ()

/-- A Python dict (lead record): insertion-ordered association list. -/
abbrev Lead := List (String × PyV)

/-- First-match association-list lookup (Python dict lookup). -/
def alLookup {κ α : Type} [DecidableEq κ] : List (κ × α) → κ → Option α
  | [], _ => none
  | (k, v) :: rest, k' => if k' = k then some v else alLookup rest k'

/-- `d.get(k, default)`. -/
def dictGet (l : Lead) (k : String) (d : PyV) : PyV := (alLookup l k).getD d

/-- `d.get(k)` with no default. -/
def dictGetOpt (l : Lead) (k : String) : Option PyV := alLookup l k

/-- `d[k] = v`: update the first occurrence in place, else append (Python
dict insertion order). -/
def alSet {κ α : Type} [DecidableEq κ] : List (κ × α) → κ → α → List (κ × α)
  | [], k, v => [(k, v)]
  | (k', v') :: rest, k, v =>
    if k = k' then (k, v) :: rest else (k', v') :: alSet rest k v

/-- `defaultdict(list)` append: `m[k].append(i)`, creating `[i]` for a fresh
key (which lands at the end, in insertion order). -/
def alAppend {κ : Type} [DecidableEq κ] (k : κ) (i : Nat) :
    List (κ × List Nat) → List (κ × List Nat)
  | [] => [(k, [i])]
  | (k', is) :: rest =>
    if k' = k then (k', is ++ [i]) :: rest else (k', is) :: alAppend k i rest

/-- Group a list of `(key, index)` pairs with a `defaultdict(list)` loop,
preserving first-seen key order (Python dict iteration order). -/
def groupPairs {κ : Type} [DecidableEq κ] (ps : List (κ × Nat)) :
    List (κ × List Nat) :=
  ps.foldl (fun m p => alAppend p.1 p.2 m) []

/-- Error-propagating `map` over a list, aborting at the first raised
exception exactly like a Python `for` loop. -/
def exMapM {α β : Type} (f : α → Except Unit β) : List α → Except Unit (List β)
  | [] => Except.ok []
  | x :: xs =>
    match f x with
    | Except.error e => Except.error e
    | Except.ok y =>
      match exMapM f xs with
      | Except.error e => Except.error e
      | Except.ok ys => Except.ok (y :: ys)

/-! ## difflib.SequenceMatcher (isjunk=None), as used by `fuzzy_match` and
`names_match`.  Floats are replaced by exact rationals (see header). -/

/-- `autojunk` popularity: for sequences of length ≥ 200 an element occurring
more than `n // 100 + 1` times is dropped from `b2j`. -/
def isPopularB (b : PStr) (c : Char) : Bool :=
  200 ≤ b.length && b.length / 100 + 1 < b.count c

/-- `self.b2j[c]`: the ascending list of positions of `c` in `b` (empty for a
popular element when autojunk applies; the junk set is empty since
`isjunk=None`). -/
def b2jOf (b : PStr) (c : Char) : List Nat :=
  if isPopularB b c then []
  else (List.range b.length).filter (fun j => b.getD j ' ' = c)

/-- One step of the inner `for j in b2j[a[i]]` loop of `find_longest_match`.
`j2len` is the previous row's dict; the state carries the new row and the
current best `(i, j, size)`.  Python's `j2len.get(j-1, 0)` with `j = 0` looks
up key `-1` (always absent), modelled by the `j = 0` test.  `i - k + 1` is
written `i + 1 - k` (equal in ℤ since the chain length `k` is at most
`i + 1`). -/
def flmInnerStep (i : Nat) (j2len : List (Nat × Nat))
    (st : List (Nat × Nat) × Nat × Nat × Nat) (j : Nat) :
    List (Nat × Nat) × Nat × Nat × Nat :=
  let prev := if j = 0 then 0 else (alLookup j2len (j - 1)).getD 0
  let k := prev + 1
  let row := (j, k) :: st.1
  if st.2.2.2 < k then (row, i + 1 - k, j + 1 - k, k)
  else (row, st.2.1, st.2.2.1, st.2.2.2)

/-- One step of the outer `for i in range(alo, ahi)` loop: the state carries
`j2len` and the best match so far.  The `continue`/`break` over the ascending
`b2j` list is `filter (blo ≤ ·)` after `takeWhile (· < bhi)`. -/
def flmOuterStep (a b : PStr) (blo bhi : Nat)
    (st : List (Nat × Nat) × Nat × Nat × Nat) (i : Nat) :
    List (Nat × Nat) × Nat × Nat × Nat :=
  let js := ((b2jOf b (a.getD i ' ')).takeWhile (fun j => j < bhi)).filter
    (fun j => blo ≤ j)
  js.foldl (flmInnerStep i st.1) ([], st.2.1, st.2.2.1, st.2.2.2)

/-- The dynamic-programming part of `find_longest_match`. -/
def flmDP (a b : PStr) (alo ahi blo bhi : Nat) : Nat × Nat × Nat :=
  let fin := (List.range' alo (ahi - alo)).foldl (flmOuterStep a b blo bhi)
    ([], alo, blo, 0)
  (fin.2.1, fin.2.2.1, fin.2.2.2)

/-- The first `while` loop of `find_longest_match`: extend the best block to
the left over equal elements (the `not isbjunk` guard is vacuous since the
junk set is empty for `isjunk=None`). -/
def extendLeftAux (a b : PStr) (alo blo : Nat) :
    Nat → Nat → Nat → Nat → Nat × Nat × Nat
  | 0, bi, bj, bs => (bi, bj, bs)
  | fuel + 1, bi, bj, bs =>
    if alo < bi ∧ blo < bj ∧ a.getD (bi - 1) ' ' = b.getD (bj - 1) ' ' then
      extendLeftAux a b alo blo fuel (bi - 1) (bj - 1) (bs + 1)
    else (bi, bj, bs)

def extendLeft (a b : PStr) (alo blo : Nat) (bi bj bs : Nat) :
    Nat × Nat × Nat :=
  extendLeftAux a b alo blo bi bi bj bs

/-- The second `while` loop: extend the best block to the right over equal
elements (again the junk guard is vacuous).  The third and fourth loops of
the source extend over junk elements and never fire for `isjunk=None`. -/
def extendRightAux (a b : PStr) (ahi bhi : Nat) (bi bj : Nat) :
    Nat → Nat → Nat
  | 0, bs => bs
  | fuel + 1, bs =>
    if bi + bs < ahi ∧ bj + bs < bhi ∧
        a.getD (bi + bs) ' ' = b.getD (bj + bs) ' ' then
      extendRightAux a b ahi bhi bi bj fuel (bs + 1)
    else bs

def extendRight (a b : PStr) (ahi bhi : Nat) (bi bj bs : Nat) : Nat :=
  extendRightAux a b ahi bhi bi bj (ahi - (bi + bs)) bs

/-- `SequenceMatcher.find_longest_match(alo, ahi, blo, bhi)`. -/
def findLongestMatch (a b : PStr) (alo ahi blo bhi : Nat) : Nat × Nat × Nat :=
  let dp := flmDP a b alo ahi blo bhi
  let ext := extendLeft a b alo blo dp.1 dp.2.1 dp.2.2
  (ext.1, ext.2.1, extendRight a b ahi bhi ext.1 ext.2.1 ext.2.2)

/-- Total size of all matching blocks found by `get_matching_blocks`'s
queue recursion (the queue order does not affect the sum, and the
sort/adjacent-merge step preserves it).  `fuel` bounds the recursion depth;
every recursive call strictly shrinks the (sub)range spans, so
`ahi + bhi + 1` fuel at the top-level call is always sufficient. -/
def matchSum (a b : PStr) : Nat → Nat → Nat → Nat → Nat → Nat
  | 0, _, _, _, _ => 0
  | fuel + 1, alo, ahi, blo, bhi =>
    let m := findLongestMatch a b alo ahi blo bhi
    if m.2.2 = 0 then 0
    else
      m.2.2 +
        (if alo < m.1 ∧ blo < m.2.1 then matchSum a b fuel alo m.1 blo m.2.1
         else 0) +
        (if m.1 + m.2.2 < ahi ∧ m.2.1 + m.2.2 < bhi then
          matchSum a b fuel (m.1 + m.2.2) ahi (m.2.1 + m.2.2) bhi
         else 0)

/-- `SequenceMatcher(None, a, b).ratio()` as an exact rational:
`2*M / (len(a)+len(b))`, or `1` when both are empty. -/
def seqRatio (a b : PStr) : ℚ :=
  let t := a.length + b.length
  if t = 0 then 1
  else (2 * (matchSum a b (t + 1) 0 a.length 0 b.length) : ℚ) / (t : ℚ)

/-- `fuzzy_match(s1, s2)` from `deduplicate_companies.py`: 0 on an empty
argument, else the SequenceMatcher ratio. -/
def fuzzy_match (s1 s2 : PStr) : ℚ :=
  if s1.isEmpty || s2.isEmpty then 0 else seqRatio s1 s2

/-! ## deduplicate_companies.py -/

/-- The generic consumer email domains excluded from matching. -/
def genericDomains : List PStr :=
  [pstr "gmail.com", pstr "yahoo.com", pstr "hotmail.com", pstr "outlook.com"]

/-- `COMPANY_SUFFIXES`. -/
def COMPANY_SUFFIXES : List PStr :=
  [pstr "inc", pstr "inc.", pstr "incorporated",
   pstr "llc", pstr "l.l.c.", pstr "l.l.c",
   pstr "ltd", pstr "ltd.", pstr "limited",
   pstr "corp", pstr "corp.", pstr "corporation",
   pstr "co", pstr "co.", pstr "company",
   pstr "plc", pstr "p.l.c.",
   pstr "llp", pstr "l.l.p.",
   pstr "lp", pstr "l.p.",
   pstr "pllc",
   pstr "pc", pstr "p.c.",
   pstr "gmbh", pstr "ag", pstr "sa", pstr "sarl", pstr "srl", pstr "bv",
   pstr "nv",
   pstr "pty", pstr "pty ltd", pstr "pvt", pstr "pvt ltd",
   pstr "private limited"]

/-- `NOISE_WORDS`. -/
def NOISE_WORDS : List PStr :=
  [pstr "the", pstr "a", pstr "an", pstr "and", pstr "&",
   pstr "group", pstr "holding", pstr "holdings",
   pstr "international", pstr "global", pstr "worldwide",
   pstr "solutions", pstr "services", pstr "consulting",
   pstr "technologies", pstr "technology", pstr "tech",
   pstr "digital", pstr "media", pstr "agency"]

/-- `re.sub(r'[^\w\s]', ' ', s)`. -/
def removeSpecials (s : PStr) : PStr :=
  s.map (fun c => if isWordChar c || isPySpace c then c else ' ')

/-- `re.sub(r'\s+' + re.escape(suffix) + r'$', '', s)`: if `s` ends with the
suffix immediately preceded by at least one whitespace character, drop the
suffix together with that whitespace run; otherwise leave `s` unchanged. -/
def stripOneSuffix (suf : PStr) (s : PStr) : PStr :=
  let r := s.reverse
  if suf.reverse.isPrefixOf r then
    let r2 := r.drop suf.length
    if (r2.takeWhile isPySpace).isEmpty then s
    else (r2.dropWhile isPySpace).reverse
  else s

/-- The `for suffix in COMPANY_SUFFIXES` removal loop. -/
def stripSuffixes (s : PStr) : PStr :=
  COMPANY_SUFFIXES.foldl (fun acc suf => stripOneSuffix suf acc) s

/-- `normalize_company_name` on an actual string. -/
def normCompany (s : PStr) : PStr :=
  if s.isEmpty then []
  else
    let t := stripSuffixes (removeSpecials (pyStrip (pyLower s)))
    let ws := (pySplitWs t).filter (fun w => w ∉ NOISE_WORDS)
    pyStrip (collapseRuns (joinSpace ws))

/-- `normalize_company_name(name)` on a Python value: `""` for falsy input,
`AttributeError` for a truthy non-string (`name.lower()`). -/
def normalize_company_name : PyV → Except Unit PStr
  | PyV.vnone => Except.ok []
  | PyV.vstr s => Except.ok (normCompany s)
  | PyV.vint n => if n = 0 then Except.ok [] else Except.error ()

/-- The email branch of `extract_domain`: `lead.get("email")` truthy and
containing `@` (the `in` test raises TypeError on a truthy non-string). -/
def extractEmailDomain (lead : Lead) : Except Unit (Option PStr) :=
  match dictGetOpt lead "email" with
  | some (PyV.vstr s) =>
    if s.isEmpty then Except.ok none
    else if '@' ∈ s then
      Except.ok (some (pyStrip (pyLower ((splitOnChar '@' s).getD 1 []))))
    else Except.ok none
  | some PyV.vnone => Except.ok none
  | some (PyV.vint n) => if n = 0 then Except.ok none else Except.error ()
  | none => Except.ok none

/-- `extract_domain(lead)`: prefer a truthy `company_domain` (lowercased,
stripped; `.lower()` raises on a truthy non-string), else the email domain. -/
def extract_domain (lead : Lead) : Except Unit (Option PStr) :=
  match dictGetOpt lead "company_domain" with
  | some (PyV.vstr s) =>
    if s.isEmpty then extractEmailDomain lead
    else Except.ok (some (pyStrip (pyLower s)))
  | some PyV.vnone => extractEmailDomain lead
  | some (PyV.vint n) =>
    if n = 0 then extractEmailDomain lead else Except.error ()
  | none => extractEmailDomain lead

/-- Company duplicate-group ids: `domain_<domain>` or `fuzzy_<counter>`. -/
inductive CGid : Type where
  | domain : PStr → CGid
  | fuzzy : Nat → CGid
deriving DecidableEq, Repr

/-- The group-id string stored in `_duplicate_group`. -/
def CGid.render : CGid → PStr
  | CGid.domain d => pstr "domain_" ++ d
  | CGid.fuzzy k => pstr "fuzzy_" ++ (Nat.repr k).toList

/-- `for idx in indices: lead_to_group[idx] = group_id`. -/
def asgWrite {γ : Type} [DecidableEq γ] (asg : List (Nat × γ)) (g : γ)
    (is : List Nat) : List (Nat × γ) :=
  is.foldl (fun a i => alSet a i g) asg

/-- The `(domain, index)` pairs fed to `domain_groups` in the first pass
(leads with a non-generic extracted domain, in index order). -/
def pass1Pairs (doms : List (Option PStr)) : List (PStr × Nat) :=
  doms.enum.filterMap (fun p =>
    match p.2 with
    | some d => if d ∈ genericDomains then none else some (d, p.1)
    | none => none)

/-- First pass of `find_duplicates`: group by exact domain, keep groups with
at least two members, tag them `domain_<domain>`, record assignments. -/
def pass1Result (doms : List (Option PStr)) :
    List (CGid × List Nat) × List (Nat × CGid) :=
  let big := (groupPairs (pass1Pairs doms)).filter (fun p => 1 < p.2.length)
  let groups := big.map (fun p => (CGid.domain p.1, p.2))
  (groups, groups.foldl (fun a p => asgWrite a p.1 p.2) [])

/-- `ungrouped = [i for i in range(n) if i not in lead_to_group]`. -/
def ungroupedIdx {γ : Type} [DecidableEq γ] (n : Nat) (asg : List (Nat × γ)) :
    List Nat :=
  (List.range n).filter (fun i => (alLookup asg i).isNone)

/-- The inner `for j in ungrouped` loop of the fuzzy pass: collect every
later unprocessed `j` with a nonempty normalized name and similarity at
least the threshold, marking collected indices processed immediately. -/
def fuzzyCollectAux (θ : ℚ) (nm : Nat → PStr) (i : Nat) :
    List Nat → List Nat → List Nat → List Nat × List Nat
  | [], ms, processed => (ms, processed)
  | j :: js, ms, processed =>
    if j ≤ i ∨ j ∈ processed then fuzzyCollectAux θ nm i js ms processed
    else if (nm j).isEmpty then fuzzyCollectAux θ nm i js ms processed
    else if θ ≤ fuzzy_match (nm i) (nm j) then
      fuzzyCollectAux θ nm i js (ms ++ [j]) (j :: processed)
    else fuzzyCollectAux θ nm i js ms processed

/-- `matches = [i]` followed by the collect loop. -/
def fuzzyCollect (θ : ℚ) (nm : Nat → PStr) (i : Nat)
    (ung processed : List Nat) : List Nat × List Nat :=
  fuzzyCollectAux θ nm i ung [i] processed

/-- The outer anchor loop of the fuzzy pass (`processed` is a set: only
membership is observed, so it is kept as a list). -/
def fuzzyLoop (θ : ℚ) (nm : Nat → PStr) (ung : List Nat) :
    List Nat → List Nat → List (CGid × List Nat) → List (Nat × CGid) → Nat →
    List (CGid × List Nat) × List (Nat × CGid) × Nat
  | [], _, groups, asg, counter => (groups, asg, counter)
  | i :: anchors, processed, groups, asg, counter =>
    if i ∈ processed then fuzzyLoop θ nm ung anchors processed groups asg counter
    else if (nm i).isEmpty then
      fuzzyLoop θ nm ung anchors processed groups asg counter
    else
      let mp := fuzzyCollect θ nm i ung processed
      if 1 < mp.1.length then
        fuzzyLoop θ nm ung anchors (mp.1 ++ mp.2)
          (groups ++ [(CGid.fuzzy counter, mp.1)])
          (asgWrite asg (CGid.fuzzy counter) mp.1) (counter + 1)
      else fuzzyLoop θ nm ung anchors mp.2 groups asg counter

/-- The precomputed `normalized_names` dict (keyed over the ungrouped
indices, the only indices the pass reads). -/
def normNamePairs (leads : List Lead) (ung : List Nat) :
    Except Unit (List (Nat × PStr)) :=
  exMapM (fun i =>
    match normalize_company_name
        (dictGet (leads.getD i []) "company_name" (PyV.vstr [])) with
    | Except.error e => Except.error e
    | Except.ok s => Except.ok (i, s)) ung

/-- Dict lookup into the memo (every index the pass reads is a key). -/
def nmFun (ps : List (Nat × PStr)) : Nat → PStr :=
  fun i => (alLookup ps i).getD []

/-- `find_duplicates(leads, threshold)`.  The per-lead domain extraction and
name normalization are staged with `exMapM` before the pure grouping; this
is observationally the same as the interleaved Python loops because an
exception aborts the whole call either way. -/
def find_duplicates (leads : List Lead) (θ : ℚ) :
    Except Unit (List (CGid × List Nat) × List (Nat × CGid)) :=
  match exMapM extract_domain leads with
  | Except.error e => Except.error e
  | Except.ok doms =>
    let p1 := pass1Result doms
    let ung := ungroupedIdx leads.length p1.2
    match normNamePairs leads ung with
    | Except.error e => Except.error e
    | Except.ok nps =>
      let r := fuzzyLoop θ (nmFun nps) ung ung [] p1.1 p1.2 0
      Except.ok (r.1, r.2.1)

/-- `completeness_score` from `merge_duplicates`. -/
def completeness_score (l : Lead) : Nat :=
  (if pyTruthyO (dictGetOpt l "email") then 2 else 0) +
  (if pyTruthyO (dictGetOpt l "first_name") then 1 else 0) +
  (if pyTruthyO (dictGetOpt l "last_name") then 1 else 0) +
  (if pyTruthyO (dictGetOpt l "title") then 1 else 0) +
  (if pyTruthyO (dictGetOpt l "linkedin_url") then 1 else 0) +
  (if pyTruthyO (dictGetOpt l "phone") then 1 else 0) +
  (if pyTruthyO (dictGetOpt l "company_domain") then 1 else 0) +
  (if pyTruthyO (dictGetOpt l "employee_count") then 1 else 0) +
  (if pyTruthyO (dictGetOpt l "industry") then 1 else 0)

/-- Stable insert for a descending sort: `x` goes before the first element
whose key is not larger, so among equal keys earlier elements stay first —
the behaviour of Python's stable `sort(key=…, reverse=True)`. -/
def insertDescBy {α : Type} (key : α → Nat) (x : α) : List α → List α
  | [] => [x]
  | y :: ys => if key y ≤ key x then x :: y :: ys else y :: insertDescBy key x ys

/-- Stable descending sort by key. -/
def sortDescBy {α : Type} (key : α → Nat) : List α → List α
  | [] => []
  | x :: xs => insertDescBy key x (sortDescBy key xs)

/-- One `primary[key] = value` step of the merge loop: only a truthy value
fills a key whose current value is falsy or absent. -/
def mergeStep (p : Lead) (kv : String × PyV) : Lead :=
  if pyTruthy kv.2 && !(pyTruthyO (dictGetOpt p kv.1)) then alSet p kv.1 kv.2
  else p

/-- `for other in group_leads[1:]: for key, value in other.items(): …`. -/
def mergeOthers (p : Lead) (others : List Lead) : Lead :=
  others.foldl (fun p other => other.foldl mergeStep p) p

/-- Build the merged record of one company group: sort by completeness
(descending, stable), take the head as primary (`group_leads[0]` raises on an
empty group), fill its empty fields from the rest, then set the bookkeeping
fields. -/
def mergeGroupRecord (group_leads : List Lead) (gid : CGid) : Except Unit Lead :=
  match sortDescBy completeness_score group_leads with
  | [] => Except.error ()
  | primary :: others =>
    Except.ok (alSet
      (alSet (mergeOthers primary others)
        "_duplicate_count" (PyV.vint group_leads.length))
      "_duplicate_group" (PyV.vstr gid.render))

/-- `leads[idx]` with an IndexError on an out-of-range index. -/
def leadAt (leads : List Lead) (idx : Nat) : Except Unit Lead :=
  match leads.get? idx with
  | some l => Except.ok l
  | none => Except.error ()

/-- The `for i, lead in enumerate(leads)` loop of `merge_duplicates`.
`pg` is the `processed_groups` set.  A group id coming out of
`lead_to_group` is never the empty string, so `if group_id:` is just the
`some` test.  `groups[group_id]` raises KeyError when absent. -/
def mergeLoop (leads : List Lead) (groups : List (CGid × List Nat))
    (asg : List (Nat × CGid)) :
    List (Nat × Lead) → List CGid → Except Unit (List Lead)
  | [], _ => Except.ok []
  | (i, lead) :: rest, pg =>
    match alLookup asg i with
    | some gid =>
      if gid ∈ pg then mergeLoop leads groups asg rest pg
      else
        match alLookup groups gid with
        | none => Except.error ()
        | some is =>
          match exMapM (leadAt leads) is with
          | Except.error e => Except.error e
          | Except.ok gls =>
            match mergeGroupRecord gls gid with
            | Except.error e => Except.error e
            | Except.ok r =>
              match mergeLoop leads groups asg rest (gid :: pg) with
              | Except.error e => Except.error e
              | Except.ok out => Except.ok (r :: out)
    | none =>
      match mergeLoop leads groups asg rest pg with
      | Except.error e => Except.error e
      | Except.ok out => Except.ok (lead :: out)

/-- `merge_duplicates(leads, groups, lead_to_group)` (`.copy()` on records is
the identity in this value model). -/
def merge_duplicates (leads : List Lead) (groups : List (CGid × List Nat))
    (asg : List (Nat × CGid)) : Except Unit (List Lead) :=
  mergeLoop leads groups asg leads.enum []

/-! ## deduplicate_contacts.py -/

/-- `normalize_email(email)`: `None` for a falsy value or a missing/empty
domain; lowercase + strip, drop the `+tag` from the local part.  The tuple
unpacking `local, domain = email.split("@")` raises ValueError when the
email contains more than one `@`; `.lower()` raises on a truthy
non-string. -/
def normalize_email : PyV → Except Unit (Option PStr)
  | PyV.vnone => Except.ok none
  | PyV.vint n => if n = 0 then Except.ok none else Except.error ()
  | PyV.vstr s =>
    if s.isEmpty then Except.ok none
    else
      let e := pyStrip (pyLower s)
      if '@' ∈ e then
        match splitOnChar '@' e with
        | [lcl, d] =>
          if d.isEmpty then Except.ok none
          else Except.ok (some ((splitOnChar '+' lcl).headD [] ++ '@' :: d))
        | _ => Except.error ()
      else Except.ok none

/-- `[a-z]` (the camelCase split of `extract_name_parts` ends up matching
plain lowercase runs since the local part was lowercased). -/
def isLowerAZ (c : Char) : Bool := 97 ≤ c.toNat && c.toNat ≤ 122

/-- `extract_name_parts(email)`: split the (lowercased) local part on
`[._-]`, add the `[a-z]+` runs, keep tokens of length ≥ 2.  The Python
`set(...)` only feeds membership/emptiness tests, so it is modelled by
`dedup`. -/
def extract_name_parts (email : PStr) : List PStr :=
  if email.isEmpty = true ∨ '@' ∉ email then []
  else
    let lcl := pyLower ((splitOnChar '@' email).headD [])
    let parts := splitOnPred (fun c => c = '.' || c = '_' || c = '-') lcl
    let camel := runsOf isLowerAZ lcl
    ((parts ++ camel).dedup).filter (fun p => 2 ≤ p.length)

/-- `emails_are_aliases(email1, email2)`. -/
def emails_are_aliases (v1 v2 : PyV) : Except Unit Bool :=
  if !(pyTruthy v1) || !(pyTruthy v2) then Except.ok false
  else
    match pyLowerV v1 with
    | Except.error e => Except.error e
    | Except.ok e1 =>
      match pyLowerV v2 with
      | Except.error e => Except.error e
      | Except.ok e2 =>
        if '@' ∉ e1 ∨ '@' ∉ e2 then Except.ok false
        else
          let d1 := (splitOnChar '@' e1).getD 1 []
          let d2 := (splitOnChar '@' e2).getD 1 []
          if d1 ≠ d2 then Except.ok false
          else if d1 ∈ genericDomains then Except.ok false
          else
            let p1 := extract_name_parts e1
            let p2 := extract_name_parts e2
            if p1.isEmpty || p2.isEmpty then Except.ok false
            else if p1.any (fun a => a ∈ p2) then Except.ok true
            else Except.ok (p1.any (fun a => p2.any (fun b =>
              a.headD ' ' = b.headD ' ' && (a.length = 1 || b.length = 1))))

/-- The `first_name`/`last_name` part of `names_match` (reached when the
full-name checks fall through). -/
def namesFirstLast (l1 l2 : Lead) : Except Unit Bool :=
  match pyLowerV (dictGet l1 "first_name" (PyV.vstr [])) with
  | Except.error e => Except.error e
  | Except.ok f1 =>
    match pyLowerV (dictGet l1 "last_name" (PyV.vstr [])) with
    | Except.error e => Except.error e
    | Except.ok la1 =>
      match pyLowerV (dictGet l2 "first_name" (PyV.vstr [])) with
      | Except.error e => Except.error e
      | Except.ok f2 =>
        match pyLowerV (dictGet l2 "last_name" (PyV.vstr [])) with
        | Except.error e => Except.error e
        | Except.ok la2 =>
          let f1 := pyStrip f1
          let la1 := pyStrip la1
          let f2 := pyStrip f2
          let la2 := pyStrip la2
          if f1 ≠ [] ∧ la1 ≠ [] ∧ f2 ≠ [] ∧ la2 ≠ [] then
            if f1 = f2 ∧ la1 = la2 then Except.ok true
            else if f1 = f2 ∧ la1.headD ' ' = la2.headD ' ' then Except.ok true
            else Except.ok false
          else Except.ok false

/-- `names_match(lead1, lead2)`: exact or fuzzy (ratio ≥ 0.85) full-name
match, else first/last-name checks. -/
def names_match (l1 l2 : Lead) : Except Unit Bool :=
  match pyLowerV (dictGet l1 "full_name" (PyV.vstr [])) with
  | Except.error e => Except.error e
  | Except.ok fn1 =>
    match pyLowerV (dictGet l2 "full_name" (PyV.vstr [])) with
    | Except.error e => Except.error e
    | Except.ok fn2 =>
      let name1 := pyStrip fn1
      let name2 := pyStrip fn2
      if name1 ≠ [] ∧ name2 ≠ [] then
        if name1 = name2 then Except.ok true
        else if (17 : ℚ)/20 ≤ seqRatio name1 name2 then Except.ok true
        else namesFirstLast l1 l2
      else namesFirstLast l1 l2

/-- `email.split("@")[1].lower() if "@" in email else ""` (the `in` test
raises TypeError on a non-string). -/
def emailDomainOf : PyV → Except Unit PStr
  | PyV.vstr s =>
    Except.ok (if '@' ∈ s then pyLower ((splitOnChar '@' s).getD 1 []) else [])
  | _ => Except.error ()

/-- The `company_name` check of `same_company`. -/
def sameCompanyNames (l1 l2 : Lead) : Except Unit Bool :=
  match pyLowerV (dictGet l1 "company_name" (PyV.vstr [])) with
  | Except.error e => Except.error e
  | Except.ok c1 =>
    match pyLowerV (dictGet l2 "company_name" (PyV.vstr [])) with
    | Except.error e => Except.error e
    | Except.ok c2 =>
      let c1 := pyStrip c1
      let c2 := pyStrip c2
      Except.ok (decide (c1 ≠ [] ∧ c2 ≠ [] ∧ c1 = c2))

/-- `same_company(lead1, lead2)`: equal truthy `company_domain`s (no generic
exclusion here), else equal non-generic email domains, else equal truthy
`company_name`s. -/
def same_company (l1 l2 : Lead) : Except Unit Bool :=
  match pyLowerV (dictGet l1 "company_domain" (PyV.vstr [])) with
  | Except.error e => Except.error e
  | Except.ok d1 =>
    match pyLowerV (dictGet l2 "company_domain" (PyV.vstr [])) with
    | Except.error e => Except.error e
    | Except.ok d2 =>
      if d1 ≠ [] ∧ d2 ≠ [] ∧ d1 = d2 then Except.ok true
      else
        let e1 := dictGet l1 "email" (PyV.vstr [])
        let e2 := dictGet l2 "email" (PyV.vstr [])
        if pyTruthy e1 && pyTruthy e2 then
          match emailDomainOf e1 with
          | Except.error e => Except.error e
          | Except.ok ed1 =>
            match emailDomainOf e2 with
            | Except.error e => Except.error e
            | Except.ok ed2 =>
              if ed1 ≠ [] ∧ ed2 ≠ [] ∧ ed1 = ed2 ∧ ed1 ∉ genericDomains then
                Except.ok true
              else sameCompanyNames l1 l2
        else sameCompanyNames l1 l2

/-- Contact group tags: `email_`, `alias_`, `name_`. -/
inductive KTag : Type where
  | email : KTag
  | alias : KTag
  | name : KTag
deriving DecidableEq, Repr

/-- A contact group id: tag plus the shared `group_counter` value. -/
structure KGid : Type where
  tag : KTag
  num : Nat
deriving DecidableEq, Repr

/-- The group-id string (`f"email_{counter}"` etc.). -/
def KGid.render : KGid → PStr
  | ⟨KTag.email, k⟩ => pstr "email_" ++ (Nat.repr k).toList
  | ⟨KTag.alias, k⟩ => pstr "alias_" ++ (Nat.repr k).toList
  | ⟨KTag.name, k⟩ => pstr "name_" ++ (Nat.repr k).toList

/-- The `(normalized_email, index)` pairs fed to `email_groups` (a truthy
normalize result is exactly a `some`, since a normalized email contains
`@`). -/
def emailKeyPairs (nemails : List (Option PStr)) : List (PStr × Nat) :=
  nemails.enum.filterMap (fun p => p.2.map (fun e => (e, p.1)))

/-- Pass 1 of `find_contact_duplicates`: exact normalized-email groups of
size ≥ 2, tagged `email_<counter>` with the shared counter. -/
def contactPass1 (nemails : List (Option PStr)) (counter : Nat) :
    List (KGid × List Nat) × List (Nat × KGid) × Nat :=
  let big := (groupPairs (emailKeyPairs nemails)).filter
    (fun p => 1 < p.2.length)
  big.foldl (fun st p =>
    (st.1 ++ [(⟨KTag.email, st.2.2⟩, p.2)],
     asgWrite st.2.1 ⟨KTag.email, st.2.2⟩ p.2, st.2.2 + 1))
    ([], [], counter)

/-- The `(email_domain, index)` pairs fed to `domain_leads` in pass 2. -/
def contactDomainPairs (leads : List Lead) (ung : List Nat) :
    Except Unit (List (PStr × Nat)) :=
  match exMapM (fun i =>
      match dictGet (leads.getD i []) "email" (PyV.vstr []) with
      | PyV.vstr s =>
        if s.isEmpty then Except.ok none
        else if '@' ∈ s then
          Except.ok (some (pyLower ((splitOnChar '@' s).getD 1 []), i))
        else Except.ok none
      | PyV.vnone => Except.ok none
      | PyV.vint n => if n = 0 then Except.ok none else Except.error ()) ung with
  | Except.error e => Except.error e
  | Except.ok l => Except.ok (l.filterMap id)

/-- The inner `for j in indices` loop of the alias pass. -/
def aliasCollectAux (leads : List Lead) (asg : List (Nat × KGid)) (ei : PyV)
    (i : Nat) : List Nat → List Nat → List Nat →
    Except Unit (List Nat × List Nat)
  | [], ms, processed => Except.ok (ms, processed)
  | j :: js, ms, processed =>
    if j ≤ i ∨ j ∈ processed ∨ (alLookup asg j).isSome then
      aliasCollectAux leads asg ei i js ms processed
    else
      match emails_are_aliases ei
          (dictGet (leads.getD j []) "email" (PyV.vstr [])) with
      | Except.error e => Except.error e
      | Except.ok b =>
        if b then aliasCollectAux leads asg ei i js (ms ++ [j]) (j :: processed)
        else aliasCollectAux leads asg ei i js ms processed

/-- The anchor loop of the alias pass, inside one domain (`processed` is the
per-domain set). -/
def aliasAnchorLoop (leads : List Lead) (indices : List Nat) :
    List Nat → List Nat → List (KGid × List Nat) → List (Nat × KGid) → Nat →
    Except Unit (List (KGid × List Nat) × List (Nat × KGid) × Nat)
  | [], _, groups, asg, counter => Except.ok (groups, asg, counter)
  | i :: anchors, processed, groups, asg, counter =>
    if i ∈ processed ∨ (alLookup asg i).isSome then
      aliasAnchorLoop leads indices anchors processed groups asg counter
    else
      match aliasCollectAux leads asg
          (dictGet (leads.getD i []) "email" (PyV.vstr [])) i indices [i]
          processed with
      | Except.error e => Except.error e
      | Except.ok mp =>
        if 1 < mp.1.length then
          aliasAnchorLoop leads indices anchors (mp.1 ++ mp.2)
            (groups ++ [(⟨KTag.alias, counter⟩, mp.1)])
            (asgWrite asg ⟨KTag.alias, counter⟩ mp.1) (counter + 1)
        else aliasAnchorLoop leads indices anchors mp.2 groups asg counter

/-- The outer `for domain, indices in domain_leads.items()` loop of pass 2:
skip domains with fewer than two candidates and the generic domains. -/
def aliasDomainLoop (leads : List Lead) :
    List (PStr × List Nat) → List (KGid × List Nat) → List (Nat × KGid) →
    Nat → Except Unit (List (KGid × List Nat) × List (Nat × KGid) × Nat)
  | [], groups, asg, counter => Except.ok (groups, asg, counter)
  | (d, indices) :: rest, groups, asg, counter =>
    if indices.length < 2 then aliasDomainLoop leads rest groups asg counter
    else if d ∈ genericDomains then aliasDomainLoop leads rest groups asg counter
    else
      match aliasAnchorLoop leads indices indices [] groups asg counter with
      | Except.error e => Except.error e
      | Except.ok r => aliasDomainLoop leads rest r.1 r.2.1 r.2.2

/-- The inner `for j in ungrouped` loop of the name+company pass
(`same_company` is evaluated first; `names_match` only on a True result —
Python's short-circuit `and`). -/
def nameCollect (leads : List Lead) (asg : List (Nat × KGid)) (li : Lead)
    (i : Nat) : List Nat → List Nat → Except Unit (List Nat)
  | [], ms => Except.ok ms
  | j :: js, ms =>
    if j ≤ i ∨ (alLookup asg j).isSome then nameCollect leads asg li i js ms
    else
      match same_company li (leads.getD j []) with
      | Except.error e => Except.error e
      | Except.ok b =>
        if b then
          match names_match li (leads.getD j []) with
          | Except.error e => Except.error e
          | Except.ok b2 =>
            if b2 then nameCollect leads asg li i js (ms ++ [j])
            else nameCollect leads asg li i js ms
        else nameCollect leads asg li i js ms

/-- The anchor loop of the name+company pass: skip already-grouped anchors
and anchors with no usable name. -/
def nameAnchorLoop (leads : List Lead) (ung : List Nat) :
    List Nat → List (KGid × List Nat) → List (Nat × KGid) → Nat →
    Except Unit (List (KGid × List Nat) × List (Nat × KGid) × Nat)
  | [], groups, asg, counter => Except.ok (groups, asg, counter)
  | i :: anchors, groups, asg, counter =>
    if (alLookup asg i).isSome then nameAnchorLoop leads ung anchors groups asg counter
    else
      let li := leads.getD i []
      if !(pyTruthyO (dictGetOpt li "full_name")) &&
          !(pyTruthyO (dictGetOpt li "first_name") &&
            pyTruthyO (dictGetOpt li "last_name")) then
        nameAnchorLoop leads ung anchors groups asg counter
      else
        match nameCollect leads asg li i ung [i] with
        | Except.error e => Except.error e
        | Except.ok ms =>
          if 1 < ms.length then
            nameAnchorLoop leads ung anchors
              (groups ++ [(⟨KTag.name, counter⟩, ms)])
              (asgWrite asg ⟨KTag.name, counter⟩ ms) (counter + 1)
          else nameAnchorLoop leads ung anchors groups asg counter

/-- The per-lead `normalize_email(lead.get("email", ""))` of pass 1. -/
def normalizedEmails (leads : List Lead) : Except Unit (List (Option PStr)) :=
  exMapM (fun l => normalize_email (dictGet l "email" (PyV.vstr []))) leads

/-- `find_contact_duplicates(leads)`: the three passes share one
`group_counter` starting at 0. -/
def find_contact_duplicates (leads : List Lead) :
    Except Unit (List (KGid × List Nat) × List (Nat × KGid)) :=
  match normalizedEmails leads with
  | Except.error e => Except.error e
  | Except.ok nemails =>
    let p1 := contactPass1 nemails 0
    let ung2 := ungroupedIdx leads.length p1.2.1
    match contactDomainPairs leads ung2 with
    | Except.error e => Except.error e
    | Except.ok dpairs =>
      match aliasDomainLoop leads (groupPairs dpairs) p1.1 p1.2.1 p1.2.2 with
      | Except.error e => Except.error e
      | Except.ok r2 =>
        let ung3 := ungroupedIdx leads.length r2.2.1
        match nameAnchorLoop leads ung3 ung3 r2.1 r2.2.1 r2.2.2 with
        | Except.error e => Except.error e
        | Except.ok r3 => Except.ok (r3.1, r3.2.1)

/-- The completeness score of `merge_contact_duplicates`. -/
def contact_score (l : Lead) : Nat :=
  (if pyTruthyO (dictGetOpt l "email") then 3 else 0) +
  (if pyTruthyO (dictGetOpt l "first_name") then 1 else 0) +
  (if pyTruthyO (dictGetOpt l "last_name") then 1 else 0) +
  (if pyTruthyO (dictGetOpt l "title") then 2 else 0) +
  (if pyTruthyO (dictGetOpt l "linkedin_url") then 2 else 0) +
  (if pyTruthyO (dictGetOpt l "phone") then 1 else 0)

/-- Build the merged record of one contact group. -/
def mergeContactGroupRecord (group_leads : List Lead) (gid : KGid) :
    Except Unit Lead :=
  match sortDescBy contact_score group_leads with
  | [] => Except.error ()
  | primary :: others =>
    Except.ok (alSet
      (alSet (mergeOthers primary others)
        "_contact_duplicate_count" (PyV.vint group_leads.length))
      "_contact_duplicate_group" (PyV.vstr gid.render))

/-- The `for i, lead in enumerate(leads)` loop of
`merge_contact_duplicates`. -/
def mergeContactLoop (leads : List Lead) (groups : List (KGid × List Nat))
    (asg : List (Nat × KGid)) :
    List (Nat × Lead) → List KGid → Except Unit (List Lead)
  | [], _ => Except.ok []
  | (i, lead) :: rest, pg =>
    match alLookup asg i with
    | some gid =>
      if gid ∈ pg then mergeContactLoop leads groups asg rest pg
      else
        match alLookup groups gid with
        | none => Except.error ()
        | some is =>
          match exMapM (leadAt leads) is with
          | Except.error e => Except.error e
          | Except.ok gls =>
            match mergeContactGroupRecord gls gid with
            | Except.error e => Except.error e
            | Except.ok r =>
              match mergeContactLoop leads groups asg rest (gid :: pg) with
              | Except.error e => Except.error e
              | Except.ok out => Except.ok (r :: out)
    | none =>
      match mergeContactLoop leads groups asg rest pg with
      | Except.error e => Except.error e
      | Except.ok out => Except.ok (lead :: out)

/-- `merge_contact_duplicates(leads, groups, lead_to_group)`. -/
def merge_contact_duplicates (leads : List Lead)
    (groups : List (KGid × List Nat)) (asg : List (Nat × KGid)) :
    Except Unit (List Lead) :=
  mergeContactLoop leads groups asg leads.enum []

/-- A stored value on which the matching core raises nothing: a string,
holding at most one `@` when stored under the `email` key (a second `@`
makes the two-variable unpacking in `normalize_email` raise ValueError;
a truthy non-string raises AttributeError/TypeError in the `.lower()` /
`in` calls). -/
def safeVal (k : String) : PyV → Bool
  | PyV.vstr s => if k = "email" then decide (s.count '@' ≤ 1) else true
  | PyV.vnone => false
  | PyV.vint _ => false

/-- A record all of whose present values are safe. -/
def safeLead (l : Lead) : Bool := l.all (fun kv => safeVal kv.1 kv.2)

/-- An input list all of whose records are safe. -/
def safeLeads (leads : List Lead) : Bool := leads.all safeLead

/-- The duplicate count carried by an output record: the value of its
`_duplicate_count` field on a merged group record, and `1` on a
pass-through record (which has no such field). -/
def recCount (l : Lead) : Int :=
  match alLookup l "_duplicate_count" with
  | some (PyV.vint k) => k
  | _ => 1

/-! ## Association-list and `exMapM` lemmas -/

theorem alLookup_alSet {κ α : Type} [DecidableEq κ] (m : List (κ × α))
    (k : κ) (v : α) (k' : κ) :
    alLookup (alSet m k v) k' = if k' = k then some v else alLookup m k' := by
  induction m with
  | nil => by_cases h : k' = k <;> simp [alSet, alLookup, h]
  | cons p rest ih =>
    obtain ⟨pk, pv⟩ := p
    by_cases h1 : k = pk
    · subst h1
      by_cases h2 : k' = k <;> simp [alSet, alLookup, h2]
    · by_cases h2 : k' = pk
      · subst h2
        have h3 : ¬(k' = k) := fun he => h1 he.symm
        simp [alSet, alLookup, h1, h3]
      · simp [alSet, alLookup, h1, h2, ih]

theorem alLookup_asgWrite {γ : Type} [DecidableEq γ] (is : List Nat)
    (asg : List (Nat × γ)) (g : γ) (i : Nat) :
    alLookup (asgWrite asg g is) i =
      if i ∈ is then some g else alLookup asg i := by
  induction is generalizing asg with
  | nil => simp [asgWrite]
  | cons x is ih =>
    show alLookup (asgWrite (alSet asg x g) g is) i = _
    rw [ih]
    by_cases h1 : i ∈ is
    · simp [h1]
    · by_cases h2 : i = x <;> simp [h1, h2, alLookup_alSet]

theorem alLookup_mem {κ α : Type} [DecidableEq κ] {m : List (κ × α)} {k : κ}
    {v : α} : alLookup m k = some v → (k, v) ∈ m := by
  induction m with
  | nil => intro h; simp [alLookup] at h
  | cons p rest ih =>
    obtain ⟨pk, pv⟩ := p
    intro h
    by_cases h1 : k = pk
    · subst h1
      simp [alLookup] at h
      subst h
      simp
    · simp only [alLookup, if_neg h1] at h
      exact List.mem_cons_of_mem _ (ih h)

theorem alLookup_eq_of_mem_nodup {κ α : Type} [DecidableEq κ]
    {m : List (κ × α)} (hnd : (m.map Prod.fst).Nodup) {k : κ} {v : α}
    (h : (k, v) ∈ m) : alLookup m k = some v := by
  induction m with
  | nil => simp at h
  | cons p rest ih =>
    obtain ⟨pk, pv⟩ := p
    rw [List.map_cons] at hnd
    have h0 := List.nodup_cons.mp hnd
    rcases List.mem_cons.mp h with h1 | h1
    · cases h1
      simp [alLookup]
    · have hne : k ≠ pk := by
        intro he
        apply h0.1
        have := List.mem_map_of_mem Prod.fst h1
        simpa [he] using this
      simp only [alLookup, if_neg hne]
      exact ih h0.2 h1

theorem exMapM_ok_forall2 {α β : Type} {f : α → Except Unit β} :
    ∀ {xs : List α} {ys : List β}, exMapM f xs = Except.ok ys →
      List.Forall₂ (fun x y => f x = Except.ok y) xs ys := by
  intro xs
  induction xs with
  | nil =>
    intro ys h
    simp only [exMapM] at h
    cases h
    exact List.Forall₂.nil
  | cons x xs ih =>
    intro ys h
    simp only [exMapM] at h
    cases hx : f x with
    | error e => rw [hx] at h; cases h
    | ok y =>
      rw [hx] at h
      cases hrest : exMapM f xs with
      | error e => rw [hrest] at h; cases h
      | ok ys' =>
        rw [hrest] at h
        cases h
        exact List.Forall₂.cons hx (ih hrest)

theorem exMapM_ok_of_all {α β : Type} {f : α → Except Unit β} :
    ∀ {xs : List α}, (∀ x ∈ xs, ∃ y, f x = Except.ok y) →
      ∃ ys, exMapM f xs = Except.ok ys := by
  intro xs
  induction xs with
  | nil => intro _; exact ⟨[], rfl⟩
  | cons x xs ih =>
    intro h
    obtain ⟨y, hy⟩ := h x (by simp)
    obtain ⟨ys, hys⟩ := ih (fun x hx => h x (by simp [hx]))
    exact ⟨y :: ys, by simp [exMapM, hy, hys]⟩

theorem alLookup_alAppend {κ : Type} [DecidableEq κ]
    (m : List (κ × List Nat)) (k : κ) (i : Nat) (k' : κ) :
    alLookup (alAppend k i m) k' =
      if k' = k then some ((alLookup m k).getD [] ++ [i])
      else alLookup m k' := by
  induction m with
  | nil => by_cases h : k' = k <;> simp [alAppend, alLookup, h]
  | cons p rest ih =>
    obtain ⟨pk, pv⟩ := p
    by_cases h1 : pk = k
    · subst h1
      by_cases h2 : k' = pk <;> simp [alAppend, alLookup, h2]
    · by_cases h2 : k' = pk
      · subst h2
        simp [alAppend, alLookup, h1, Ne.symm h1]
      · simp [alAppend, alLookup, h1, h2, ih, Ne.symm h1]

/-- The members a `groupPairs` fold assigns to key `k`. -/
def gpMembers {κ : Type} [DecidableEq κ] (ps : List (κ × Nat)) (k : κ) :
    List Nat :=
  (ps.filter (fun p => p.1 = k)).map Prod.snd

theorem groupPairs_aux_getD {κ : Type} [DecidableEq κ]
    (ps : List (κ × Nat)) (m : List (κ × List Nat)) (k : κ) :
    (alLookup (ps.foldl (fun m p => alAppend p.1 p.2 m) m) k).getD [] =
      (alLookup m k).getD [] ++ gpMembers ps k := by
  induction ps generalizing m with
  | nil => simp [gpMembers]
  | cons p ps ih =>
    obtain ⟨pk, pv⟩ := p
    show (alLookup (ps.foldl _ (alAppend pk pv m)) k).getD [] = _
    rw [ih]
    by_cases h1 : pk = k
    · subst h1
      simp [alLookup_alAppend, gpMembers, List.filter_cons]
    · simp [alLookup_alAppend, gpMembers, List.filter_cons, h1, Ne.symm h1]

theorem groupPairs_aux_isSome {κ : Type} [DecidableEq κ]
    (ps : List (κ × Nat)) (m : List (κ × List Nat)) (k : κ) :
    (alLookup (ps.foldl (fun m p => alAppend p.1 p.2 m) m) k).isSome =
      ((alLookup m k).isSome || !((ps.filter (fun p => p.1 = k)).isEmpty)) := by
  induction ps generalizing m with
  | nil => simp
  | cons p ps ih =>
    obtain ⟨pk, pv⟩ := p
    show (alLookup (ps.foldl _ (alAppend pk pv m)) k).isSome = _
    rw [ih]
    by_cases h1 : pk = k
    · subst h1
      simp [alLookup_alAppend, List.filter_cons]
    · simp [alLookup_alAppend, List.filter_cons, h1, Ne.symm h1]

theorem alLookup_groupPairs {κ : Type} [DecidableEq κ]
    (ps : List (κ × Nat)) (k : κ) :
    alLookup (groupPairs ps) k =
      if (ps.filter (fun p => p.1 = k)).isEmpty then none
      else some (gpMembers ps k) := by
  have h1 := groupPairs_aux_getD ps [] k
  have h2 := groupPairs_aux_isSome ps [] k
  unfold groupPairs
  by_cases he : (ps.filter (fun p => p.1 = k)).isEmpty
  · rw [if_pos he]
    rw [he] at h2
    simp only [alLookup, Option.isSome_none, Bool.not_true, Bool.or_false] at h2
    exact Option.not_isSome_iff_eq_none.mp (by simp [h2])
  · rw [if_neg he]
    cases hl : alLookup (List.foldl (fun m p => alAppend p.1 p.2 m) [] ps) k with
    | none =>
      rw [hl] at h2
      simp [he] at h2
    | some w =>
      rw [hl] at h1
      simp only [alLookup, Option.getD_some, Option.getD_none,
        List.nil_append] at h1
      rw [h1]

theorem keys_alAppend {κ : Type} [DecidableEq κ] (m : List (κ × List Nat))
    (k : κ) (i : Nat) :
    (alAppend k i m).map Prod.fst =
      if k ∈ m.map Prod.fst then m.map Prod.fst
      else m.map Prod.fst ++ [k] := by
  induction m with
  | nil => simp [alAppend]
  | cons p rest ih =>
    obtain ⟨pk, pv⟩ := p
    by_cases h1 : pk = k
    · subst h1
      simp [alAppend]
    · simp only [alAppend, if_neg h1, List.map_cons, ih]
      by_cases h2 : k ∈ rest.map Prod.fst
      · simp [h2, h1, Ne.symm h1]
      · simp [h2, h1, Ne.symm h1]

theorem keys_groupPairs_aux_nodup {κ : Type} [DecidableEq κ]
    (ps : List (κ × Nat)) (m : List (κ × List Nat))
    (h : (m.map Prod.fst).Nodup) :
    (((ps.foldl (fun m p => alAppend p.1 p.2 m) m)).map Prod.fst).Nodup := by
  induction ps generalizing m with
  | nil => exact h
  | cons p ps ih =>
    refine ih (alAppend p.1 p.2 m) ?_
    rw [keys_alAppend]
    by_cases h2 : p.1 ∈ m.map Prod.fst
    · simpa [h2] using h
    · rw [if_neg h2]
      refine List.Nodup.append h (List.nodup_singleton _) ?_
      intro a ha hb
      rw [List.mem_singleton] at hb
      subst hb
      exact h2 ha

theorem keys_groupPairs_nodup {κ : Type} [DecidableEq κ]
    (ps : List (κ × Nat)) : ((groupPairs ps).map Prod.fst).Nodup :=
  keys_groupPairs_aux_nodup ps [] (by simp)

theorem groupPairs_mem_iff {κ : Type} [DecidableEq κ]
    (ps : List (κ × Nat)) (k : κ) (is : List Nat) :
    (k, is) ∈ groupPairs ps ↔
      (¬(ps.filter (fun p => p.1 = k)).isEmpty = true ∧ is = gpMembers ps k) := by
  constructor
  · intro h
    have hl := alLookup_eq_of_mem_nodup (keys_groupPairs_nodup ps) h
    rw [alLookup_groupPairs] at hl
    by_cases he : (ps.filter (fun p => p.1 = k)).isEmpty
    · rw [if_pos he] at hl; cases hl
    · rw [if_neg he] at hl
      exact ⟨he, (Option.some.injEq .. ▸ hl).symm⟩
  · rintro ⟨h1, rfl⟩
    exact alLookup_mem (by rw [alLookup_groupPairs, if_neg h1])

theorem gpMembers_sublist {κ : Type} [DecidableEq κ] (ps : List (κ × Nat))
    (k : κ) : (gpMembers ps k).Sublist (ps.map Prod.snd) :=
  List.Sublist.map Prod.snd (List.filter_sublist ps)

theorem mem_gpMembers_iff {κ : Type} [DecidableEq κ] (ps : List (κ × Nat))
    (k : κ) (i : Nat) : i ∈ gpMembers ps k ↔ (k, i) ∈ ps := by
  unfold gpMembers
  rw [List.mem_map]
  constructor
  · rintro ⟨p, hp, rfl⟩
    rw [List.mem_filter] at hp
    have h2 : p.1 = k := by simpa using hp.2
    rw [← h2]
    simpa using hp.1
  · intro h
    exact ⟨(k, i), List.mem_filter.mpr ⟨h, by simp⟩, rfl⟩

theorem filterMap_fst_sublist {α : Type} (l : List (Nat × α))
    (g : Nat × α → Option Nat) (hg : ∀ p x, g p = some x → x = p.1) :
    (l.filterMap g).Sublist (l.map Prod.fst) := by
  induction l with
  | nil => simp
  | cons p l ih =>
    cases hp : g p with
    | none =>
      rw [List.filterMap_cons, hp, List.map_cons]
      exact ih.cons _
    | some x =>
      have hx := hg p x hp
      subst hx
      rw [List.filterMap_cons, hp, List.map_cons]
      exact ih.cons₂ _

/-! ## Fuzzy-pass collect-loop lemmas -/

theorem fuzzyCollectAux_shape (θ : ℚ) (nm : Nat → PStr) (i : Nat) :
    ∀ (js ms p : List Nat), ∃ sel,
      (fuzzyCollectAux θ nm i js ms p).1 = ms ++ sel ∧
      sel.Sublist js ∧
      (∀ j ∈ sel, i < j ∧ j ∉ p ∧ (nm j).isEmpty = false ∧
        θ ≤ fuzzy_match (nm i) (nm j)) ∧
      (∀ x, x ∈ (fuzzyCollectAux θ nm i js ms p).2 ↔ x ∈ p ∨ x ∈ sel) := by
  intro js
  induction js with
  | nil =>
    intro ms p
    exact ⟨[], by simp [fuzzyCollectAux], by simp, by simp, by simp [fuzzyCollectAux]⟩
  | cons j js ih =>
    intro ms p
    by_cases h1 : j ≤ i ∨ j ∈ p
    · obtain ⟨sel, hs1, hs2, hs3, hs4⟩ := ih ms p
      refine ⟨sel, ?_, hs2.cons j, hs3, ?_⟩
      · simpa [fuzzyCollectAux, h1] using hs1
      · intro x
        simpa [fuzzyCollectAux, h1] using hs4 x
    · by_cases h2 : (nm j).isEmpty
      · obtain ⟨sel, hs1, hs2, hs3, hs4⟩ := ih ms p
        refine ⟨sel, ?_, hs2.cons j, hs3, ?_⟩
        · simpa [fuzzyCollectAux, h1, h2] using hs1
        · intro x
          simpa [fuzzyCollectAux, h1, h2] using hs4 x
      · by_cases h3 : θ ≤ fuzzy_match (nm i) (nm j)
        · obtain ⟨sel, hs1, hs2, hs3, hs4⟩ := ih (ms ++ [j]) (j :: p)
          push_neg at h1
          refine ⟨j :: sel, ?_, hs2.cons₂ j, ?_, ?_⟩
          · rw [show fuzzyCollectAux θ nm i (j :: js) ms p
                = fuzzyCollectAux θ nm i js (ms ++ [j]) (j :: p) from by
              simp [fuzzyCollectAux, h1.1.not_le, h1.2, h2, h3]]
            simpa using hs1
          · intro x hx
            rcases List.mem_cons.mp hx with rfl | hx
            · exact ⟨lt_of_not_le (fun hle => absurd hle h1.1.not_le.elim),
                h1.2, by simpa using h2, h3⟩
            · obtain ⟨c1, c2, c3, c4⟩ := hs3 x hx
              exact ⟨c1, fun hc => c2 (List.mem_cons_of_mem _ hc), c3, c4⟩
          · intro x
            rw [show fuzzyCollectAux θ nm i (j :: js) ms p
                = fuzzyCollectAux θ nm i js (ms ++ [j]) (j :: p) from by
              simp [fuzzyCollectAux, h1.1.not_le, h1.2, h2, h3]]
            rw [hs4 x]
            by_cases hx : x = j <;> simp [hx] <;> tauto
        · obtain ⟨sel, hs1, hs2, hs3, hs4⟩ := ih ms p
          push_neg at h1
          refine ⟨sel, ?_, hs2.cons j, hs3, ?_⟩
          · simpa [fuzzyCollectAux, h1.1.not_le, h1.2, h2, h3] using hs1
          · intro x
            simpa [fuzzyCollectAux, h1.1.not_le, h1.2, h2, h3] using hs4 x

theorem fuzzyCollectAux_mem_iff (θ : ℚ) (nm : Nat → PStr) (i : Nat) :
    ∀ (js ms p : List Nat) (x : Nat),
      x ∈ (fuzzyCollectAux θ nm i js ms p).1 ↔
        x ∈ ms ∨ (x ∈ js ∧ i < x ∧ x ∉ p ∧ (nm x).isEmpty = false ∧
          θ ≤ fuzzy_match (nm i) (nm x)) := by
  intro js
  induction js with
  | nil => intro ms p x; simp [fuzzyCollectAux]
  | cons j js ih =>
    intro ms p x
    by_cases h1 : j ≤ i ∨ j ∈ p
    · rw [show fuzzyCollectAux θ nm i (j :: js) ms p
          = fuzzyCollectAux θ nm i js ms p from by simp [fuzzyCollectAux, h1]]
      rw [ih ms p x]
      by_cases hx : x = j
      · subst hx
        rcases h1 with h1 | h1
        · simp [h1, Nat.not_lt.mpr h1] <;> tauto
        · simp [h1] <;> tauto
      · simp [hx] <;> tauto
    · by_cases h2 : (nm j).isEmpty
      · rw [show fuzzyCollectAux θ nm i (j :: js) ms p
            = fuzzyCollectAux θ nm i js ms p from by
          simp [fuzzyCollectAux, h1, h2]]
        rw [ih ms p x]
        by_cases hx : x = j
        · subst hx
          simp [h2] <;> tauto
        · simp [hx] <;> tauto
      · push_neg at h1
        by_cases h3 : θ ≤ fuzzy_match (nm i) (nm j)
        · rw [show fuzzyCollectAux θ nm i (j :: js) ms p
              = fuzzyCollectAux θ nm i js (ms ++ [j]) (j :: p) from by
            simp [fuzzyCollectAux, h1.1.not_le, h1.2, h2, h3]]
          rw [ih (ms ++ [j]) (j :: p) x]
          by_cases hx : x = j
          · subst hx
            simp [h1.1, h1.2, h2, h3, lt_of_not_le h1.1.not_le] <;> tauto
          · simp [hx] <;> tauto
        · rw [show fuzzyCollectAux θ nm i (j :: js) ms p
              = fuzzyCollectAux θ nm i js ms p from by
            simp [fuzzyCollectAux, h1.1.not_le, h1.2, h2, h3]]
          rw [ih ms p x]
          by_cases hx : x = j
          · subst hx
            simp [h3] <;> tauto
          · simp [hx] <;> tauto

set_option linter.unreachableTactic false
set_option linter.unusedTactic false

/-! ## Merge lemmas (stable sort and field filling) -/

/-- The earliest member attaining the maximal key — the specification's
"member with the highest completeness score, ties broken by original
relative order". -/
def firstMaxBy {α : Type} (key : α → Nat) : List α → Option α
  | [] => none
  | x :: xs =>
    match firstMaxBy key xs with
    | none => some x
    | some y => if key y ≤ key x then some x else some y

theorem sortDescBy_head {α : Type} (key : α → Nat) (l : List α) :
    (sortDescBy key l).head? = firstMaxBy key l := by
  induction l with
  | nil => rfl
  | cons x xs ih =>
    show (insertDescBy key x (sortDescBy key xs)).head? = _
    cases h : sortDescBy key xs with
    | nil =>
      rw [h] at ih
      unfold firstMaxBy
      rw [← ih]
      simp [insertDescBy]
    | cons y ys =>
      rw [h] at ih
      unfold firstMaxBy
      rw [← ih]
      simp only [List.head?]
      by_cases hk : key y ≤ key x <;> simp [insertDescBy, hk]

theorem insertDescBy_perm {α : Type} (key : α → Nat) (x : α) (l : List α) :
    (insertDescBy key x l).Perm (x :: l) := by
  induction l with
  | nil => exact List.Perm.refl _
  | cons y ys ih =>
    by_cases hk : key y ≤ key x
    · simp [insertDescBy, hk]
    · simp only [insertDescBy, if_neg hk]
      exact (ih.cons y).trans (List.Perm.swap x y ys)

theorem sortDescBy_perm {α : Type} (key : α → Nat) (l : List α) :
    (sortDescBy key l).Perm l := by
  induction l with
  | nil => exact List.Perm.refl _
  | cons x xs ih =>
    exact (insertDescBy_perm key x (sortDescBy key xs)).trans (ih.cons x)

theorem sortDescBy_length {α : Type} (key : α → Nat) (l : List α) :
    (sortDescBy key l).length = l.length :=
  (sortDescBy_perm key l).length_eq

/-- The first truthy value some lower-ranked group member holds at key `k`
("filled by the first lower-ranked member holding a non-empty value"). -/
def firstFill : List Lead → String → Option PyV
  | [], _ => none
  | other :: rest, k =>
    match (other.find? (fun kv => decide (kv.1 = k) && pyTruthy kv.2)).map
        Prod.snd with
    | some v => some v
    | none => firstFill rest k

theorem mergeStep_lookup_keep (p : Lead) (kv : String × PyV) (k : String)
    (h : kv.1 ≠ k ∨ pyTruthy kv.2 = false) :
    alLookup (mergeStep p kv) k = alLookup p k := by
  unfold mergeStep
  by_cases hc : pyTruthy kv.2 && !(pyTruthyO (dictGetOpt p kv.1))
  · rw [if_pos hc]
    rw [alLookup_alSet]
    rcases h with h | h
    · rw [if_neg (fun he => h he.symm)]
    · rw [Bool.and_eq_true] at hc
      rw [h] at hc
      cases hc.1
  · rw [if_neg hc]

theorem mergeOne_keep (other : List (String × PyV)) :
    ∀ (p : Lead) (k : String), pyTruthyO (alLookup p k) = true →
    alLookup (other.foldl mergeStep p) k = alLookup p k := by
  induction other with
  | nil => intro p k _; rfl
  | cons kv rest ih =>
    intro p k h
    show alLookup (rest.foldl mergeStep (mergeStep p kv)) k = _
    have hpres : alLookup (mergeStep p kv) k = alLookup p k := by
      unfold mergeStep
      by_cases hc : pyTruthy kv.2 && !(pyTruthyO (dictGetOpt p kv.1))
      · rw [if_pos hc]
        rw [alLookup_alSet]
        by_cases hk : k = kv.1
        · subst hk
          rw [Bool.and_eq_true, Bool.not_eq_true'] at hc
          rw [show dictGetOpt p kv.1 = alLookup p kv.1 from rfl] at hc
          rw [h] at hc
          cases hc.2
        · rw [if_neg hk]
      · rw [if_neg hc]
    rw [ih (mergeStep p kv) k (by rw [hpres]; exact h), hpres]

theorem mergeOne_fillNone (other : List (String × PyV)) :
    ∀ (p : Lead) (k : String),
    other.find? (fun kv => decide (kv.1 = k) && pyTruthy kv.2) = none →
    alLookup (other.foldl mergeStep p) k = alLookup p k := by
  induction other with
  | nil => intro p k _; rfl
  | cons kv rest ih =>
    intro p k hf
    rw [List.find?_cons] at hf
    cases hc : (decide (kv.1 = k) && pyTruthy kv.2) with
    | true => rw [hc] at hf; cases hf
    | false =>
      rw [hc] at hf
      show alLookup (rest.foldl mergeStep (mergeStep p kv)) k = _
      have h2 : kv.1 ≠ k ∨ pyTruthy kv.2 = false := by
        rw [Bool.and_eq_false_iff] at hc
        rcases hc with hc | hc
        · left; simpa using hc
        · right; simpa using hc
      rw [ih (mergeStep p kv) k hf, mergeStep_lookup_keep p kv k h2]

theorem mergeOne_fillSome (other : List (String × PyV)) :
    ∀ (p : Lead) (k : String) (kv0 : String × PyV),
    pyTruthyO (alLookup p k) = false →
    other.find? (fun kv => decide (kv.1 = k) && pyTruthy kv.2) = some kv0 →
    alLookup (other.foldl mergeStep p) k = some kv0.2 := by
  induction other with
  | nil => intro p k kv0 _ hf; cases hf
  | cons kv rest ih =>
    intro p k kv0 hfalse hf
    rw [List.find?_cons] at hf
    cases hc : (decide (kv.1 = k) && pyTruthy kv.2) with
    | true =>
      rw [hc] at hf
      cases hf
      rw [Bool.and_eq_true, decide_eq_true_iff] at hc
      show alLookup (rest.foldl mergeStep (mergeStep p kv)) k = _
      have hset : mergeStep p kv = alSet p kv.1 kv.2 := by
        unfold mergeStep
        rw [if_pos]
        rw [Bool.and_eq_true, Bool.not_eq_true']
        refine ⟨hc.2, ?_⟩
        rw [show dictGetOpt p kv.1 = alLookup p kv.1 from rfl, hc.1]
        exact hfalse
      have hl : alLookup (mergeStep p kv) k = some kv.2 := by
        rw [hset, alLookup_alSet, if_pos hc.1.symm]
      have htr : pyTruthyO (alLookup (mergeStep p kv) k) = true := by
        rw [hl]
        simpa [pyTruthyO] using hc.2
      rw [mergeOne_keep rest (mergeStep p kv) k htr, hl]
    | false =>
      rw [hc] at hf
      show alLookup (rest.foldl mergeStep (mergeStep p kv)) k = _
      have h2 : kv.1 ≠ k ∨ pyTruthy kv.2 = false := by
        rw [Bool.and_eq_false_iff] at hc
        rcases hc with hc | hc
        · left; simpa using hc
        · right; simpa using hc
      have hpres := mergeStep_lookup_keep p kv k h2
      exact ih (mergeStep p kv) k kv0 (by rw [hpres]; exact hfalse) hf

theorem mergeOthers_keep (os : List Lead) :
    ∀ (p : Lead) (k : String), pyTruthyO (alLookup p k) = true →
    alLookup (mergeOthers p os) k = alLookup p k := by
  induction os with
  | nil => intro p k _; rfl
  | cons other os ih =>
    intro p k h
    show alLookup (mergeOthers (other.foldl mergeStep p) os) k = _
    have h1 := mergeOne_keep other p k h
    rw [ih (other.foldl mergeStep p) k (by rw [h1]; exact h), h1]

theorem mergeOthers_fillNone (os : List Lead) :
    ∀ (p : Lead) (k : String), firstFill os k = none →
    alLookup (mergeOthers p os) k = alLookup p k := by
  induction os with
  | nil => intro p k _; rfl
  | cons other os ih =>
    intro p k hf
    unfold firstFill at hf
    cases hfo : (other.find? (fun kv => decide (kv.1 = k) && pyTruthy kv.2)).map
        Prod.snd with
    | some v => rw [hfo] at hf; cases hf
    | none =>
      rw [hfo] at hf
      show alLookup (mergeOthers (other.foldl mergeStep p) os) k = _
      have hfind : other.find? (fun kv => decide (kv.1 = k) && pyTruthy kv.2)
          = none := by
        cases hx : other.find? (fun kv => decide (kv.1 = k) && pyTruthy kv.2)
        · rfl
        · rw [hx] at hfo; cases hfo
      have h1 := mergeOne_fillNone other p k hfind
      rw [ih (other.foldl mergeStep p) k hf, h1]

theorem mergeOthers_fillSome (os : List Lead) :
    ∀ (p : Lead) (k : String) (v : PyV), pyTruthyO (alLookup p k) = false →
    firstFill os k = some v →
    alLookup (mergeOthers p os) k = some v := by
  induction os with
  | nil => intro p k v _ hf; cases hf
  | cons other os ih =>
    intro p k v hfalse hf
    unfold firstFill at hf
    show alLookup (mergeOthers (other.foldl mergeStep p) os) k = _
    cases hfo : other.find? (fun kv => decide (kv.1 = k) && pyTruthy kv.2) with
    | some kv0 =>
      rw [hfo] at hf
      simp only [Option.map_some'] at hf
      cases hf
      have h1 := mergeOne_fillSome other p k kv0 hfalse hfo
      have htr : pyTruthyO (alLookup (other.foldl mergeStep p) k) = true := by
        rw [h1]
        have := List.find?_some hfo
        rw [Bool.and_eq_true] at this
        simpa [pyTruthyO] using this.2
      rw [mergeOthers_keep os (other.foldl mergeStep p) k htr, h1]
    | none =>
      rw [hfo] at hf
      simp only [Option.map_none'] at hf
      have h1 := mergeOne_fillNone other p k hfo
      exact ih (other.foldl mergeStep p) k v (by rw [h1]; exact hfalse) hf

/-! ## Well-formedness of (groups, lead_to_group) pairs -/

theorem alSet_mem {κ α : Type} [DecidableEq κ] {m : List (κ × α)} {k : κ}
    {v : α} {q : κ × α} : q ∈ alSet m k v → q = (k, v) ∨ q ∈ m := by
  induction m with
  | nil => intro h; simpa [alSet] using h
  | cons p rest ih =>
    intro h
    by_cases h1 : k = p.1
    · rw [show alSet (p :: rest) k v = (k, v) :: rest from by
        cases p; simp_all [alSet]] at h
      rcases List.mem_cons.mp h with h | h
      · exact Or.inl h
      · exact Or.inr (List.mem_cons_of_mem _ h)
    · rw [show alSet (p :: rest) k v = p :: alSet rest k v from by
        cases p; simp_all [alSet]] at h
      rcases List.mem_cons.mp h with h | h
      · exact Or.inr (by simp [h])
      · rcases ih h with h | h
        · exact Or.inl h
        · exact Or.inr (List.mem_cons_of_mem _ h)

theorem asgWrite_mem {γ : Type} [DecidableEq γ] (is : List Nat) :
    ∀ (asg : List (Nat × γ)) (g : γ) {q : Nat × γ},
    q ∈ asgWrite asg g is → (q.2 = g ∧ q.1 ∈ is) ∨ q ∈ asg := by
  induction is with
  | nil => intro asg g q h; exact Or.inr h
  | cons x is ih =>
    intro asg g q h
    rcases ih (alSet asg x g) g h with h | h
    · exact Or.inl ⟨h.1, List.mem_cons_of_mem _ h.2⟩
    · rcases alSet_mem h with h | h
      · rw [h]
        exact Or.inl ⟨rfl, by simp⟩
      · exact Or.inr h

theorem asgFold_mem {γ : Type} [DecidableEq γ] (gs : List (γ × List Nat)) :
    ∀ (a0 : List (Nat × γ)) {q : Nat × γ},
    q ∈ gs.foldl (fun a p => asgWrite a p.1 p.2) a0 →
    (∃ p ∈ gs, q.2 = p.1 ∧ q.1 ∈ p.2) ∨ q ∈ a0 := by
  induction gs with
  | nil => intro a0 q h; exact Or.inr h
  | cons p gs ih =>
    intro a0 q h
    rcases ih (asgWrite a0 p.1 p.2) h with h | h
    · obtain ⟨r, hr, h1, h2⟩ := h
      exact Or.inl ⟨r, List.mem_cons_of_mem _ hr, h1, h2⟩
    · rcases asgWrite_mem p.2 a0 p.1 h with h | h
      · exact Or.inl ⟨p, by simp, h.1, h.2⟩
      · exact Or.inr h

theorem asgFold_lookup_notmem {γ : Type} [DecidableEq γ]
    (gs : List (γ × List Nat)) :
    ∀ (a0 : List (Nat × γ)) (i : Nat), (∀ p ∈ gs, i ∉ p.2) →
    alLookup (gs.foldl (fun a p => asgWrite a p.1 p.2) a0) i =
      alLookup a0 i := by
  induction gs with
  | nil => intro a0 i _; rfl
  | cons p gs ih =>
    intro a0 i h
    show alLookup (gs.foldl _ (asgWrite a0 p.1 p.2)) i = _
    rw [ih (asgWrite a0 p.1 p.2) i (fun r hr => h r (List.mem_cons_of_mem _ hr))]
    rw [alLookup_asgWrite, if_neg (h p (by simp))]

theorem asgFold_lookup_mem {γ : Type} [DecidableEq γ]
    (gs : List (γ × List Nat)) :
    ∀ (a0 : List (Nat × γ)) (i : Nat) (g : γ) (is : List Nat),
    List.Pairwise (fun p q => ∀ j, j ∈ p.2 → j ∉ q.2) gs →
    (g, is) ∈ gs → i ∈ is →
    alLookup (gs.foldl (fun a p => asgWrite a p.1 p.2) a0) i = some g := by
  induction gs with
  | nil => intro a0 i g is _ h _; cases h
  | cons p gs ih =>
    intro a0 i g is hd hmem hi
    rw [List.pairwise_cons] at hd
    rcases List.mem_cons.mp hmem with h | h
    · subst h
      show alLookup (gs.foldl _ (asgWrite a0 g is)) i = _
      rw [asgFold_lookup_notmem gs (asgWrite a0 g is) i
        (fun r hr => hd.1 r hr i hi)]
      rw [alLookup_asgWrite, if_pos hi]
    · exact ih (asgWrite a0 p.1 p.2) i g is hd.2 h hi

/-- Well-formedness of the `(groups, lead_to_group)` output of a duplicate
finder over `n` records: distinct group ids; every group has at least two
members, listed in increasing index order, all in range and assigned back to
the group; and every assignment entry points into its group. -/
def GroupsWF {γ : Type} [DecidableEq γ] (n : Nat)
    (groups : List (γ × List Nat)) (asg : List (Nat × γ)) : Prop :=
  (groups.map Prod.fst).Nodup ∧
  (∀ p ∈ groups, 2 ≤ p.2.length ∧ p.2.Pairwise (· < ·) ∧
    ∀ i ∈ p.2, i < n ∧ alLookup asg i = some p.1) ∧
  (∀ q ∈ asg, ∃ p ∈ groups, p.1 = q.2 ∧ q.1 ∈ p.2)

theorem GroupsWF.lookup_mem {γ : Type} [DecidableEq γ] {n : Nat}
    {groups : List (γ × List Nat)} {asg : List (Nat × γ)}
    (h : GroupsWF n groups asg) {i : Nat} {g : γ}
    (hl : alLookup asg i = some g) : ∃ is, (g, is) ∈ groups ∧ i ∈ is := by
  obtain ⟨p, hp, h1, h2⟩ := h.2.2 (i, g) (alLookup_mem hl)
  have h1' : p.1 = g := h1
  refine ⟨p.2, ?_, h2⟩
  rw [← h1']
  simpa using hp

theorem GroupsWF.eq_of_key {γ : Type} [DecidableEq γ] {n : Nat}
    {groups : List (γ × List Nat)} {asg : List (Nat × γ)}
    (h : GroupsWF n groups asg) {g : γ} {is is' : List Nat}
    (h1 : (g, is) ∈ groups) (h2 : (g, is') ∈ groups) : is = is' := by
  have e1 := alLookup_eq_of_mem_nodup h.1 h1
  have e2 := alLookup_eq_of_mem_nodup h.1 h2
  rw [e1] at e2
  exact Option.some.injEq .. ▸ e2

theorem GroupsWF.disjoint {γ : Type} [DecidableEq γ] {n : Nat}
    {groups : List (γ × List Nat)} {asg : List (Nat × γ)}
    (h : GroupsWF n groups asg) {g g' : γ} {is is' : List Nat}
    (h1 : (g, is) ∈ groups) (h2 : (g', is') ∈ groups) (hne : g ≠ g')
    {j : Nat} (hj : j ∈ is) : j ∉ is' := by
  intro hj'
  have e1 := ((h.2.1 (g, is) h1).2.2 j hj).2
  have e2 := ((h.2.1 (g', is') h2).2.2 j hj').2
  rw [e1] at e2
  exact hne (Option.some.injEq .. ▸ e2)

/-! ## Pass 1 of `find_duplicates` is well-formed -/

theorem pass1Pairs_mem (doms : List (Option PStr)) (d : PStr) (i : Nat) :
    (d, i) ∈ pass1Pairs doms ↔
      doms.get? i = some (some d) ∧ d ∉ genericDomains := by
  unfold pass1Pairs
  rw [List.mem_filterMap]
  constructor
  · rintro ⟨p, hp, hf⟩
    obtain ⟨j, o⟩ := p
    rw [List.mem_enum_iff_get?] at hp
    cases o with
    | none => simp at hf
    | some d' =>
      by_cases hg : d' ∈ genericDomains
      · simp [hg] at hf
      · simp [hg] at hf
        obtain ⟨rfl, rfl⟩ := hf
        exact ⟨hp, hg⟩
  · rintro ⟨h1, h2⟩
    exact ⟨(i, some d), List.mem_enum_iff_get?.mpr h1, by simp [h2]⟩

theorem pass1Pairs_snd_pairwise (doms : List (Option PStr)) :
    ((pass1Pairs doms).map Prod.snd).Pairwise (· < ·) := by
  have hsub : ((pass1Pairs doms).map Prod.snd).Sublist
      (List.range doms.length) := by
    unfold pass1Pairs
    rw [List.map_filterMap]
    have h := filterMap_fst_sublist doms.enum
      (fun p => (match p.2 with
        | some d => if d ∈ genericDomains then none else some (d, p.1)
        | none => none).map Prod.snd) ?_
    · simpa [List.enum_map_fst] using h
    · rintro ⟨j, o⟩ x hx
      cases o with
      | none => simp at hx
      | some d' =>
        by_cases hg : d' ∈ genericDomains
        · simp [hg] at hx
        · simp [hg] at hx
          exact hx.symm
  exact List.Pairwise.sublist hsub (List.pairwise_lt_range _)

theorem pass1Pairs_unique (doms : List (Option PStr)) {d d' : PStr} {i : Nat}
    (h1 : (d, i) ∈ pass1Pairs doms) (h2 : (d', i) ∈ pass1Pairs doms) :
    d = d' := by
  rw [pass1Pairs_mem] at h1 h2
  have := h1.1.symm.trans h2.1
  simpa using this

theorem pass1_groups_mem (doms : List (Option PStr)) (g : CGid)
    (is : List Nat) :
    (g, is) ∈ (pass1Result doms).1 ↔
      ∃ d, g = CGid.domain d ∧ 1 < is.length ∧
        ¬((pass1Pairs doms).filter (fun p => p.1 = d)).isEmpty = true ∧
        is = gpMembers (pass1Pairs doms) d := by
  show (g, is) ∈ (((groupPairs (pass1Pairs doms)).filter
      (fun p => 1 < p.2.length)).map (fun p => (CGid.domain p.1, p.2))) ↔ _
  rw [List.mem_map]
  constructor
  · rintro ⟨p, hp, hf⟩
    rw [List.mem_filter] at hp
    obtain ⟨hmem, hlen⟩ := hp
    have h1 : g = CGid.domain p.1 ∧ is = p.2 := by
      constructor
      · exact (Prod.mk.injEq .. ▸ hf).1.symm
      · exact (Prod.mk.injEq .. ▸ hf).2.symm
    obtain ⟨rfl, rfl⟩ := h1
    have h2 := (groupPairs_mem_iff _ p.1 p.2).mp (by simpa using hmem)
    exact ⟨p.1, rfl, by simpa using hlen, h2.1, h2.2⟩
  · rintro ⟨d, rfl, hlen, hne, rfl⟩
    refine ⟨(d, gpMembers (pass1Pairs doms) d), ?_, rfl⟩
    rw [List.mem_filter]
    exact ⟨(groupPairs_mem_iff _ d _).mpr ⟨hne, rfl⟩, by simpa using hlen⟩

theorem pass1_wf (doms : List (Option PStr)) :
    GroupsWF doms.length (pass1Result doms).1 (pass1Result doms).2 := by
  have hgroups : (pass1Result doms).1 =
      ((groupPairs (pass1Pairs doms)).filter (fun p => 1 < p.2.length)).map
        (fun p => (CGid.domain p.1, p.2)) := rfl
  have hasg : (pass1Result doms).2 =
      (((groupPairs (pass1Pairs doms)).filter (fun p => 1 < p.2.length)).map
        (fun p => (CGid.domain p.1, p.2))).foldl
        (fun a p => asgWrite a p.1 p.2) [] := rfl
  have hknd : (((groupPairs (pass1Pairs doms)).filter
      (fun p => 1 < p.2.length)).map Prod.fst).Nodup :=
    (keys_groupPairs_nodup (pass1Pairs doms)).sublist
      (List.Sublist.map _ (List.filter_sublist _))
  have hmem_char : ∀ p ∈ (groupPairs (pass1Pairs doms)).filter
      (fun p => 1 < p.2.length), ∀ j ∈ p.2, (p.1, j) ∈ pass1Pairs doms := by
    intro p hp j hj
    rw [List.mem_filter] at hp
    obtain ⟨q1, q2⟩ := (groupPairs_mem_iff (pass1Pairs doms) p.1 p.2).mp
      (by simpa using hp.1)
    rw [q2] at hj
    exact (mem_gpMembers_iff (pass1Pairs doms) p.1 j).mp hj
  have hdisj : List.Pairwise (fun p q => ∀ j, j ∈ p.2 → j ∉ q.2)
      (((groupPairs (pass1Pairs doms)).filter (fun p => 1 < p.2.length)).map
        (fun p => (CGid.domain p.1, p.2))) := by
    rw [List.pairwise_map]
    have hkey2 : ((groupPairs (pass1Pairs doms)).filter
        (fun p => 1 < p.2.length)).Pairwise (fun p q => p.1 ≠ q.1) :=
      List.pairwise_map.mp hknd
    refine List.Pairwise.imp_of_mem ?_ hkey2
    intro p q hp hq hne j hj hj'
    exact hne (pass1Pairs_unique doms (hmem_char p hp j hj)
      (hmem_char q hq j hj'))
  refine ⟨?_, ?_, ?_⟩
  · rw [hgroups, List.map_map]
    rw [show (Prod.fst ∘ fun p : PStr × List Nat => (CGid.domain p.1, p.2))
        = CGid.domain ∘ Prod.fst from rfl]
    rw [← List.map_map]
    exact hknd.map (fun a b h => by simpa using h)
  · intro p hp
    have hp' : (p.1, p.2) ∈ (pass1Result doms).1 := by simpa using hp
    obtain ⟨d, hd, hlen, hne, hmem⟩ :=
      (pass1_groups_mem doms p.1 p.2).mp hp'
    refine ⟨by omega, ?_, ?_⟩
    · rw [hmem]
      exact List.Pairwise.sublist
        (List.Sublist.map Prod.snd (List.filter_sublist _))
        (pass1Pairs_snd_pairwise doms)
    · intro i hi
      have hips : (d, i) ∈ pass1Pairs doms := by
        rw [hmem] at hi
        exact (mem_gpMembers_iff (pass1Pairs doms) d i).mp hi
      constructor
      · obtain ⟨hget, _⟩ := (pass1Pairs_mem doms d i).mp hips
        exact (List.get?_eq_some.mp hget).1
      · rw [hasg]
        exact asgFold_lookup_mem _ [] i p.1 p.2 hdisj
          (by rw [← hgroups]; simpa using hp) hi
  · intro q hq
    rw [hasg] at hq
    rcases asgFold_mem _ [] hq with ⟨p, hp, h1, h2⟩ | h
    · exact ⟨p, by rw [← hgroups] at hp; exact hp, h1.symm, h2⟩
    · cases h

/-! ## The fuzzy pass preserves well-formedness -/

theorem fuzzyCollect_shape (θ : ℚ) (nm : Nat → PStr) (i : Nat)
    (ung processed : List Nat) :
    ∃ sel, (fuzzyCollect θ nm i ung processed).1 = i :: sel ∧
      sel.Sublist ung ∧
      (∀ j ∈ sel, i < j ∧ j ∉ processed) ∧
      (∀ x, x ∈ (fuzzyCollect θ nm i ung processed).2 ↔
        x ∈ processed ∨ x ∈ sel) := by
  obtain ⟨sel, h1, h2, h3, h4⟩ := fuzzyCollectAux_shape θ nm i ung [i] processed
  exact ⟨sel, by simpa using h1, h2,
    fun j hj => ⟨(h3 j hj).1, (h3 j hj).2.1⟩, h4⟩

theorem fuzzyLoop_cons (θ : ℚ) (nm : Nat → PStr) (ung : List Nat) (i : Nat)
    (anchors processed : List Nat) (groups : List (CGid × List Nat))
    (asg : List (Nat × CGid)) (counter : Nat) :
    fuzzyLoop θ nm ung (i :: anchors) processed groups asg counter =
      if i ∈ processed then
        fuzzyLoop θ nm ung anchors processed groups asg counter
      else if (nm i).isEmpty then
        fuzzyLoop θ nm ung anchors processed groups asg counter
      else
        if 1 < (fuzzyCollect θ nm i ung processed).1.length then
          fuzzyLoop θ nm ung anchors
            ((fuzzyCollect θ nm i ung processed).1 ++
              (fuzzyCollect θ nm i ung processed).2)
            (groups ++ [(CGid.fuzzy counter,
              (fuzzyCollect θ nm i ung processed).1)])
            (asgWrite asg (CGid.fuzzy counter)
              (fuzzyCollect θ nm i ung processed).1) (counter + 1)
        else fuzzyLoop θ nm ung anchors
          (fuzzyCollect θ nm i ung processed).2 groups asg counter := rfl

theorem fuzzyLoop_wf (θ : ℚ) (nm : Nat → PStr) (n : Nat) (ung : List Nat)
    (hus : ung.Pairwise (· < ·)) (hul : ∀ i ∈ ung, i < n) :
    ∀ (anchors processed : List Nat) (groups : List (CGid × List Nat))
      (asg : List (Nat × CGid)) (counter : Nat),
    GroupsWF n groups asg →
    anchors ⊆ ung →
    (∀ i g, alLookup asg i = some g → i ∉ ung ∨ i ∈ processed) →
    (∀ k, CGid.fuzzy k ∈ groups.map Prod.fst → k < counter) →
    GroupsWF n (fuzzyLoop θ nm ung anchors processed groups asg counter).1
      (fuzzyLoop θ nm ung anchors processed groups asg counter).2.1 := by
  intro anchors
  induction anchors with
  | nil =>
    intro processed groups asg counter hwf _ _ _
    exact hwf
  | cons i anchors ih =>
    intro processed groups asg counter hwf hsub hap hflt
    have hsub' : anchors ⊆ ung := fun x hx => hsub (List.mem_cons_of_mem _ hx)
    rw [fuzzyLoop_cons]
    by_cases h1 : i ∈ processed
    · rw [if_pos h1]
      exact ih processed groups asg counter hwf hsub' hap hflt
    · rw [if_neg h1]
      by_cases h2 : (nm i).isEmpty
      · rw [if_pos h2]
        exact ih processed groups asg counter hwf hsub' hap hflt
      · rw [if_neg h2]
        obtain ⟨sel, hs1, hs2, hs3, hs4⟩ := fuzzyCollect_shape θ nm i ung
          processed
        have hiu : i ∈ ung := hsub (by simp)
        have hinone : alLookup asg i = none := by
          cases h : alLookup asg i with
          | none => rfl
          | some g =>
            rcases hap i g h with h' | h'
            · exact absurd hiu h'
            · exact absurd h' h1
        have hmp1 : ∀ j ∈ (fuzzyCollect θ nm i ung processed).1,
            j ∈ ung ∧ alLookup asg j = none := by
          intro j hj
          rw [hs1] at hj
          rcases List.mem_cons.mp hj with rfl | hj
          · exact ⟨hiu, hinone⟩
          · have hju : j ∈ ung := hs2.subset hj
            have hjp : j ∉ processed := (hs3 j hj).2
            refine ⟨hju, ?_⟩
            cases h : alLookup asg j with
            | none => rfl
            | some g =>
              rcases hap j g h with h' | h'
              · exact absurd hju h'
              · exact absurd h' hjp
        by_cases h3 : 1 < (fuzzyCollect θ nm i ung processed).1.length
        · rw [if_pos h3]
          set mp1 := (fuzzyCollect θ nm i ung processed).1 with hmp1def
          have hknew : CGid.fuzzy counter ∉ groups.map Prod.fst := by
            intro hc
            exact absurd (hflt counter hc) (by omega)
          have hsorted : mp1.Pairwise (· < ·) := by
            rw [hs1]
            rw [List.pairwise_cons]
            exact ⟨fun j hj => (hs3 j hj).1, List.Pairwise.sublist hs2 hus⟩
          have hwf' : GroupsWF n (groups ++ [(CGid.fuzzy counter, mp1)])
              (asgWrite asg (CGid.fuzzy counter) mp1) := by
            refine ⟨?_, ?_, ?_⟩
            · rw [List.map_append]
              rw [List.nodup_append]
              exact ⟨hwf.1, by simp, by
                intro a ha hb
                simp at hb
                subst hb
                exact hknew ha⟩
            · intro p hp
              rcases List.mem_append.mp hp with hp | hp
              · obtain ⟨hl2, hsort, hmem⟩ := hwf.2.1 p hp
                refine ⟨hl2, hsort, ?_⟩
                intro j hj
                obtain ⟨hjn, hjl⟩ := hmem j hj
                refine ⟨hjn, ?_⟩
                rw [alLookup_asgWrite]
                rw [if_neg]
                · exact hjl
                · intro hc
                  rw [(hmp1 j hc).2] at hjl
                  cases hjl
              · simp only [List.mem_singleton] at hp
                subst hp
                refine ⟨h3, hsorted, ?_⟩
                intro j hj
                refine ⟨hul j (hmp1 j hj).1, ?_⟩
                rw [alLookup_asgWrite, if_pos hj]
            · intro q hq
              rcases asgWrite_mem mp1 asg (CGid.fuzzy counter) hq with h | h
              · exact ⟨(CGid.fuzzy counter, mp1), by simp, h.1.symm, h.2⟩
              · obtain ⟨p, hp, hh1, hh2⟩ := hwf.2.2 q h
                exact ⟨p, List.mem_append_left _ hp, hh1, hh2⟩
          refine ih (mp1 ++ (fuzzyCollect θ nm i ung processed).2)
            (groups ++ [(CGid.fuzzy counter, mp1)])
            (asgWrite asg (CGid.fuzzy counter) mp1) (counter + 1) hwf' hsub'
            ?_ ?_
          · intro j g hj
            rw [alLookup_asgWrite] at hj
            by_cases hc : j ∈ mp1
            · right
              exact List.mem_append_left _ hc
            · rw [if_neg hc] at hj
              rcases hap j g hj with h' | h'
              · exact Or.inl h'
              · right
                refine List.mem_append_right _ ?_
                exact (hs4 j).mpr (Or.inl h')
          · intro k hk
            rw [List.map_append] at hk
            rcases List.mem_append.mp hk with hk | hk
            · exact Nat.lt_succ_of_lt (hflt k hk)
            · simp at hk
              omega
        · rw [if_neg h3]
          have hsel0 : sel = [] := by
            have hlen := congrArg List.length hs1
            simp only [List.length_cons] at hlen
            cases hse : sel with
            | nil => rfl
            | cons a b =>
              rw [hse] at hlen
              simp at hlen
              omega
          refine ih (fuzzyCollect θ nm i ung processed).2 groups asg counter
            hwf hsub' ?_ hflt
          intro j g hj
          rcases hap j g hj with h' | h'
          · exact Or.inl h'
          · right
            exact (hs4 j).mpr (Or.inl h')

theorem mem_ungroupedIdx {γ : Type} [DecidableEq γ] (n : Nat)
    (asg : List (Nat × γ)) (i : Nat) :
    i ∈ ungroupedIdx n asg ↔ i < n ∧ alLookup asg i = none := by
  unfold ungroupedIdx
  rw [List.mem_filter, List.mem_range]
  simp [Option.isNone_iff_eq_none]

theorem ungroupedIdx_pairwise {γ : Type} [DecidableEq γ] (n : Nat)
    (asg : List (Nat × γ)) : (ungroupedIdx n asg).Pairwise (· < ·) :=
  List.Pairwise.sublist (List.filter_sublist _) (List.pairwise_lt_range n)

theorem find_duplicates_wf (leads : List Lead) (θ : ℚ)
    {g : List (CGid × List Nat)} {a : List (Nat × CGid)}
    (h : find_duplicates leads θ = Except.ok (g, a)) :
    GroupsWF leads.length g a := by
  unfold find_duplicates at h
  cases hd : exMapM extract_domain leads with
  | error e => rw [hd] at h; cases h
  | ok doms =>
    rw [hd] at h
    dsimp only at h
    cases hn : normNamePairs leads
        (ungroupedIdx leads.length (pass1Result doms).2) with
    | error e => rw [hn] at h; cases h
    | ok nps =>
      rw [hn] at h
      dsimp only at h
      simp only [Except.ok.injEq, Prod.mk.injEq] at h
      obtain ⟨hg, ha⟩ := h
      have hlen : leads.length = doms.length :=
        (exMapM_ok_forall2 hd).length_eq
      have hwf0 : GroupsWF leads.length (pass1Result doms).1
          (pass1Result doms).2 := by
        rw [hlen]
        exact pass1_wf doms
      rw [← hg, ← ha]
      refine fuzzyLoop_wf θ (nmFun nps) leads.length
        (ungroupedIdx leads.length (pass1Result doms).2)
        (ungroupedIdx_pairwise _ _)
        (fun i hi => ((mem_ungroupedIdx _ _ i).mp hi).1) _ _ _ _ _ hwf0
        (fun x hx => hx) ?_ ?_
      · intro i g0 hl
        left
        intro hc
        rw [((mem_ungroupedIdx _ _ i).mp hc).2] at hl
        cases hl
      · intro k hk
        exfalso
        rw [List.mem_map] at hk
        obtain ⟨p, hp, hpk⟩ := hk
        have hp' : (CGid.fuzzy k, p.2) ∈ (pass1Result doms).1 := by
          rw [← hpk]
          simpa using hp
        obtain ⟨d, hd', _⟩ := (pass1_groups_mem doms _ _).mp hp'
        cases hd'

/-! ## Structure of `merge_duplicates` -/

theorem sorted_head_eq_min {is : List Nat} (hs : is.Pairwise (· < ·))
    {k : Nat} (hk : k ∈ is) (hmin : ∀ j ∈ is, ¬j < k) : is.head? = some k := by
  cases is with
  | nil => cases hk
  | cons h t =>
    rcases List.mem_cons.mp hk with rfl | hk
    · rfl
    · exact absurd ((List.pairwise_cons.mp hs).1 k hk) (hmin h (by simp))

theorem sorted_head_ne {is : List Nat} (hs : is.Pairwise (· < ·))
    {k j : Nat} (hk : k ∈ is) (hj : j ∈ is) (hjk : j < k) :
    is.head? ≠ some k := by
  cases is with
  | nil => cases hk
  | cons h t =>
    intro hc
    simp only [List.head?] at hc
    cases hc
    rcases List.mem_cons.mp hj with rfl | hj
    · omega
    · have := (List.pairwise_cons.mp hs).1 j hj
      omega

theorem exMapM_leadAt (leads : List Lead) :
    ∀ (is : List Nat), (∀ idx ∈ is, idx < leads.length) →
    exMapM (leadAt leads) is =
      Except.ok (is.map (fun idx => leads.getD idx [])) := by
  intro is
  induction is with
  | nil => intro _; rfl
  | cons idx is ih =>
    intro h
    have h1 : idx < leads.length := h idx (by simp)
    have h2 : leadAt leads idx = Except.ok (leads.getD idx []) := by
      unfold leadAt
      cases hq : leads.get? idx with
      | none =>
        rw [List.get?_eq_none] at hq
        omega
      | some l => simp [List.getD, ← List.get?_eq_getElem?, hq]
    simp [exMapM, h2, ih (fun j hj => h j (List.mem_cons_of_mem _ hj))]

theorem mergeGroupRecord_ok (gls : List Lead) (gid : CGid) (h : gls ≠ []) :
    ∃ r, mergeGroupRecord gls gid = Except.ok r ∧
      alLookup r "_duplicate_count" = some (PyV.vint gls.length) ∧
      alLookup r "_duplicate_group" = some (PyV.vstr gid.render) := by
  have hne : sortDescBy completeness_score gls ≠ [] := by
    intro hc
    have := sortDescBy_length completeness_score gls
    rw [hc] at this
    exact h (List.length_eq_zero.mp this.symm)
  cases hs : sortDescBy completeness_score gls with
  | nil => exact absurd hs hne
  | cons primary others =>
    refine ⟨_, by unfold mergeGroupRecord; rw [hs], ?_, ?_⟩
    · rw [alLookup_alSet, if_neg (by decide), alLookup_alSet, if_pos rfl]
    · rw [alLookup_alSet, if_pos rfl]

/-- Which record position `i` contributes to the merged output: an
unassigned record passes through; the first member of each group carries the
group's merged record; other group members are skipped. -/
def mergeEmit (leads : List Lead) (groups : List (CGid × List Nat))
    (asg : List (Nat × CGid)) (i : Nat) : Option Lead :=
  match alLookup asg i with
  | none => some (leads.getD i [])
  | some gid =>
    match alLookup groups gid with
    | none => none
    | some is =>
      if is.head? = some i then
        match mergeGroupRecord (is.map (fun idx => leads.getD idx [])) gid with
        | Except.ok r => some r
        | Except.error _ => none
      else none

theorem mergeLoop_cons (leads : List Lead) (groups : List (CGid × List Nat))
    (asg : List (Nat × CGid)) (i : Nat) (lead : Lead)
    (rest : List (Nat × Lead)) (pg : List CGid) :
    mergeLoop leads groups asg ((i, lead) :: rest) pg =
      match alLookup asg i with
      | some gid =>
        if gid ∈ pg then mergeLoop leads groups asg rest pg
        else
          match alLookup groups gid with
          | none => Except.error ()
          | some is =>
            match exMapM (leadAt leads) is with
            | Except.error e => Except.error e
            | Except.ok gls =>
              match mergeGroupRecord gls gid with
              | Except.error e => Except.error e
              | Except.ok r =>
                match mergeLoop leads groups asg rest (gid :: pg) with
                | Except.error e => Except.error e
                | Except.ok out => Except.ok (r :: out)
      | none =>
        match mergeLoop leads groups asg rest pg with
        | Except.error e => Except.error e
        | Except.ok out => Except.ok (lead :: out) := rfl

theorem mergeLoop_structure (leads : List Lead)
    (groups : List (CGid × List Nat)) (asg : List (Nat × CGid))
    (hwf : GroupsWF leads.length groups asg) :
    ∀ (xs : List Lead) (k : Nat) (pg : List CGid),
    xs = leads.drop k →
    (∀ gid, gid ∈ pg ↔ ∃ is, (gid, is) ∈ groups ∧ ∃ j ∈ is, j < k) →
    mergeLoop leads groups asg (List.enumFrom k xs) pg =
      Except.ok ((List.range' k xs.length).filterMap
        (mergeEmit leads groups asg)) := by
  intro xs
  induction xs with
  | nil => intro k pg _ _; rfl
  | cons x xs ih =>
    intro k pg hxs hpg
    have hget : leads.get? k = some x := by
      have := List.head?_drop leads k
      rw [← hxs] at this
      simp only [List.head?] at this
      rw [← List.get?_eq_getElem?] at this
      exact this.symm
    have hklen : k < leads.length := (List.get?_eq_some.mp hget).1
    have hgetD : leads.getD k [] = x := by
      simp [List.getD, ← List.get?_eq_getElem?, hget]
    have hxs' : xs = leads.drop (k + 1) := by
      have h1 : List.drop 1 (leads.drop k) = leads.drop (k + 1) :=
        List.drop_drop 1 k leads
      rw [← hxs] at h1
      simpa using h1
    rw [List.enumFrom_cons, List.length_cons, List.range'_succ,
      List.filterMap_cons, mergeLoop_cons]
    cases hasg : alLookup asg k with
    | none =>
      have hemit : mergeEmit leads groups asg k = some x := by
        unfold mergeEmit
        rw [hasg, hgetD]
      rw [hemit]
      have hpg' : ∀ gid, gid ∈ pg ↔
          ∃ is, (gid, is) ∈ groups ∧ ∃ j ∈ is, j < k + 1 := by
        intro gid
        rw [hpg gid]
        constructor
        · rintro ⟨is, h1, j, h2, h3⟩
          exact ⟨is, h1, j, h2, by omega⟩
        · rintro ⟨is, h1, j, h2, h3⟩
          refine ⟨is, h1, j, h2, ?_⟩
          rcases Nat.lt_succ_iff_lt_or_eq.mp h3 with h | h
          · exact h
          · subst h
            have := ((hwf.2.1 (gid, is) h1).2.2 j h2).2
            rw [hasg] at this
            cases this
      rw [ih (k + 1) pg hxs' hpg']
    | some gid =>
      dsimp only
      obtain ⟨is, hmem, hkin⟩ := hwf.lookup_mem hasg
      have hlg : alLookup groups gid = some is :=
        alLookup_eq_of_mem_nodup hwf.1 hmem
      have hsorted := (hwf.2.1 (gid, is) hmem).2.1
      have hlt : ∀ j ∈ is, j < leads.length :=
        fun j hj => ((hwf.2.1 (gid, is) hmem).2.2 j hj).1
      by_cases hin : gid ∈ pg
      · rw [if_pos hin]
        have hemit : mergeEmit leads groups asg k = none := by
          unfold mergeEmit
          rw [hasg]
          dsimp only
          rw [hlg]
          dsimp only
          obtain ⟨is0, hmem0, j, hj0, hjk⟩ := (hpg gid).mp hin
          have : is0 = is := hwf.eq_of_key hmem0 hmem
          subst this
          rw [if_neg (sorted_head_ne hsorted hkin hj0 hjk)]
        rw [hemit]
        have hpg' : ∀ gid', gid' ∈ pg ↔
            ∃ is', (gid', is') ∈ groups ∧ ∃ j ∈ is', j < k + 1 := by
          intro gid'
          rw [hpg gid']
          constructor
          · rintro ⟨is', h1, j, h2, h3⟩
            exact ⟨is', h1, j, h2, by omega⟩
          · rintro ⟨is', h1, j, h2, h3⟩
            rcases Nat.lt_succ_iff_lt_or_eq.mp h3 with h | h
            · exact ⟨is', h1, j, h2, h⟩
            · subst h
              have heq := ((hwf.2.1 (gid', is') h1).2.2 j h2).2
              rw [hasg] at heq
              have hg : gid' = gid := (Option.some.injEq .. ▸ heq).symm
              obtain ⟨is0, hmem0, j0, hj0, hjk⟩ := (hpg gid).mp hin
              rw [hg]
              exact ⟨is0, hmem0, j0, hj0, hjk⟩
        rw [ih (k + 1) pg hxs' hpg']
      · rw [if_neg hin]
        have hhead : is.head? = some k := by
          refine sorted_head_eq_min hsorted hkin ?_
          intro j hj hjk
          exact hin ((hpg gid).mpr ⟨is, hmem, j, hj, hjk⟩)
        rw [hlg]
        dsimp only
        rw [exMapM_leadAt leads is hlt]
        dsimp only
        obtain ⟨r, hr, _, _⟩ := mergeGroupRecord_ok
          (is.map (fun idx => leads.getD idx [])) gid
          (by
            intro hc
            rw [List.map_eq_nil] at hc
            subst hc
            cases hkin)
        rw [hr]
        dsimp only
        have hemit : mergeEmit leads groups asg k = some r := by
          unfold mergeEmit
          rw [hasg]
          dsimp only
          rw [hlg]
          dsimp only
          rw [if_pos hhead, hr]
        rw [hemit]
        have hpg' : ∀ gid', gid' ∈ gid :: pg ↔
            ∃ is', (gid', is') ∈ groups ∧ ∃ j ∈ is', j < k + 1 := by
          intro gid'
          constructor
          · intro h
            rcases List.mem_cons.mp h with rfl | h
            · exact ⟨is, hmem, k, hkin, by omega⟩
            · obtain ⟨is', h1, j, h2, h3⟩ := (hpg gid').mp h
              exact ⟨is', h1, j, h2, by omega⟩
          · rintro ⟨is', h1, j, h2, h3⟩
            rcases Nat.lt_succ_iff_lt_or_eq.mp h3 with h | h
            · exact List.mem_cons_of_mem _ ((hpg gid').mpr ⟨is', h1, j, h2, h⟩)
            · subst h
              have heq := ((hwf.2.1 (gid', is') h1).2.2 j h2).2
              rw [hasg] at heq
              have hg : gid' = gid := (Option.some.injEq .. ▸ heq).symm
              rw [hg]
              simp
        rw [ih (k + 1) (gid :: pg) hxs' hpg']

theorem merge_duplicates_structure (leads : List Lead)
    (groups : List (CGid × List Nat)) (asg : List (Nat × CGid))
    (hwf : GroupsWF leads.length groups asg) :
    merge_duplicates leads groups asg =
      Except.ok ((List.range leads.length).filterMap
        (mergeEmit leads groups asg)) := by
  have h := mergeLoop_structure leads groups asg hwf leads 0 []
    (by simp) (by
      intro gid
      simp only [List.not_mem_nil, false_iff]
      rintro ⟨is, _, j, _, h⟩
      omega)
  rw [show List.enumFrom 0 leads = leads.enum from rfl] at h
  rw [show merge_duplicates leads groups asg
      = mergeLoop leads groups asg leads.enum [] from rfl]
  rw [h, List.range_eq_range']

/-! ## Conservation: group sizes plus ungrouped records partition the input -/

theorem groupsWF_pairwise_disjoint {γ : Type} [DecidableEq γ] {n : Nat}
    {groups : List (γ × List Nat)} {asg : List (Nat × γ)}
    (hwf : GroupsWF n groups asg) :
    List.Pairwise List.Disjoint (groups.map Prod.snd) := by
  rw [List.pairwise_map]
  have hkey : groups.Pairwise (fun p q => p.1 ≠ q.1) :=
    List.pairwise_map.mp hwf.1
  refine List.Pairwise.imp_of_mem ?_ hkey
  intro p q hp hq hne j hjp hjq
  exact hwf.disjoint (by simpa using hp) (by simpa using hq) hne hjp hjq

theorem groupsWF_conservation {γ : Type} [DecidableEq γ] {n : Nat}
    {groups : List (γ × List Nat)} {asg : List (Nat × γ)}
    (hwf : GroupsWF n groups asg) :
    ((groups.map (fun p => p.2.length)).sum) +
      ((List.range n).filter (fun i => (alLookup asg i).isNone)).length
      = n := by
  have hnodup : (groups.map Prod.snd).join.Nodup := by
    rw [List.nodup_join]
    constructor
    · intro l hl
      rw [List.mem_map] at hl
      obtain ⟨p, hp, rfl⟩ := hl
      exact ((hwf.2.1 p hp).2.1).imp Nat.ne_of_lt
    · exact groupsWF_pairwise_disjoint hwf
  have hnodup2 : ((List.range n).filter
      (fun i => (alLookup asg i).isSome)).Nodup :=
    (List.nodup_range n).sublist (List.filter_sublist _)
  have hmemiff : ∀ x, x ∈ (groups.map Prod.snd).join ↔
      x ∈ (List.range n).filter (fun i => (alLookup asg i).isSome) := by
    intro x
    rw [List.mem_join, List.mem_filter, List.mem_range]
    constructor
    · rintro ⟨l, hl, hx⟩
      rw [List.mem_map] at hl
      obtain ⟨p, hp, rfl⟩ := hl
      obtain ⟨hlt, hlook⟩ := (hwf.2.1 p hp).2.2 x hx
      exact ⟨hlt, by rw [hlook]; rfl⟩
    · rintro ⟨hlt, hs⟩
      cases hlook : alLookup asg x with
      | none => rw [hlook] at hs; cases hs
      | some g =>
        obtain ⟨is, hmem, hx⟩ := hwf.lookup_mem hlook
        exact ⟨is, List.mem_map_of_mem Prod.snd hmem, hx⟩
  have hperm : (groups.map Prod.snd).join.Perm
      ((List.range n).filter (fun i => (alLookup asg i).isSome)) :=
    (List.perm_ext_iff_of_nodup hnodup hnodup2).mpr hmemiff
  have hlen1 : (groups.map Prod.snd).join.length =
      ((List.range n).filter (fun i => (alLookup asg i).isSome)).length :=
    hperm.length_eq
  have hlen2 : (groups.map Prod.snd).join.length =
      ((groups.map (fun p => p.2.length)).sum) := by
    rw [List.length_join, List.map_map]
    rfl
  have hsplit : n = ((List.range n).filter
        (fun i => (alLookup asg i).isSome)).length +
      ((List.range n).filter
        (fun i => !((alLookup asg i).isSome))).length := by
    have := List.length_eq_length_filter_add
      (l := List.range n) (fun i => (alLookup asg i).isSome)
    simpa using this
  have hfun : ((List.range n).filter (fun i => (alLookup asg i).isNone))
      = ((List.range n).filter (fun i => !((alLookup asg i).isSome))) := by
    congr 1
    funext i
    cases alLookup asg i <;> rfl
  rw [hfun, ← hlen2, hlen1]
  omega

/-! ## Contact-pass invariants: shared counter, tag order, sane groups -/

/-- Pass order of the contact tags. -/
def tagRank : KTag → Nat
  | KTag.email => 0
  | KTag.alias => 1
  | KTag.name => 2

/-- Invariant carried through the three passes of
`find_contact_duplicates`: the counter equals the number of groups created
so far, the numeric id of the `k`-th group is `k`, tags are monotone in
creation order and bounded by the running pass, members are nonempty and in
range, and every assignment entry names an existing group id. -/
structure CInv (n : Nat) (groups : List (KGid × List Nat))
    (asg : List (Nat × KGid)) (counter : Nat) (mt : Nat) : Prop where
  count_eq : counter = groups.length
  num_eq : ∀ k (h : k < groups.length), (groups.get ⟨k, h⟩).1.num = k
  tag_le : ∀ p ∈ groups, tagRank p.1.tag ≤ mt
  tag_mono : ∀ k k' (hk : k < groups.length) (hk' : k' < groups.length),
    k ≤ k' → tagRank (groups.get ⟨k, hk⟩).1.tag ≤
      tagRank (groups.get ⟨k', hk'⟩).1.tag
  mem_ne : ∀ p ∈ groups, p.2 ≠ []
  mem_lt : ∀ p ∈ groups, ∀ i ∈ p.2, i < n
  asg_keys : ∀ q ∈ asg, q.2 ∈ groups.map Prod.fst

theorem CInv.mono {n : Nat} {groups : List (KGid × List Nat)}
    {asg : List (Nat × KGid)} {counter mt mt' : Nat}
    (h : CInv n groups asg counter mt) (hle : mt ≤ mt') :
    CInv n groups asg counter mt' :=
  ⟨h.count_eq, h.num_eq, fun p hp => le_trans (h.tag_le p hp) hle,
    h.tag_mono, h.mem_ne, h.mem_lt, h.asg_keys⟩

theorem CInv.append {n : Nat} {groups : List (KGid × List Nat)}
    {asg : List (Nat × KGid)} {counter mt : Nat}
    (h : CInv n groups asg counter mt) (t : KTag) (ms : List Nat)
    (hms : ms ≠ []) (hlt : ∀ i ∈ ms, i < n) (htag : mt ≤ tagRank t) :
    CInv n (groups ++ [(⟨t, counter⟩, ms)])
      (asgWrite asg ⟨t, counter⟩ ms) (counter + 1) (tagRank t) := by
  have hlast : ∀ (hlen : groups.length <
      (groups ++ [((⟨t, counter⟩ : KGid), ms)]).length),
      (groups ++ [((⟨t, counter⟩ : KGid), ms)]).get ⟨groups.length, hlen⟩ =
        (⟨t, counter⟩, ms) := fun hlen => List.get_of_append rfl rfl
  refine ⟨?_, ?_, ?_, ?_, ?_, ?_, ?_⟩
  · rw [List.length_append, List.length_singleton, h.count_eq]
  · intro k hk
    rw [List.length_append, List.length_singleton] at hk
    by_cases hk2 : k < groups.length
    · rw [List.get_append _ hk2]
      exact h.num_eq k hk2
    · have hk3 : k = groups.length := by omega
      subst hk3
      rw [hlast]
      simp [h.count_eq]
  · intro p hp
    rcases List.mem_append.mp hp with hp | hp
    · exact le_trans (h.tag_le p hp) htag
    · simp only [List.mem_singleton] at hp
      subst hp
      exact le_refl _
  · intro k k' hk hk' hle
    rw [List.length_append, List.length_singleton] at hk hk'
    by_cases hk2 : k' < groups.length
    · have hk1 : k < groups.length := by omega
      rw [List.get_append _ hk1, List.get_append _ hk2]
      exact h.tag_mono k k' hk1 hk2 hle
    · have hk3 : k' = groups.length := by omega
      subst hk3
      rw [hlast]
      by_cases hk1 : k < groups.length
      · rw [List.get_append _ hk1]
        exact le_trans (h.tag_le _ (List.get_mem _ _ _)) htag
      · have hkk : k = groups.length := by omega
        subst hkk
        rw [hlast]
  · intro p hp
    rcases List.mem_append.mp hp with hp | hp
    · exact h.mem_ne p hp
    · simp only [List.mem_singleton] at hp
      subst hp
      exact hms
  · intro p hp
    rcases List.mem_append.mp hp with hp | hp
    · exact h.mem_lt p hp
    · simp only [List.mem_singleton] at hp
      subst hp
      exact hlt
  · intro q hq
    rcases asgWrite_mem ms asg _ hq with hq | hq
    · rw [hq.1, List.map_append]
      simp
    · rw [List.map_append]
      exact List.mem_append_left _ (h.asg_keys q hq)

theorem alLookup_isSome_of_key_mem {κ α : Type} [DecidableEq κ]
    {m : List (κ × α)} {k : κ} (h : k ∈ m.map Prod.fst) :
    (alLookup m k).isSome := by
  induction m with
  | nil => simp at h
  | cons p rest ih =>
    by_cases h1 : k = p.1
    · cases p
      simp [alLookup, h1]
    · cases p
      rw [List.map_cons] at h
      rcases List.mem_cons.mp h with h | h
      · exact absurd h h1
      · simpa [alLookup, h1] using ih h

theorem forall2_mem_right {α β : Type} {R : α → β → Prop} :
    ∀ {xs : List α} {ys : List β}, List.Forall₂ R xs ys → ∀ y ∈ ys,
      ∃ x ∈ xs, R x y := by
  intro xs ys h
  induction h with
  | nil => intro y hy; cases hy
  | cons hr _ ih =>
    intro y hy
    rcases List.mem_cons.mp hy with rfl | hy
    · exact ⟨_, by simp, hr⟩
    · obtain ⟨x, hx, hxy⟩ := ih y hy
      exact ⟨x, List.mem_cons_of_mem _ hx, hxy⟩

theorem aliasCollectAux_shape (leads : List Lead) (asg : List (Nat × KGid))
    (ei : PyV) (i : Nat) :
    ∀ (js ms p : List Nat) (r : List Nat × List Nat),
    aliasCollectAux leads asg ei i js ms p = Except.ok r →
    ∃ sel, r.1 = ms ++ sel ∧ ∀ x ∈ sel, x ∈ js := by
  intro js
  induction js with
  | nil =>
    intro ms p r h
    cases h
    exact ⟨[], by simp, by simp⟩
  | cons j js ih =>
    intro ms p r h
    rw [aliasCollectAux] at h
    by_cases h1 : j ≤ i ∨ j ∈ p ∨ (alLookup asg j).isSome
    · rw [if_pos h1] at h
      obtain ⟨sel, hs1, hs2⟩ := ih ms p r h
      exact ⟨sel, hs1, fun x hx => List.mem_cons_of_mem _ (hs2 x hx)⟩
    · rw [if_neg h1] at h
      cases hb : emails_are_aliases ei
          (dictGet (leads.getD j []) "email" (PyV.vstr [])) with
      | error e => rw [hb] at h; cases h
      | ok b =>
        rw [hb] at h
        cases b with
        | true =>
          simp only [if_true] at h
          obtain ⟨sel, hs1, hs2⟩ := ih (ms ++ [j]) (j :: p) r h
          refine ⟨j :: sel, by simpa using hs1, ?_⟩
          intro x hx
          rcases List.mem_cons.mp hx with rfl | hx
          · simp
          · exact List.mem_cons_of_mem _ (hs2 x hx)
        | false =>
          simp only [if_false] at h
          obtain ⟨sel, hs1, hs2⟩ := ih ms p r h
          exact ⟨sel, hs1, fun x hx => List.mem_cons_of_mem _ (hs2 x hx)⟩

theorem nameCollect_shape (leads : List Lead) (asg : List (Nat × KGid))
    (li : Lead) (i : Nat) :
    ∀ (js ms : List Nat) (r : List Nat),
    nameCollect leads asg li i js ms = Except.ok r →
    ∃ sel, r = ms ++ sel ∧ ∀ x ∈ sel, x ∈ js := by
  intro js
  induction js with
  | nil =>
    intro ms r h
    cases h
    exact ⟨[], by simp, by simp⟩
  | cons j js ih =>
    intro ms r h
    rw [nameCollect] at h
    by_cases h1 : j ≤ i ∨ (alLookup asg j).isSome
    · rw [if_pos h1] at h
      obtain ⟨sel, hs1, hs2⟩ := ih ms r h
      exact ⟨sel, hs1, fun x hx => List.mem_cons_of_mem _ (hs2 x hx)⟩
    · rw [if_neg h1] at h
      cases hb : same_company li (leads.getD j []) with
      | error e => rw [hb] at h; cases h
      | ok b =>
        rw [hb] at h
        cases b with
        | true =>
          simp only [if_true] at h
          cases hb2 : names_match li (leads.getD j []) with
          | error e => rw [hb2] at h; cases h
          | ok b2 =>
            rw [hb2] at h
            cases b2 with
            | true =>
              simp only [if_true] at h
              obtain ⟨sel, hs1, hs2⟩ := ih (ms ++ [j]) r h
              refine ⟨j :: sel, by simpa using hs1, ?_⟩
              intro x hx
              rcases List.mem_cons.mp hx with rfl | hx
              · simp
              · exact List.mem_cons_of_mem _ (hs2 x hx)
            | false =>
              simp only [if_false] at h
              obtain ⟨sel, hs1, hs2⟩ := ih ms r h
              exact ⟨sel, hs1, fun x hx => List.mem_cons_of_mem _ (hs2 x hx)⟩
        | false =>
          simp only [if_false] at h
          obtain ⟨sel, hs1, hs2⟩ := ih ms r h
          exact ⟨sel, hs1, fun x hx => List.mem_cons_of_mem _ (hs2 x hx)⟩

theorem emailKeyPairs_mem (nemails : List (Option PStr)) (e : PStr) (i : Nat) :
    (e, i) ∈ emailKeyPairs nemails ↔ nemails.get? i = some (some e) := by
  unfold emailKeyPairs
  rw [List.mem_filterMap]
  constructor
  · rintro ⟨p, hp, hf⟩
    obtain ⟨j, o⟩ := p
    rw [List.mem_enum_iff_get?] at hp
    cases o with
    | none => simp at hf
    | some e' =>
      simp at hf
      obtain ⟨rfl, rfl⟩ := hf
      exact hp
  · intro h
    exact ⟨(i, some e), List.mem_enum_iff_get?.mpr h, by simp⟩

theorem contactPass1_fold (big : List (PStr × List Nat)) :
    ∀ (gacc : List (KGid × List Nat)) (aacc : List (Nat × KGid)) (c : Nat),
    ∃ new,
      (List.foldl (fun st p =>
        (st.1 ++ [(⟨KTag.email, st.2.2⟩, p.2)],
         asgWrite st.2.1 ⟨KTag.email, st.2.2⟩ p.2, st.2.2 + 1))
        (gacc, aacc, c) big).1 = gacc ++ new ∧
      (List.foldl (fun st p =>
        (st.1 ++ [(⟨KTag.email, st.2.2⟩, p.2)],
         asgWrite st.2.1 ⟨KTag.email, st.2.2⟩ p.2, st.2.2 + 1))
        (gacc, aacc, c) big).2.2 = c + big.length ∧
      new.length = big.length ∧
      (∀ p ∈ new, p.1.tag = KTag.email ∧ p.2 ∈ big.map Prod.snd) ∧
      (∀ k (h : k < new.length), (new.get ⟨k, h⟩).1.num = c + k) ∧
      (∀ q ∈ (List.foldl (fun st p =>
        (st.1 ++ [(⟨KTag.email, st.2.2⟩, p.2)],
         asgWrite st.2.1 ⟨KTag.email, st.2.2⟩ p.2, st.2.2 + 1))
        (gacc, aacc, c) big).2.1,
        (∃ p ∈ new, p.1 = q.2 ∧ q.1 ∈ p.2) ∨ q ∈ aacc) := by
  induction big with
  | nil =>
    intro gacc aacc c
    exact ⟨[], by simp, by simp, by simp, by simp, by simp,
      fun q hq => Or.inr hq⟩
  | cons b big ih =>
    intro gacc aacc c
    obtain ⟨new', h1, h2, h3, h4, h5, h6⟩ :=
      ih (gacc ++ [(⟨KTag.email, c⟩, b.2)])
        (asgWrite aacc ⟨KTag.email, c⟩ b.2) (c + 1)
    refine ⟨(⟨KTag.email, c⟩, b.2) :: new', ?_, ?_, ?_, ?_, ?_, ?_⟩
    · simp only [List.foldl_cons]
      rw [h1]
      simp
    · simp only [List.foldl_cons]
      rw [h2, List.length_cons]
      omega
    · simp [h3]
    · intro p hp
      rcases List.mem_cons.mp hp with rfl | hp
      · exact ⟨rfl, by simp⟩
      · obtain ⟨ht, hm⟩ := h4 p hp
        exact ⟨ht, List.mem_cons_of_mem _ hm⟩
    · intro k hk
      cases k with
      | zero => simp
      | succ k =>
        rw [List.length_cons] at hk
        have hk' : k < new'.length := by omega
        show (new'.get ⟨k, hk'⟩).1.num = _
        rw [h5 k hk']
        omega
    · intro q hq
      simp only [List.foldl_cons] at hq
      rcases h6 q hq with ⟨p, hp, hh1, hh2⟩ | hq2
      · exact Or.inl ⟨p, List.mem_cons_of_mem _ hp, hh1, hh2⟩
      · rcases asgWrite_mem b.2 aacc _ hq2 with hn | ho
        · exact Or.inl ⟨(⟨KTag.email, c⟩, b.2), by simp, hn.1.symm, hn.2⟩
        · exact Or.inr ho

theorem get_congr {α : Type} {l l' : List α} (h : l = l') (k : Nat)
    (hk : k < l.length) :
    l.get ⟨k, hk⟩ = l'.get ⟨k, h ▸ hk⟩ := by
  subst h
  rfl

theorem contactPass1_cinv (nemails : List (Option PStr)) (n : Nat)
    (hn : nemails.length = n) :
    CInv n (contactPass1 nemails 0).1 (contactPass1 nemails 0).2.1
      (contactPass1 nemails 0).2.2 0 ∧
    (∀ p ∈ (contactPass1 nemails 0).1, p.1.tag = KTag.email ∧
      ∀ i ∈ p.2, ∃ e, nemails.get? i = some (some e)) := by
  obtain ⟨new, h1, h2, h3, h4, h5, h6⟩ :=
    contactPass1_fold ((groupPairs (emailKeyPairs nemails)).filter
      (fun p => 1 < p.2.length)) [] [] 0
  have hG : contactPass1 nemails 0 = List.foldl (fun st p =>
      (st.1 ++ [((⟨KTag.email, st.2.2⟩ : KGid), p.2)],
       asgWrite st.2.1 (⟨KTag.email, st.2.2⟩ : KGid) p.2, st.2.2 + 1))
      ([], [], 0) ((groupPairs (emailKeyPairs nemails)).filter
        (fun p => 1 < p.2.length)) := rfl
  have hmem : ∀ ms ∈ ((groupPairs (emailKeyPairs nemails)).filter
      (fun p => 1 < p.2.length)).map Prod.snd, ms ≠ [] ∧
      ∀ i ∈ ms, ∃ e, nemails.get? i = some (some e) := by
    intro ms hms
    rw [List.mem_map] at hms
    obtain ⟨p, hp, rfl⟩ := hms
    rw [List.mem_filter] at hp
    obtain ⟨hq1, hq2⟩ := (groupPairs_mem_iff _ p.1 p.2).mp (by simpa using hp.1)
    constructor
    · intro hc
      rw [hc] at hp
      simp at hp
    · intro i hi
      rw [hq2] at hi
      have := (mem_gpMembers_iff _ p.1 i).mp hi
      rw [emailKeyPairs_mem] at this
      exact ⟨p.1, this⟩
  have hg : (contactPass1 nemails 0).1 = new := by
    rw [hG, h1]
    simp
  have hcnt : (contactPass1 nemails 0).2.2 =
      (contactPass1 nemails 0).1.length := by
    rw [hG, h2, h1]
    simp [h3]
  constructor
  · refine ⟨hcnt, ?_, ?_, ?_, ?_, ?_, ?_⟩
    · intro k hk
      have hk2 : k < new.length := by rw [← hg]; exact hk
      rw [get_congr hg k hk, h5 k (hg ▸ hk)]
      omega
    · intro p hp
      rw [hg] at hp
      rw [(h4 p hp).1]
      exact le_refl _
    · intro k k' hk hk' hle
      rw [get_congr hg k hk, get_congr hg k' hk']
      rw [(h4 _ (List.get_mem _ _ _)).1, (h4 _ (List.get_mem _ _ _)).1]
    · intro p hp
      rw [hg] at hp
      exact (hmem p.2 ((h4 p hp).2)).1
    · intro p hp i hi
      rw [hg] at hp
      obtain ⟨e, he⟩ := (hmem p.2 ((h4 p hp).2)).2 i hi
      rw [← hn]
      exact (List.get?_eq_some.mp he).1
    · intro q hq
      rw [hG] at hq
      rcases h6 q hq with ⟨p, hp, hh1, hh2⟩ | hq2
      · rw [hg, ← hh1]
        exact List.mem_map_of_mem Prod.fst hp
      · cases hq2
  · intro p hp
    rw [hg] at hp
    exact ⟨(h4 p hp).1, (hmem p.2 ((h4 p hp).2)).2⟩

theorem aliasAnchorLoop_cons (leads : List Lead) (indices : List Nat)
    (i : Nat) (anchors processed : List Nat)
    (groups : List (KGid × List Nat)) (asg : List (Nat × KGid))
    (counter : Nat) :
    aliasAnchorLoop leads indices (i :: anchors) processed groups asg counter
    = if i ∈ processed ∨ (alLookup asg i).isSome then
        aliasAnchorLoop leads indices anchors processed groups asg counter
      else
        match aliasCollectAux leads asg
            (dictGet (leads.getD i []) "email" (PyV.vstr [])) i indices [i]
            processed with
        | Except.error e => Except.error e
        | Except.ok mp =>
          if 1 < mp.1.length then
            aliasAnchorLoop leads indices anchors (mp.1 ++ mp.2)
              (groups ++ [(⟨KTag.alias, counter⟩, mp.1)])
              (asgWrite asg ⟨KTag.alias, counter⟩ mp.1) (counter + 1)
          else aliasAnchorLoop leads indices anchors mp.2 groups asg
            counter := rfl

theorem aliasAnchorLoop_inv (leads : List Lead) (n : Nat)
    (indices : List Nat) (hind : ∀ x ∈ indices, x < n) :
    ∀ (anchors : List Nat), anchors ⊆ indices →
    ∀ (processed : List Nat) (groups : List (KGid × List Nat))
      (asg : List (Nat × KGid)) (counter mt : Nat)
      (r : List (KGid × List Nat) × List (Nat × KGid) × Nat),
    CInv n groups asg counter mt → mt ≤ 1 →
    aliasAnchorLoop leads indices anchors processed groups asg counter =
      Except.ok r →
    CInv n r.1 r.2.1 r.2.2 1 ∧
    ∃ new, r.1 = groups ++ new ∧ ∀ p ∈ new, p.1.tag = KTag.alias := by
  intro anchors
  induction anchors with
  | nil =>
    intro _ processed groups asg counter mt r hinv hmt h
    cases h
    exact ⟨(hinv.mono hmt : CInv n groups asg counter 1), [], by simp,
      by simp⟩
  | cons i anchors ih =>
    intro hsub processed groups asg counter mt r hinv hmt h
    have hsub' : anchors ⊆ indices :=
      fun x hx => hsub (List.mem_cons_of_mem _ hx)
    rw [aliasAnchorLoop_cons] at h
    by_cases h1 : i ∈ processed ∨ (alLookup asg i).isSome
    · rw [if_pos h1] at h
      exact ih hsub' processed groups asg counter mt r hinv hmt h
    · rw [if_neg h1] at h
      cases hcol : aliasCollectAux leads asg
          (dictGet (leads.getD i []) "email" (PyV.vstr [])) i indices [i]
          processed with
      | error e => rw [hcol] at h; cases h
      | ok mp =>
        rw [hcol] at h
        dsimp only at h
        by_cases h3 : 1 < mp.1.length
        · rw [if_pos h3] at h
          obtain ⟨sel, hs1, hs2⟩ := aliasCollectAux_shape leads asg _ i
            indices [i] processed mp hcol
          have hms : mp.1 ≠ [] := by rw [hs1]; simp
          have hlt : ∀ x ∈ mp.1, x < n := by
            intro x hx
            rw [hs1] at hx
            rcases List.mem_append.mp hx with hx | hx
            · rw [List.mem_singleton] at hx
              subst hx
              exact hind x (hsub (by simp))
            · exact hind x (hs2 x hx)
          have hinv' := hinv.append KTag.alias mp.1 hms hlt hmt
          obtain ⟨hc1, new, hnew1, hnew2⟩ := ih hsub' (mp.1 ++ mp.2)
            (groups ++ [(⟨KTag.alias, counter⟩, mp.1)])
            (asgWrite asg ⟨KTag.alias, counter⟩ mp.1) (counter + 1)
            (tagRank KTag.alias) r hinv' (le_refl _) h
          refine ⟨hc1, (⟨KTag.alias, counter⟩, mp.1) :: new, ?_, ?_⟩
          · rw [hnew1]
            simp
          · intro p hp
            rcases List.mem_cons.mp hp with rfl | hp
            · rfl
            · exact hnew2 p hp
        · rw [if_neg h3] at h
          exact ih hsub' mp.2 groups asg counter mt r hinv hmt h

theorem aliasDomainLoop_inv (leads : List Lead) (n : Nat) :
    ∀ (items : List (PStr × List Nat)),
    (∀ p ∈ items, ∀ x ∈ p.2, x < n) →
    ∀ (groups : List (KGid × List Nat)) (asg : List (Nat × KGid))
      (counter mt : Nat)
      (r : List (KGid × List Nat) × List (Nat × KGid) × Nat),
    CInv n groups asg counter mt → mt ≤ 1 →
    aliasDomainLoop leads items groups asg counter = Except.ok r →
    CInv n r.1 r.2.1 r.2.2 1 ∧
    ∃ new, r.1 = groups ++ new ∧ ∀ p ∈ new, p.1.tag = KTag.alias := by
  intro items
  induction items with
  | nil =>
    intro _ groups asg counter mt r hinv hmt h
    cases h
    exact ⟨(hinv.mono hmt : CInv n groups asg counter 1), [], by simp,
      by simp⟩
  | cons it items ih =>
    intro hlt groups asg counter mt r hinv hmt h
    obtain ⟨d, indices⟩ := it
    have hlt' : ∀ p ∈ items, ∀ x ∈ p.2, x < n :=
      fun p hp => hlt p (List.mem_cons_of_mem _ hp)
    rw [show aliasDomainLoop leads ((d, indices) :: items) groups asg counter
        = if indices.length < 2 then
            aliasDomainLoop leads items groups asg counter
          else if d ∈ genericDomains then
            aliasDomainLoop leads items groups asg counter
          else
            match aliasAnchorLoop leads indices indices [] groups asg
                counter with
            | Except.error e => Except.error e
            | Except.ok r2 =>
              aliasDomainLoop leads items r2.1 r2.2.1 r2.2.2 from rfl] at h
    by_cases h1 : indices.length < 2
    · rw [if_pos h1] at h
      exact ih hlt' groups asg counter mt r hinv hmt h
    · rw [if_neg h1] at h
      by_cases h2 : d ∈ genericDomains
      · rw [if_pos h2] at h
        exact ih hlt' groups asg counter mt r hinv hmt h
      · rw [if_neg h2] at h
        cases hanc : aliasAnchorLoop leads indices indices [] groups asg
            counter with
        | error e => rw [hanc] at h; cases h
        | ok r2 =>
          rw [hanc] at h
          dsimp only at h
          obtain ⟨hc1, new1, hn1, hn2⟩ := aliasAnchorLoop_inv leads n indices
            (hlt (d, indices) (by simp)) indices (fun x hx => hx) [] groups
            asg counter mt r2 hinv hmt hanc
          obtain ⟨hc2, new2, hm1, hm2⟩ := ih hlt' r2.1 r2.2.1 r2.2.2 1 r hc1
            (le_refl _) h
          refine ⟨hc2, new1 ++ new2, ?_, ?_⟩
          · rw [hm1, hn1, List.append_assoc]
          · intro p hp
            rcases List.mem_append.mp hp with hp | hp
            · exact hn2 p hp
            · exact hm2 p hp

theorem nameAnchorLoop_cons (leads : List Lead) (ung : List Nat) (i : Nat)
    (anchors : List Nat) (groups : List (KGid × List Nat))
    (asg : List (Nat × KGid)) (counter : Nat) :
    nameAnchorLoop leads ung (i :: anchors) groups asg counter
    = if (alLookup asg i).isSome then
        nameAnchorLoop leads ung anchors groups asg counter
      else
        if !(pyTruthyO (dictGetOpt (leads.getD i []) "full_name")) &&
            !(pyTruthyO (dictGetOpt (leads.getD i []) "first_name") &&
              pyTruthyO (dictGetOpt (leads.getD i []) "last_name")) then
          nameAnchorLoop leads ung anchors groups asg counter
        else
          match nameCollect leads asg (leads.getD i []) i ung [i] with
          | Except.error e => Except.error e
          | Except.ok ms =>
            if 1 < ms.length then
              nameAnchorLoop leads ung anchors
                (groups ++ [(⟨KTag.name, counter⟩, ms)])
                (asgWrite asg ⟨KTag.name, counter⟩ ms) (counter + 1)
            else nameAnchorLoop leads ung anchors groups asg counter := rfl

theorem nameAnchorLoop_inv (leads : List Lead) (n : Nat) (ung : List Nat)
    (hind : ∀ x ∈ ung, x < n) :
    ∀ (anchors : List Nat), anchors ⊆ ung →
    ∀ (groups : List (KGid × List Nat)) (asg : List (Nat × KGid))
      (counter mt : Nat)
      (r : List (KGid × List Nat) × List (Nat × KGid) × Nat),
    CInv n groups asg counter mt → mt ≤ 2 →
    nameAnchorLoop leads ung anchors groups asg counter = Except.ok r →
    CInv n r.1 r.2.1 r.2.2 2 ∧
    ∃ new, r.1 = groups ++ new ∧ ∀ p ∈ new, p.1.tag = KTag.name := by
  intro anchors
  induction anchors with
  | nil =>
    intro _ groups asg counter mt r hinv hmt h
    cases h
    exact ⟨(hinv.mono hmt : CInv n groups asg counter 2), [], by simp,
      by simp⟩
  | cons i anchors ih =>
    intro hsub groups asg counter mt r hinv hmt h
    have hsub' : anchors ⊆ ung :=
      fun x hx => hsub (List.mem_cons_of_mem _ hx)
    rw [nameAnchorLoop_cons] at h
    by_cases h1 : (alLookup asg i).isSome
    · rw [if_pos h1] at h
      exact ih hsub' groups asg counter mt r hinv hmt h
    · rw [if_neg h1] at h
      by_cases h2 : (!(pyTruthyO (dictGetOpt (leads.getD i []) "full_name")) &&
          !(pyTruthyO (dictGetOpt (leads.getD i []) "first_name") &&
            pyTruthyO (dictGetOpt (leads.getD i []) "last_name"))) = true
      · rw [if_pos h2] at h
        exact ih hsub' groups asg counter mt r hinv hmt h
      · rw [if_neg h2] at h
        cases hcol : nameCollect leads asg (leads.getD i []) i ung [i] with
        | error e => rw [hcol] at h; cases h
        | ok ms =>
          rw [hcol] at h
          dsimp only at h
          by_cases h3 : 1 < ms.length
          · rw [if_pos h3] at h
            obtain ⟨sel, hs1, hs2⟩ := nameCollect_shape leads asg _ i ung [i]
              ms hcol
            have hms : ms ≠ [] := by rw [hs1]; simp
            have hlt : ∀ x ∈ ms, x < n := by
              intro x hx
              rw [hs1] at hx
              rcases List.mem_append.mp hx with hx | hx
              · rw [List.mem_singleton] at hx
                subst hx
                exact hind x (hsub (by simp))
              · exact hind x (hs2 x hx)
            have hinv' := hinv.append KTag.name ms hms hlt hmt
            obtain ⟨hc1, new, hnew1, hnew2⟩ := ih hsub'
              (groups ++ [(⟨KTag.name, counter⟩, ms)])
              (asgWrite asg ⟨KTag.name, counter⟩ ms) (counter + 1)
              (tagRank KTag.name) r hinv' (by simp [tagRank]) h
            refine ⟨hc1, (⟨KTag.name, counter⟩, ms) :: new, ?_, ?_⟩
            · rw [hnew1]
              simp
            · intro p hp
              rcases List.mem_cons.mp hp with rfl | hp
              · rfl
              · exact hnew2 p hp
          · rw [if_neg h3] at h
            exact ih hsub' groups asg counter mt r hinv hmt h

theorem contactDomainPairs_mem (leads : List Lead) (ung : List Nat)
    (dpairs : List (PStr × Nat))
    (h : contactDomainPairs leads ung = Except.ok dpairs) :
    ∀ q ∈ dpairs, q.2 ∈ ung := by
  unfold contactDomainPairs at h
  cases hm : exMapM (fun i =>
      match dictGet (leads.getD i []) "email" (PyV.vstr []) with
      | PyV.vstr s =>
        if s.isEmpty then Except.ok none
        else if '@' ∈ s then
          Except.ok (some (pyLower ((splitOnChar '@' s).getD 1 []), i))
        else Except.ok none
      | PyV.vnone => Except.ok none
      | PyV.vint n => if n = 0 then Except.ok none
        else Except.error ()) ung with
  | error e => rw [hm] at h; cases h
  | ok l =>
    rw [hm] at h
    dsimp only at h
    injection h with h
    subst h
    intro q hq
    rw [List.mem_filterMap] at hq
    obtain ⟨o, ho, hoq⟩ := hq
    simp only [id] at hoq
    subst hoq
    obtain ⟨i, hi, hfi⟩ := forall2_mem_right (exMapM_ok_forall2 hm) _ ho
    cases hd : dictGet (leads.getD i []) "email" (PyV.vstr []) with
    | vstr s =>
      rw [hd] at hfi
      by_cases h1 : s.isEmpty
      · simp [h1] at hfi
      · by_cases h2 : '@' ∈ s
        · simp only [h1, h2, if_true, if_false, Bool.false_eq_true] at hfi
          injection hfi with hfi
          injection hfi with hfi
          subst hfi
          exact hi
        · simp [h1, h2] at hfi
    | vnone =>
      rw [hd] at hfi
      simp at hfi
    | vint m =>
      rw [hd] at hfi
      by_cases h1 : m = 0 <;> simp [h1] at hfi

theorem find_contact_duplicates_inv (leads : List Lead)
    (r : List (KGid × List Nat) × List (Nat × KGid))
    (h : find_contact_duplicates leads = Except.ok r) :
    ∃ counter nemails,
      normalizedEmails leads = Except.ok nemails ∧
      CInv leads.length r.1 r.2 counter 2 ∧
      (∀ p ∈ r.1, p.1.tag = KTag.email →
        ∀ i ∈ p.2, ∃ e, nemails.get? i = some (some e)) := by
  unfold find_contact_duplicates at h
  cases hne : normalizedEmails leads with
  | error e => rw [hne] at h; cases h
  | ok nemails =>
    rw [hne] at h
    dsimp only at h
    have hn : nemails.length = leads.length :=
      ((exMapM_ok_forall2 hne).length_eq).symm
    obtain ⟨hc1, hprov⟩ := contactPass1_cinv nemails leads.length hn
    cases hdp : contactDomainPairs leads
        (ungroupedIdx leads.length (contactPass1 nemails 0).2.1) with
    | error e => rw [hdp] at h; cases h
    | ok dpairs =>
      rw [hdp] at h
      dsimp only at h
      cases hal : aliasDomainLoop leads (groupPairs dpairs)
          (contactPass1 nemails 0).1 (contactPass1 nemails 0).2.1
          (contactPass1 nemails 0).2.2 with
      | error e => rw [hal] at h; cases h
      | ok r2 =>
        rw [hal] at h
        dsimp only at h
        cases hnm : nameAnchorLoop leads
            (ungroupedIdx leads.length r2.2.1)
            (ungroupedIdx leads.length r2.2.1) r2.1 r2.2.1 r2.2.2 with
        | error e => rw [hnm] at h; cases h
        | ok r3 =>
          rw [hnm] at h
          dsimp only at h
          injection h with h
          subst h
          have hdm : ∀ p ∈ groupPairs dpairs, ∀ x ∈ p.2,
              x < leads.length := by
            intro p hp x hx
            obtain ⟨k, is⟩ := p
            rw [groupPairs_mem_iff] at hp
            rw [hp.2] at hx
            have hkx := (mem_gpMembers_iff dpairs k x).mp hx
            have := contactDomainPairs_mem leads _ dpairs hdp (k, x) hkx
            unfold ungroupedIdx at this
            rw [List.mem_filter] at this
            exact List.mem_range.mp this.1
          obtain ⟨hc2, new1, hnw1, hnw1t⟩ := aliasDomainLoop_inv leads
            leads.length (groupPairs dpairs) hdm (contactPass1 nemails 0).1
            (contactPass1 nemails 0).2.1 (contactPass1 nemails 0).2.2 0 r2
            hc1 (by omega) hal
          have hung3 : ∀ x ∈ ungroupedIdx leads.length r2.2.1,
              x < leads.length := by
            intro x hx
            unfold ungroupedIdx at hx
            rw [List.mem_filter] at hx
            exact List.mem_range.mp hx.1
          obtain ⟨hc3, new2, hnw2, hnw2t⟩ := nameAnchorLoop_inv leads
            leads.length (ungroupedIdx leads.length r2.2.1) hung3
            (ungroupedIdx leads.length r2.2.1) (fun x hx => hx) r2.1 r2.2.1
            r2.2.2 1 r3 hc2 (by omega) hnm
          refine ⟨r3.2.2, nemails, rfl, hc3, ?_⟩
          intro p hp htag i hi
          rw [hnw2, hnw1] at hp
          rcases List.mem_append.mp hp with hp | hp
          · rcases List.mem_append.mp hp with hp | hp
            · exact (hprov p hp).2 i hi
            · rw [hnw1t p hp] at htag
              cases htag
          · rw [hnw2t p hp] at htag
            cases htag

/-! ## Safety: the matching core raises nothing on all-string records -/

theorem toNat_ofNat_small (m : Nat) (h : m < 55296) :
    (Char.ofNat m).toNat = m := by
  have hv : m.isValidChar := Or.inl h
  simp [Char.ofNat, Char.ofNatAux, Char.toNat, UInt32.toNat, hv]

theorem lowerChar_at_iff (c : Char) : lowerChar c = '@' ↔ c = '@' := by
  unfold lowerChar
  by_cases h : 65 ≤ c.toNat ∧ c.toNat ≤ 90
  · rw [if_pos h]
    constructor
    · intro hc
      have := congrArg Char.toNat hc
      rw [toNat_ofNat_small (c.toNat + 32) (by omega),
        show ('@').toNat = 64 from rfl] at this
      omega
    · intro hc
      subst hc
      rw [show ('@').toNat = 64 from rfl] at h
      omega
  · rw [if_neg h]

theorem count_at_pyLower (s : PStr) : (pyLower s).count '@' = s.count '@' := by
  induction s with
  | nil => rfl
  | cons c cs ih =>
    unfold pyLower at ih ⊢
    rw [List.map_cons, List.count_cons, List.count_cons, ih]
    by_cases h : c = '@'
    · subst h
      rw [(lowerChar_at_iff '@').mpr rfl]
    · have h2 : ¬ lowerChar c = '@' := fun hc => h ((lowerChar_at_iff c).mp hc)
      simp [h, h2]

theorem count_at_pyStrip_le (s : PStr) :
    (pyStrip s).count '@' ≤ s.count '@' := by
  unfold pyStrip
  rw [List.count_reverse]
  calc (((s.dropWhile isPySpace).reverse).dropWhile isPySpace).count '@'
      ≤ ((s.dropWhile isPySpace).reverse).count '@' :=
        (List.dropWhile_sublist _).count_le _
    _ = (s.dropWhile isPySpace).count '@' := List.count_reverse _ _
    _ ≤ s.count '@' := (List.dropWhile_sublist _).count_le _

theorem splitOnChar_ne_nil (sep : Char) (s : PStr) :
    splitOnChar sep s ≠ [] := by
  cases s with
  | nil => simp [splitOnChar]
  | cons c cs =>
    unfold splitOnChar
    cases splitOnChar sep cs with
    | nil => simp
    | cons w ws =>
      by_cases h : c = sep <;> simp [h]

theorem splitOnChar_length (sep : Char) (s : PStr) :
    (splitOnChar sep s).length = s.count sep + 1 := by
  induction s with
  | nil => rfl
  | cons c cs ih =>
    unfold splitOnChar
    cases hs : splitOnChar sep cs with
    | nil => exact absurd hs (splitOnChar_ne_nil sep cs)
    | cons w ws =>
      rw [hs] at ih
      dsimp only
      by_cases h : c = sep
      · rw [if_pos h]
        simp [List.count_cons, h] at ih ⊢
        omega
      · rw [if_neg h]
        simp [List.count_cons, h] at ih ⊢
        omega

theorem normalize_email_ok (s : PStr) (h : s.count '@' ≤ 1) :
    ∃ o, normalize_email (PyV.vstr s) = Except.ok o := by
  simp only [normalize_email]
  by_cases h1 : s.isEmpty
  · exact ⟨none, by rw [if_pos h1]⟩
  · rw [if_neg h1]
    by_cases h2 : '@' ∈ pyStrip (pyLower s)
    · rw [if_pos h2]
      have hc1 : 0 < (pyStrip (pyLower s)).count '@' :=
        List.count_pos_iff.mpr h2
      have hc2 : (pyStrip (pyLower s)).count '@' ≤ 1 :=
        le_trans (count_at_pyStrip_le _) (by rwa [count_at_pyLower])
      have hlen : (splitOnChar '@' (pyStrip (pyLower s))).length = 2 := by
        rw [splitOnChar_length]
        omega
      obtain ⟨a, b, hab⟩ := List.length_eq_two.mp hlen
      rw [hab]
      dsimp only
      by_cases h3 : b.isEmpty
      · exact ⟨none, by rw [if_pos h3]⟩
      · exact ⟨_, by rw [if_neg h3]⟩
    · exact ⟨none, by rw [if_neg h2]⟩

theorem safeLead_getD (leads : List Lead) (h : safeLeads leads = true)
    (i : Nat) : safeLead (leads.getD i []) = true := by
  cases hg : leads.get? i with
  | none =>
    rw [List.getD, hg]
    rfl
  | some l =>
    rw [List.getD, hg]
    exact List.all_eq_true.mp h l (List.get?_mem hg)

theorem dictGetOpt_safe (l : Lead) (h : safeLead l = true) (k : String)
    (v : PyV) (hv : dictGetOpt l k = some v) :
    ∃ s, v = PyV.vstr s ∧ (k = "email" → s.count '@' ≤ 1) := by
  have hmem : (k, v) ∈ l := alLookup_mem hv
  have hs := List.all_eq_true.mp h _ hmem
  cases v with
  | vstr s =>
    refine ⟨s, rfl, ?_⟩
    intro hk
    rw [hk] at hs
    simp [safeVal] at hs
    exact hs
  | vnone => simp [safeVal] at hs
  | vint n => simp [safeVal] at hs

theorem dictGet_safe (l : Lead) (h : safeLead l = true) (k : String) :
    ∃ s, dictGet l k (PyV.vstr []) = PyV.vstr s ∧
      (k = "email" → s.count '@' ≤ 1) := by
  unfold dictGet
  cases hv : alLookup l k with
  | none => exact ⟨[], rfl, fun _ => by simp⟩
  | some v =>
    obtain ⟨s, rfl, hc⟩ := dictGetOpt_safe l h k v hv
    exact ⟨s, rfl, hc⟩

theorem extractEmailDomain_ok (l : Lead) (h : safeLead l = true) :
    ∃ o, extractEmailDomain l = Except.ok o := by
  unfold extractEmailDomain
  cases hv : dictGetOpt l "email" with
  | none => exact ⟨none, rfl⟩
  | some v =>
    obtain ⟨s, rfl, _⟩ := dictGetOpt_safe l h _ v hv
    dsimp only
    by_cases h1 : s.isEmpty
    · exact ⟨none, by rw [if_pos h1]⟩
    · by_cases h2 : '@' ∈ s
      · exact ⟨_, by rw [if_neg h1, if_pos h2]⟩
      · exact ⟨none, by rw [if_neg h1, if_neg h2]⟩

theorem extract_domain_ok (l : Lead) (h : safeLead l = true) :
    ∃ o, extract_domain l = Except.ok o := by
  obtain ⟨o, ho⟩ := extractEmailDomain_ok l h
  unfold extract_domain
  cases hv : dictGetOpt l "company_domain" with
  | none => exact ⟨o, ho⟩
  | some v =>
    obtain ⟨s, rfl, _⟩ := dictGetOpt_safe l h _ v hv
    dsimp only
    by_cases h1 : s.isEmpty
    · exact ⟨o, by rw [if_pos h1]; exact ho⟩
    · exact ⟨_, by rw [if_neg h1]⟩

theorem normNamePairs_ok (leads : List Lead) (h : safeLeads leads = true)
    (ung : List Nat) : ∃ nps, normNamePairs leads ung = Except.ok nps := by
  unfold normNamePairs
  apply exMapM_ok_of_all
  intro i _
  obtain ⟨s, hs, _⟩ := dictGet_safe (leads.getD i [])
    (safeLead_getD leads h i) "company_name"
  rw [hs]
  exact ⟨(i, normCompany s), rfl⟩

theorem find_duplicates_ok (leads : List Lead) (θ : ℚ)
    (h : safeLeads leads = true) :
    ∃ r, find_duplicates leads θ = Except.ok r := by
  obtain ⟨doms, hdoms⟩ := exMapM_ok_of_all (fun l hl =>
    extract_domain_ok l (List.all_eq_true.mp h l hl))
  unfold find_duplicates
  rw [hdoms]
  dsimp only
  obtain ⟨nps, hnps⟩ := normNamePairs_ok leads h
    (ungroupedIdx leads.length (pass1Result doms).2)
  rw [hnps]
  exact ⟨_, rfl⟩

theorem emails_are_aliases_ok (v1 v2 : PyV) (h1 : ∃ s, v1 = PyV.vstr s)
    (h2 : ∃ s, v2 = PyV.vstr s) :
    ∃ b, emails_are_aliases v1 v2 = Except.ok b := by
  obtain ⟨s1, rfl⟩ := h1
  obtain ⟨s2, rfl⟩ := h2
  unfold emails_are_aliases
  by_cases hT : (!pyTruthy (PyV.vstr s1) || !pyTruthy (PyV.vstr s2)) = true
  · exact ⟨false, by rw [if_pos hT]⟩
  · rw [if_neg hT]
    simp only [pyLowerV]
    repeat' split
    all_goals exact ⟨_, rfl⟩

theorem namesFirstLast_ok (l1 l2 : Lead) (h1 : safeLead l1 = true)
    (h2 : safeLead l2 = true) :
    ∃ b, namesFirstLast l1 l2 = Except.ok b := by
  obtain ⟨f1, hf1, _⟩ := dictGet_safe l1 h1 "first_name"
  obtain ⟨la1, hla1, _⟩ := dictGet_safe l1 h1 "last_name"
  obtain ⟨f2, hf2, _⟩ := dictGet_safe l2 h2 "first_name"
  obtain ⟨la2, hla2, _⟩ := dictGet_safe l2 h2 "last_name"
  unfold namesFirstLast
  rw [hf1, hla1, hf2, hla2]
  simp only [pyLowerV]
  repeat' split
  all_goals exact ⟨_, rfl⟩

theorem names_match_ok (l1 l2 : Lead) (h1 : safeLead l1 = true)
    (h2 : safeLead l2 = true) :
    ∃ b, names_match l1 l2 = Except.ok b := by
  obtain ⟨n1, hn1, _⟩ := dictGet_safe l1 h1 "full_name"
  obtain ⟨n2, hn2, _⟩ := dictGet_safe l2 h2 "full_name"
  unfold names_match
  rw [hn1, hn2]
  simp only [pyLowerV]
  repeat' split
  all_goals first
    | exact ⟨_, rfl⟩
    | exact namesFirstLast_ok l1 l2 h1 h2

theorem sameCompanyNames_ok (l1 l2 : Lead) (h1 : safeLead l1 = true)
    (h2 : safeLead l2 = true) :
    ∃ b, sameCompanyNames l1 l2 = Except.ok b := by
  obtain ⟨c1, hc1, _⟩ := dictGet_safe l1 h1 "company_name"
  obtain ⟨c2, hc2, _⟩ := dictGet_safe l2 h2 "company_name"
  unfold sameCompanyNames
  rw [hc1, hc2]
  simp only [pyLowerV]
  exact ⟨_, rfl⟩

theorem same_company_ok (l1 l2 : Lead) (h1 : safeLead l1 = true)
    (h2 : safeLead l2 = true) :
    ∃ b, same_company l1 l2 = Except.ok b := by
  obtain ⟨d1, hd1, _⟩ := dictGet_safe l1 h1 "company_domain"
  obtain ⟨d2, hd2, _⟩ := dictGet_safe l2 h2 "company_domain"
  obtain ⟨e1, he1, _⟩ := dictGet_safe l1 h1 "email"
  obtain ⟨e2, he2, _⟩ := dictGet_safe l2 h2 "email"
  unfold same_company
  rw [hd1, hd2, he1, he2]
  simp only [pyLowerV, emailDomainOf]
  repeat' split
  all_goals first
    | exact ⟨_, rfl⟩
    | exact sameCompanyNames_ok l1 l2 h1 h2

theorem aliasCollectAux_ok (leads : List Lead) (h : safeLeads leads = true)
    (asg : List (Nat × KGid)) (ei : PyV) (hei : ∃ s, ei = PyV.vstr s)
    (i : Nat) : ∀ (js ms p : List Nat),
    ∃ r, aliasCollectAux leads asg ei i js ms p = Except.ok r := by
  intro js
  induction js with
  | nil => intro ms p; exact ⟨(ms, p), rfl⟩
  | cons j js ih =>
    intro ms p
    unfold aliasCollectAux
    by_cases h1 : j ≤ i ∨ j ∈ p ∨ (alLookup asg j).isSome
    · rw [if_pos h1]
      exact ih ms p
    · rw [if_neg h1]
      obtain ⟨sj, hsj, _⟩ := dictGet_safe (leads.getD j [])
        (safeLead_getD leads h j) "email"
      obtain ⟨b, hb⟩ := emails_are_aliases_ok ei _ hei ⟨sj, hsj⟩
      rw [hb]
      dsimp only
      by_cases h2 : b = true
      · rw [if_pos h2]
        exact ih (ms ++ [j]) (j :: p)
      · rw [if_neg h2]
        exact ih ms p

theorem aliasAnchorLoop_ok (leads : List Lead) (h : safeLeads leads = true)
    (indices : List Nat) : ∀ (anchors processed : List Nat)
    (groups : List (KGid × List Nat)) (asg : List (Nat × KGid))
    (counter : Nat),
    ∃ r, aliasAnchorLoop leads indices anchors processed groups asg counter
      = Except.ok r := by
  intro anchors
  induction anchors with
  | nil => intro p gr asg c; exact ⟨(gr, asg, c), rfl⟩
  | cons i anchors ih =>
    intro p gr asg c
    rw [aliasAnchorLoop_cons]
    by_cases h1 : i ∈ p ∨ (alLookup asg i).isSome
    · rw [if_pos h1]
      exact ih p gr asg c
    · rw [if_neg h1]
      obtain ⟨si, hsi, _⟩ := dictGet_safe (leads.getD i [])
        (safeLead_getD leads h i) "email"
      obtain ⟨mp, hmp⟩ := aliasCollectAux_ok leads h asg _ ⟨si, hsi⟩ i
        indices [i] p
      rw [hmp]
      dsimp only
      by_cases h2 : 1 < mp.1.length
      · rw [if_pos h2]
        exact ih _ _ _ _
      · rw [if_neg h2]
        exact ih _ _ _ _

theorem aliasDomainLoop_ok (leads : List Lead) (h : safeLeads leads = true) :
    ∀ (items : List (PStr × List Nat)) (groups : List (KGid × List Nat))
    (asg : List (Nat × KGid)) (counter : Nat),
    ∃ r, aliasDomainLoop leads items groups asg counter = Except.ok r := by
  intro items
  induction items with
  | nil => intro gr asg c; exact ⟨(gr, asg, c), rfl⟩
  | cons it items ih =>
    intro gr asg c
    obtain ⟨d, indices⟩ := it
    show ∃ r, (if indices.length < 2 then aliasDomainLoop leads items gr asg c
      else if d ∈ genericDomains then aliasDomainLoop leads items gr asg c
      else
        match aliasAnchorLoop leads indices indices [] gr asg c with
        | Except.error e => Except.error e
        | Except.ok r2 => aliasDomainLoop leads items r2.1 r2.2.1 r2.2.2)
      = Except.ok r
    by_cases h1 : indices.length < 2
    · rw [if_pos h1]
      exact ih gr asg c
    · rw [if_neg h1]
      by_cases h2 : d ∈ genericDomains
      · rw [if_pos h2]
        exact ih gr asg c
      · rw [if_neg h2]
        obtain ⟨r2, hr2⟩ := aliasAnchorLoop_ok leads h indices indices [] gr
          asg c
        rw [hr2]
        exact ih r2.1 r2.2.1 r2.2.2

theorem nameCollect_ok (leads : List Lead) (h : safeLeads leads = true)
    (asg : List (Nat × KGid)) (li : Lead) (hli : safeLead li = true)
    (i : Nat) : ∀ (js ms : List Nat),
    ∃ r, nameCollect leads asg li i js ms = Except.ok r := by
  intro js
  induction js with
  | nil => intro ms; exact ⟨ms, rfl⟩
  | cons j js ih =>
    intro ms
    unfold nameCollect
    by_cases h1 : j ≤ i ∨ (alLookup asg j).isSome
    · rw [if_pos h1]
      exact ih ms
    · rw [if_neg h1]
      obtain ⟨b, hb⟩ := same_company_ok li (leads.getD j []) hli
        (safeLead_getD leads h j)
      rw [hb]
      dsimp only
      by_cases h2 : b = true
      · rw [if_pos h2]
        obtain ⟨b2, hb2⟩ := names_match_ok li (leads.getD j []) hli
          (safeLead_getD leads h j)
        rw [hb2]
        dsimp only
        by_cases h3 : b2 = true
        · rw [if_pos h3]
          exact ih (ms ++ [j])
        · rw [if_neg h3]
          exact ih ms
      · rw [if_neg h2]
        exact ih ms

theorem nameAnchorLoop_ok (leads : List Lead) (h : safeLeads leads = true)
    (ung : List Nat) : ∀ (anchors : List Nat)
    (groups : List (KGid × List Nat)) (asg : List (Nat × KGid))
    (counter : Nat),
    ∃ r, nameAnchorLoop leads ung anchors groups asg counter
      = Except.ok r := by
  intro anchors
  induction anchors with
  | nil => intro gr asg c; exact ⟨(gr, asg, c), rfl⟩
  | cons i anchors ih =>
    intro gr asg c
    rw [nameAnchorLoop_cons]
    by_cases h1 : (alLookup asg i).isSome
    · rw [if_pos h1]
      exact ih gr asg c
    · rw [if_neg h1]
      by_cases h2 : (!(pyTruthyO (dictGetOpt (leads.getD i []) "full_name")) &&
          !(pyTruthyO (dictGetOpt (leads.getD i []) "first_name") &&
            pyTruthyO (dictGetOpt (leads.getD i []) "last_name"))) = true
      · rw [if_pos h2]
        exact ih gr asg c
      · rw [if_neg h2]
        obtain ⟨ms, hms⟩ := nameCollect_ok leads h asg (leads.getD i [])
          (safeLead_getD leads h i) i ung [i]
        rw [hms]
        dsimp only
        by_cases h3 : 1 < ms.length
        · rw [if_pos h3]
          exact ih _ _ _
        · rw [if_neg h3]
          exact ih gr asg c

theorem normalizedEmails_ok (leads : List Lead) (h : safeLeads leads = true) :
    ∃ ne, normalizedEmails leads = Except.ok ne := by
  unfold normalizedEmails
  apply exMapM_ok_of_all
  intro l hl
  obtain ⟨s, hs, hc⟩ := dictGet_safe l (List.all_eq_true.mp h l hl) "email"
  rw [hs]
  exact normalize_email_ok s (hc rfl)

theorem contactDomainPairs_ok (leads : List Lead) (h : safeLeads leads = true)
    (ung : List Nat) : ∃ d, contactDomainPairs leads ung = Except.ok d := by
  have hall : ∀ i ∈ ung, ∃ y, (match dictGet (leads.getD i []) "email"
      (PyV.vstr []) with
    | PyV.vstr s =>
      if s.isEmpty then Except.ok none
      else if '@' ∈ s then
        Except.ok (some (pyLower ((splitOnChar '@' s).getD 1 []), i))
      else Except.ok none
    | PyV.vnone => Except.ok none
    | PyV.vint n => if n = 0 then Except.ok none
      else Except.error ()) = Except.ok y := by
    intro i _
    obtain ⟨s, hs, _⟩ := dictGet_safe (leads.getD i [])
      (safeLead_getD leads h i) "email"
    rw [hs]
    dsimp only
    repeat' split
    all_goals exact ⟨_, rfl⟩
  obtain ⟨l, hl⟩ := exMapM_ok_of_all hall
  unfold contactDomainPairs
  rw [hl]
  exact ⟨_, rfl⟩

theorem find_contact_duplicates_ok (leads : List Lead)
    (h : safeLeads leads = true) :
    ∃ r, find_contact_duplicates leads = Except.ok r := by
  obtain ⟨ne, hne⟩ := normalizedEmails_ok leads h
  unfold find_contact_duplicates
  rw [hne]
  dsimp only
  obtain ⟨dp, hdp⟩ := contactDomainPairs_ok leads h
    (ungroupedIdx leads.length (contactPass1 ne 0).2.1)
  rw [hdp]
  dsimp only
  obtain ⟨r2, hr2⟩ := aliasDomainLoop_ok leads h (groupPairs dp)
    (contactPass1 ne 0).1 (contactPass1 ne 0).2.1 (contactPass1 ne 0).2.2
  rw [hr2]
  dsimp only
  obtain ⟨r3, hr3⟩ := nameAnchorLoop_ok leads h
    (ungroupedIdx leads.length r2.2.1) (ungroupedIdx leads.length r2.2.1)
    r2.1 r2.2.1 r2.2.2
  rw [hr3]
  exact ⟨_, rfl⟩

theorem mergeContactLoop_cons (leads : List Lead)
    (groups : List (KGid × List Nat)) (asg : List (Nat × KGid)) (i : Nat)
    (lead : Lead) (rest : List (Nat × Lead)) (pg : List KGid) :
    mergeContactLoop leads groups asg ((i, lead) :: rest) pg =
      match alLookup asg i with
      | some gid =>
        if gid ∈ pg then mergeContactLoop leads groups asg rest pg
        else
          match alLookup groups gid with
          | none => Except.error ()
          | some is =>
            match exMapM (leadAt leads) is with
            | Except.error e => Except.error e
            | Except.ok gls =>
              match mergeContactGroupRecord gls gid with
              | Except.error e => Except.error e
              | Except.ok r =>
                match mergeContactLoop leads groups asg rest (gid :: pg) with
                | Except.error e => Except.error e
                | Except.ok out => Except.ok (r :: out)
      | none =>
        match mergeContactLoop leads groups asg rest pg with
        | Except.error e => Except.error e
        | Except.ok out => Except.ok (lead :: out) := rfl

theorem mergeContactGroupRecord_fields (gls : List Lead) (gid : KGid)
    (h : gls ≠ []) :
    ∃ r, mergeContactGroupRecord gls gid = Except.ok r ∧
      alLookup r "_contact_duplicate_count" =
        some (PyV.vint gls.length) ∧
      alLookup r "_contact_duplicate_group" =
        some (PyV.vstr gid.render) := by
  have hne : sortDescBy contact_score gls ≠ [] := by
    intro hc
    have := sortDescBy_length contact_score gls
    rw [hc] at this
    exact h (List.length_eq_zero.mp this.symm)
  cases hs : sortDescBy contact_score gls with
  | nil => exact absurd hs hne
  | cons primary others =>
    refine ⟨_, by unfold mergeContactGroupRecord; rw [hs], ?_, ?_⟩
    · rw [alLookup_alSet, if_neg (by decide), alLookup_alSet, if_pos rfl]
    · rw [alLookup_alSet, if_pos rfl]

theorem mergeContactLoop_ok (leads : List Lead)
    (groups : List (KGid × List Nat)) (asg : List (Nat × KGid))
    (hkeys : ∀ q ∈ asg, q.2 ∈ groups.map Prod.fst)
    (hne : ∀ p ∈ groups, p.2 ≠ [])
    (hlt : ∀ p ∈ groups, ∀ i ∈ p.2, i < leads.length) :
    ∀ (xs : List (Nat × Lead)) (pg : List KGid),
    ∃ out, mergeContactLoop leads groups asg xs pg = Except.ok out := by
  intro xs
  induction xs with
  | nil => intro pg; exact ⟨[], rfl⟩
  | cons x rest ih =>
    intro pg
    obtain ⟨i, lead⟩ := x
    rw [mergeContactLoop_cons]
    cases hasg : alLookup asg i with
    | none =>
      obtain ⟨out, hout⟩ := ih pg
      rw [hout]
      exact ⟨_, rfl⟩
    | some gid =>
      dsimp only
      by_cases hpg : gid ∈ pg
      · rw [if_pos hpg]
        exact ih pg
      · rw [if_neg hpg]
        have hgid : gid ∈ groups.map Prod.fst :=
          hkeys (i, gid) (alLookup_mem hasg)
        cases hlook : alLookup groups gid with
        | none =>
          have := alLookup_isSome_of_key_mem hgid
          rw [hlook] at this
          cases this
        | some is =>
          dsimp only
          have hmem : (gid, is) ∈ groups := alLookup_mem hlook
          rw [exMapM_leadAt leads is (hlt _ hmem)]
          dsimp only
          obtain ⟨r, hr, _, _⟩ := mergeContactGroupRecord_fields
            (is.map (fun idx => leads.getD idx [])) gid
            (by simpa using hne _ hmem)
          rw [hr]
          dsimp only
          obtain ⟨out, hout⟩ := ih (gid :: pg)
          rw [hout]
          exact ⟨_, rfl⟩

theorem merge_contact_duplicates_ok (leads : List Lead)
    (groups : List (KGid × List Nat)) (asg : List (Nat × KGid))
    (hkeys : ∀ q ∈ asg, q.2 ∈ groups.map Prod.fst)
    (hne : ∀ p ∈ groups, p.2 ≠ [])
    (hlt : ∀ p ∈ groups, ∀ i ∈ p.2, i < leads.length) :
    ∃ out, merge_contact_duplicates leads groups asg = Except.ok out :=
  mergeContactLoop_ok leads groups asg hkeys hne hlt leads.enum []

/-! ## Idempotence of `normalize_company_name` at suffix fixed points -/

theorem lowerChar_idem (c : Char) : lowerChar (lowerChar c) = lowerChar c := by
  unfold lowerChar
  by_cases h : 65 ≤ c.toNat ∧ c.toNat ≤ 90
  · rw [if_pos h, toNat_ofNat_small (c.toNat + 32) (by omega)]
    rw [if_neg (by omega)]
  · rw [if_neg h, if_neg h]

theorem pyLower_fixed (s : PStr) : ∀ c ∈ pyLower s, lowerChar c = c := by
  intro c hc
  unfold pyLower at hc
  rw [List.mem_map] at hc
  obtain ⟨d, _, rfl⟩ := hc
  exact lowerChar_idem d

theorem pyStrip_subset (s : PStr) : ∀ c ∈ pyStrip s, c ∈ s := by
  intro c hc
  unfold pyStrip at hc
  rw [List.mem_reverse] at hc
  have hc2 := (List.dropWhile_sublist _).subset hc
  rw [List.mem_reverse] at hc2
  exact (List.dropWhile_sublist _).subset hc2

theorem removeSpecials_mem (s : PStr) :
    ∀ c ∈ removeSpecials s, (isWordChar c || isPySpace c) = true ∧
      (c = ' ' ∨ c ∈ s) := by
  intro c hc
  unfold removeSpecials at hc
  rw [List.mem_map] at hc
  obtain ⟨d, hd, hdc⟩ := hc
  by_cases h : (isWordChar d || isPySpace d) = true
  · rw [if_pos h] at hdc
    subst hdc
    exact ⟨h, Or.inr hd⟩
  · rw [if_neg h] at hdc
    subst hdc
    exact ⟨by decide, Or.inl rfl⟩

theorem stripOneSuffix_subset (suf s : PStr) :
    ∀ c ∈ stripOneSuffix suf s, c ∈ s := by
  intro c hc
  unfold stripOneSuffix at hc
  by_cases h1 : suf.reverse.isPrefixOf s.reverse
  · rw [if_pos h1] at hc
    by_cases h2 : ((s.reverse.drop suf.length).takeWhile isPySpace).isEmpty
    · rwa [if_pos h2] at hc
    · rw [if_neg h2] at hc
      rw [List.mem_reverse] at hc
      have := (List.dropWhile_sublist _).subset hc
      have := (List.drop_sublist _ _).subset this
      rwa [List.mem_reverse] at this
  · rwa [if_neg h1] at hc

theorem stripSuffixes_subset (s : PStr) : ∀ c ∈ stripSuffixes s, c ∈ s := by
  unfold stripSuffixes
  generalize COMPANY_SUFFIXES = sufs
  induction sufs generalizing s with
  | nil => intro c hc; exact hc
  | cons suf sufs ih =>
    intro c hc
    rw [List.foldl_cons] at hc
    exact stripOneSuffix_subset suf s c (ih (stripOneSuffix suf s) c hc)

theorem runsOfAux_mem (keep : Char → Bool) :
    ∀ (s acc : PStr), (∀ c ∈ acc, keep c = true) →
    ∀ w ∈ runsOfAux keep s acc, w ≠ [] ∧
      ∀ c ∈ w, keep c = true ∧ (c ∈ s ∨ c ∈ acc) := by
  intro s
  induction s with
  | nil =>
    intro acc hacc w hw
    unfold runsOfAux at hw
    by_cases h : acc = []
    · rw [if_pos h] at hw
      cases hw
    · rw [if_neg h] at hw
      rw [List.mem_singleton] at hw
      subst hw
      refine ⟨by simpa using h, ?_⟩
      intro c hc
      rw [List.mem_reverse] at hc
      exact ⟨hacc c hc, Or.inr hc⟩
  | cons x xs ih =>
    intro acc hacc w hw
    unfold runsOfAux at hw
    by_cases h1 : keep x = true
    · rw [if_pos h1] at hw
      obtain ⟨hne, hmem⟩ := ih (x :: acc)
        (by intro c hc; rcases List.mem_cons.mp hc with rfl | hc
            · exact h1
            · exact hacc c hc) w hw
      refine ⟨hne, ?_⟩
      intro c hc
      obtain ⟨hk, hm⟩ := hmem c hc
      refine ⟨hk, ?_⟩
      rcases hm with hm | hm
      · exact Or.inl (List.mem_cons_of_mem _ hm)
      · rcases List.mem_cons.mp hm with rfl | hm
        · exact Or.inl (by simp)
        · exact Or.inr hm
    · rw [if_neg h1] at hw
      by_cases h2 : acc = []
      · rw [if_pos h2] at hw
        obtain ⟨hne, hmem⟩ := ih [] (by simp) w hw
        refine ⟨hne, ?_⟩
        intro c hc
        obtain ⟨hk, hm⟩ := hmem c hc
        rcases hm with hm | hm
        · exact ⟨hk, Or.inl (List.mem_cons_of_mem _ hm)⟩
        · cases hm
      · rw [if_neg h2] at hw
        rcases List.mem_cons.mp hw with rfl | hw
        · refine ⟨by simpa using h2, ?_⟩
          intro c hc
          rw [List.mem_reverse] at hc
          exact ⟨hacc c hc, Or.inr hc⟩
        · obtain ⟨hne, hmem⟩ := ih [] (by simp) w hw
          refine ⟨hne, ?_⟩
          intro c hc
          obtain ⟨hk, hm⟩ := hmem c hc
          rcases hm with hm | hm
          · exact ⟨hk, Or.inl (List.mem_cons_of_mem _ hm)⟩
          · cases hm

theorem pySplitWs_mem (s : PStr) :
    ∀ w ∈ pySplitWs s, w ≠ [] ∧ ∀ c ∈ w, isPySpace c = false ∧ c ∈ s := by
  intro w hw
  obtain ⟨hne, hmem⟩ := runsOfAux_mem (fun c => !(isPySpace c)) s []
    (by simp) w hw
  refine ⟨hne, ?_⟩
  intro c hc
  obtain ⟨hk, hm⟩ := hmem c hc
  refine ⟨by simpa using hk, ?_⟩
  rcases hm with hm | hm
  · exact hm
  · cases hm

theorem collapseAux_flag (cs : PStr)
    (h : ∀ c, cs.head? = some c → isPySpace c = false) :
    collapseAux true cs = collapseAux false cs := by
  cases cs with
  | nil => rfl
  | cons d ds => simp [collapseAux, h d rfl]

theorem collapseRuns_id : ∀ (s : PStr),
    (∀ c ∈ s, isPySpace c = true → c = ' ') →
    List.Chain' (fun a b => ¬(isPySpace a = true ∧ isPySpace b = true)) s →
    collapseRuns s = s := by
  intro s
  induction s with
  | nil => intro _ _; rfl
  | cons c cs ih =>
    intro hsp hch
    have ihh : collapseAux false cs = cs :=
      ih (fun x hx => hsp x (List.mem_cons_of_mem _ hx)) hch.tail
    show collapseAux false (c :: cs) = c :: cs
    unfold collapseAux
    by_cases h : isPySpace c = true
    · rw [if_pos h]
      simp only [Bool.false_eq_true, if_false]
      have hc : c = ' ' := hsp c (by simp) h
      have hflag : collapseAux true cs = collapseAux false cs := by
        apply collapseAux_flag
        intro d hd
        cases cs with
        | nil => cases hd
        | cons d2 ds =>
          rw [List.head?_cons, Option.some.injEq] at hd
          subst hd
          by_cases hds : isPySpace d2 = true
          · exact absurd ⟨h, hds⟩ (List.chain'_cons.mp hch).1
          · simpa using hds
      rw [hflag, ihh, hc]
    · rw [if_neg h, ihh]

theorem pyStrip_id (s : PStr)
    (h1 : ∀ c, s.head? = some c → isPySpace c = false)
    (h2 : ∀ c, s.reverse.head? = some c → isPySpace c = false) :
    pyStrip s = s := by
  have hd : ∀ (t : PStr), (∀ c, t.head? = some c → isPySpace c = false) →
      t.dropWhile isPySpace = t := by
    intro t ht
    cases t with
    | nil => rfl
    | cons d ds =>
      rw [List.dropWhile_cons, if_neg]
      intro hdp
      have := ht d rfl
      rw [this] at hdp
      cases hdp
  unfold pyStrip
  rw [hd s h1, hd s.reverse h2, List.reverse_reverse]

theorem joinSpace_ne_nil (w : PStr) (ws : List PStr) (hw : w ≠ []) :
    joinSpace (w :: ws) ≠ [] := by
  cases ws with
  | nil => exact hw
  | cons w2 ws =>
    show w ++ ' ' :: joinSpace (w2 :: ws) ≠ []
    simp

theorem joinSpace_head (w : PStr) (ws : List PStr) (hw : w ≠ []) :
    (joinSpace (w :: ws)).head? = w.head? := by
  cases ws with
  | nil => rfl
  | cons w2 ws =>
    show (w ++ ' ' :: joinSpace (w2 :: ws)).head? = w.head?
    cases w with
    | nil => exact absurd rfl hw
    | cons c cs => rfl

theorem joinSpace_last : ∀ (ws : List PStr), (∀ w ∈ ws, w ≠ []) →
    ws ≠ [] → ∃ w ∈ ws, (joinSpace ws).getLast? = w.getLast? := by
  intro ws
  induction ws with
  | nil => intro _ h; exact absurd rfl h
  | cons w ws ih =>
    intro hall _
    cases ws with
    | nil => exact ⟨w, by simp, rfl⟩
    | cons w2 ws2 =>
      obtain ⟨v, hv, hvl⟩ := ih
        (fun x hx => hall x (List.mem_cons_of_mem _ hx)) (by simp)
      refine ⟨v, List.mem_cons_of_mem _ hv, ?_⟩
      show (w ++ ' ' :: joinSpace (w2 :: ws2)).getLast? = v.getLast?
      rw [List.getLast?_append]
      have hne2 : joinSpace (w2 :: ws2) ≠ [] :=
        joinSpace_ne_nil w2 ws2 (hall w2 (by simp))
      have h3 : (' ' :: joinSpace (w2 :: ws2)).getLast? =
          (joinSpace (w2 :: ws2)).getLast? := by
        cases hj : joinSpace (w2 :: ws2) with
        | nil => exact absurd hj hne2
        | cons d ds => rw [List.getLast?_cons_cons]
      rw [h3, hvl]
      cases hv2 : v.getLast? with
      | none =>
        rw [List.getLast?_eq_none] at hv2
        exact absurd hv2 (hall v (List.mem_cons_of_mem _ hv))
      | some a => rfl

theorem joinSpace_mem : ∀ (ws : List PStr) (c : Char), c ∈ joinSpace ws →
    c = ' ' ∨ ∃ w ∈ ws, c ∈ w := by
  intro ws
  induction ws with
  | nil => intro c hc; cases hc
  | cons w ws ih =>
    intro c hc
    cases ws with
    | nil => exact Or.inr ⟨w, by simp, hc⟩
    | cons w2 ws2 =>
      rw [show joinSpace (w :: w2 :: ws2) = w ++ ' ' :: joinSpace (w2 :: ws2)
        from rfl, List.mem_append] at hc
      rcases hc with hc | hc
      · exact Or.inr ⟨w, by simp, hc⟩
      · rcases List.mem_cons.mp hc with rfl | hc
        · exact Or.inl rfl
        · rcases ih c hc with hc | ⟨v, hv, hcv⟩
          · exact Or.inl hc
          · exact Or.inr ⟨v, List.mem_cons_of_mem _ hv, hcv⟩

theorem chain_of_nospace : ∀ (l : PStr), (∀ c ∈ l, isPySpace c = false) →
    List.Chain' (fun a b => ¬(isPySpace a = true ∧ isPySpace b = true)) l := by
  intro l
  induction l with
  | nil => intro _; exact List.chain'_nil
  | cons c cs ih =>
    intro h
    cases cs with
    | nil => exact List.chain'_singleton c
    | cons d ds =>
      rw [List.chain'_cons]
      refine ⟨?_, ih (fun x hx => h x (List.mem_cons_of_mem _ hx))⟩
      rintro ⟨hc, _⟩
      rw [h c (by simp)] at hc
      cases hc

theorem joinSpace_chain : ∀ (ws : List PStr),
    (∀ w ∈ ws, w ≠ [] ∧ ∀ c ∈ w, isPySpace c = false) →
    List.Chain' (fun a b => ¬(isPySpace a = true ∧ isPySpace b = true))
      (joinSpace ws) := by
  intro ws
  induction ws with
  | nil => intro _; exact List.chain'_nil
  | cons w ws ih =>
    intro hall
    cases ws with
    | nil => exact chain_of_nospace w (hall w (by simp)).2
    | cons w2 ws2 =>
      have ihh := ih (fun x hx => hall x (List.mem_cons_of_mem _ hx))
      show List.Chain' _ (w ++ ' ' :: joinSpace (w2 :: ws2))
      refine List.Chain'.append (chain_of_nospace w (hall w (by simp)).2)
        ?_ ?_
      · rw [List.chain'_cons']
        refine ⟨?_, ihh⟩
        intro y hy
        rw [joinSpace_head w2 ws2 (hall w2 (by simp)).1] at hy
        rintro ⟨_, hys⟩
        have hyw : y ∈ w2 := List.mem_of_mem_head? hy
        rw [(hall w2 (by simp)).2 y hyw] at hys
        cases hys
      · intro x hx y _
        rintro ⟨hxs, _⟩
        have hxw : x ∈ w := List.mem_of_mem_getLast? hx
        rw [(hall w (by simp)).2 x hxw] at hxs
        cases hxs

theorem runsOfAux_word (keep : Char → Bool) :
    ∀ (w s acc : PStr), (∀ c ∈ w, keep c = true) →
    runsOfAux keep (w ++ s) acc = runsOfAux keep s (w.reverse ++ acc) := by
  intro w
  induction w with
  | nil => intro s acc _; simp
  | cons c cs ih =>
    intro s acc hw
    rw [List.cons_append]
    rw [runsOfAux]
    rw [if_pos (hw c (by simp))]
    rw [ih s (c :: acc) (fun x hx => hw x (List.mem_cons_of_mem _ hx))]
    have hacc : cs.reverse ++ c :: acc = (c :: cs).reverse ++ acc := by
      simp
    rw [hacc]

theorem pySplitWs_join : ∀ (ws : List PStr),
    (∀ w ∈ ws, w ≠ [] ∧ ∀ c ∈ w, isPySpace c = false) →
    pySplitWs (joinSpace ws) = ws := by
  intro ws
  induction ws with
  | nil => intro _; rfl
  | cons w ws ih =>
    intro hall
    have hwk : ∀ c ∈ w, (!(isPySpace c)) = true := by
      intro c hc
      simp [(hall w (by simp)).2 c hc]
    have hwrev : w.reverse ≠ [] := by
      simpa using (hall w (by simp)).1
    cases ws with
    | nil =>
      show runsOfAux (fun c => !(isPySpace c)) w [] = [w]
      have h1 := runsOfAux_word (fun c => !(isPySpace c)) w [] [] hwk
      rw [List.append_nil, List.append_nil] at h1
      rw [h1]
      unfold runsOfAux
      rw [if_neg hwrev, List.reverse_reverse]
    | cons w2 ws2 =>
      show runsOfAux (fun c => !(isPySpace c))
        (w ++ ' ' :: joinSpace (w2 :: ws2)) [] = w :: w2 :: ws2
      have h1 := runsOfAux_word (fun c => !(isPySpace c)) w
        (' ' :: joinSpace (w2 :: ws2)) [] hwk
      rw [List.append_nil] at h1
      rw [h1]
      unfold runsOfAux
      rw [if_neg (by decide), if_neg hwrev, List.reverse_reverse]
      congr 1
      exact ih (fun x hx => hall x (List.mem_cons_of_mem _ hx))

theorem normCompany_words (s : PStr) : ∃ ws, normCompany s = joinSpace ws ∧
    ∀ w ∈ ws, w ≠ [] ∧ w ∉ NOISE_WORDS ∧ ∀ c ∈ w,
      isWordChar c = true ∧ isPySpace c = false ∧ lowerChar c = c := by
  unfold normCompany
  by_cases h0 : s.isEmpty
  · rw [if_pos h0]
    exact ⟨[], rfl, by simp⟩
  · rw [if_neg h0]
    refine ⟨(pySplitWs (stripSuffixes (removeSpecials (pyStrip (pyLower s)))))
      |>.filter (fun w => w ∉ NOISE_WORDS), ?_, ?_⟩
    · show pyStrip (collapseRuns (joinSpace ((pySplitWs (stripSuffixes
        (removeSpecials (pyStrip (pyLower s))))).filter
        (fun w => w ∉ NOISE_WORDS)))) = _
      generalize hL : (pySplitWs (stripSuffixes (removeSpecials
        (pyStrip (pyLower s))))).filter (fun w => w ∉ NOISE_WORDS) = L
      have hall : ∀ w ∈ L, w ≠ [] ∧ ∀ c ∈ w, isPySpace c = false := by
        intro w hw
        rw [← hL] at hw
        obtain ⟨hne, hmem⟩ := pySplitWs_mem _ w (List.mem_of_mem_filter hw)
        exact ⟨hne, fun c hc => (hmem c hc).1⟩
      have hsp : ∀ c ∈ joinSpace L, isPySpace c = true → c = ' ' := by
        intro c hc hcs
        rcases joinSpace_mem _ c hc with rfl | ⟨w, hw, hcw⟩
        · rfl
        · rw [(hall w hw).2 c hcw] at hcs
          cases hcs
      have h1 : ∀ c, (joinSpace L).head? = some c → isPySpace c = false := by
        intro c hc
        cases hLs : L with
        | nil => rw [hLs] at hc; cases hc
        | cons w ws =>
          rw [hLs] at hc hall
          rw [joinSpace_head w ws (hall w (by simp)).1] at hc
          exact (hall w (by simp)).2 c (List.mem_of_mem_head? hc)
      have h2 : ∀ c, (joinSpace L).reverse.head? = some c →
          isPySpace c = false := by
        intro c hc
        cases hLs : L with
        | nil => rw [hLs] at hc; cases hc
        | cons w ws =>
          rw [hLs] at hc hall
          rw [List.head?_reverse] at hc
          obtain ⟨v, hv, hvl⟩ := joinSpace_last (w :: ws)
            (fun x hx => (hall x hx).1) (by simp)
          rw [hvl] at hc
          exact (hall v hv).2 c (List.mem_of_mem_getLast? hc)
      rw [collapseRuns_id _ hsp (joinSpace_chain _ hall)]
      exact pyStrip_id _ h1 h2
    · intro w hw
      have hnoise : w ∉ NOISE_WORDS := by
        have := List.of_mem_filter hw
        simpa using this
      obtain ⟨hne, hmem⟩ := pySplitWs_mem _ w (List.mem_of_mem_filter hw)
      refine ⟨hne, hnoise, ?_⟩
      intro c hc
      obtain ⟨hns, hcs⟩ := hmem c hc
      have hcs2 := stripSuffixes_subset _ c hcs
      obtain ⟨hword, hor⟩ := removeSpecials_mem _ c hcs2
      refine ⟨?_, hns, ?_⟩
      · rcases Bool.or_eq_true_iff.mp hword with h | h
        · exact h
        · rw [hns] at h
          cases h
      · rcases hor with rfl | hcl
        · rfl
        · exact pyLower_fixed s c (pyStrip_subset _ c hcl)

theorem map_id_of_fixed {f : Char → Char} :
    ∀ (l : PStr), (∀ c ∈ l, f c = c) → l.map f = l := by
  intro l
  induction l with
  | nil => intro _; rfl
  | cons c cs ih =>
    intro h
    rw [List.map_cons, h c (by simp),
      ih (fun x hx => h x (List.mem_cons_of_mem _ hx))]

theorem joinSpace_canon (ws : List PStr)
    (hall : ∀ w ∈ ws, w ≠ [] ∧ ∀ c ∈ w, isPySpace c = false) :
    collapseRuns (joinSpace ws) = joinSpace ws ∧
    pyStrip (joinSpace ws) = joinSpace ws := by
  have hsp : ∀ c ∈ joinSpace ws, isPySpace c = true → c = ' ' := by
    intro c hc hcs
    rcases joinSpace_mem _ c hc with rfl | ⟨w, hw, hcw⟩
    · rfl
    · rw [(hall w hw).2 c hcw] at hcs
      cases hcs
  refine ⟨collapseRuns_id _ hsp (joinSpace_chain _ hall), ?_⟩
  have h1 : ∀ c, (joinSpace ws).head? = some c → isPySpace c = false := by
    intro c hc
    cases hws : ws with
    | nil => rw [hws] at hc; cases hc
    | cons w ws2 =>
      rw [hws] at hc hall
      rw [joinSpace_head w ws2 (hall w (by simp)).1] at hc
      exact (hall w (by simp)).2 c (List.mem_of_mem_head? hc)
  have h2 : ∀ c, (joinSpace ws).reverse.head? = some c →
      isPySpace c = false := by
    intro c hc
    cases hws : ws with
    | nil => rw [hws] at hc; cases hc
    | cons w ws2 =>
      rw [hws] at hc hall
      rw [List.head?_reverse] at hc
      obtain ⟨v, hv, hvl⟩ := joinSpace_last (w :: ws2)
        (fun x hx => (hall x hx).1) (by simp)
      rw [hvl] at hc
      exact (hall v hv).2 c (List.mem_of_mem_getLast? hc)
  exact pyStrip_id _ h1 h2

theorem normCompany_fix (s : PStr)
    (h : stripSuffixes (normCompany s) = normCompany s) :
    normCompany (normCompany s) = normCompany s := by
  obtain ⟨ws, hu, hwok⟩ := normCompany_words s
  rw [hu] at h ⊢
  cases hws : ws with
  | nil => rfl
  | cons w ws2 =>
    rw [hws] at h hwok
    have hall : ∀ x ∈ w :: ws2, x ≠ [] ∧ ∀ c ∈ x, isPySpace c = false :=
      fun x hx => ⟨(hwok x hx).1, fun c hc => ((hwok x hx).2.2 c hc).2.1⟩
    have hne : joinSpace (w :: ws2) ≠ [] :=
      joinSpace_ne_nil w ws2 (hall w (by simp)).1
    unfold normCompany
    rw [if_neg (by simpa using hne)]
    show pyStrip (collapseRuns (joinSpace ((pySplitWs (stripSuffixes
      (removeSpecials (pyStrip (pyLower (joinSpace (w :: ws2))))))).filter
      (fun x => x ∉ NOISE_WORDS)))) = _
    have hfix : ∀ c ∈ joinSpace (w :: ws2), lowerChar c = c := by
      intro c hc
      rcases joinSpace_mem _ c hc with rfl | ⟨x, hx, hcx⟩
      · decide
      · exact ((hwok x hx).2.2 c hcx).2.2
    have hlow : pyLower (joinSpace (w :: ws2)) = joinSpace (w :: ws2) :=
      map_id_of_fixed _ hfix
    obtain ⟨hcr, hst⟩ := joinSpace_canon (w :: ws2) hall
    have hrs : removeSpecials (joinSpace (w :: ws2)) =
        joinSpace (w :: ws2) := by
      apply map_id_of_fixed
      intro c hc
      rcases joinSpace_mem _ c hc with rfl | ⟨x, hx, hcx⟩
      · rw [if_pos (by decide)]
      · rw [if_pos (by rw [((hwok x hx).2.2 c hcx).1]; rfl)]
    rw [hlow, hst, hrs, h, pySplitWs_join (w :: ws2) hall]
    have hfil : (w :: ws2).filter (fun x => x ∉ NOISE_WORDS) = w :: ws2 := by
      rw [List.filter_eq_self]
      intro x hx
      simpa using (hwok x hx).2.1
    rw [hfil, hcr, hst]

/-! ## Generic-domain exclusion facts -/

theorem fuzzyLoop_extend (θ : ℚ) (nm : Nat → PStr) (ung : List Nat) :
    ∀ (anchors processed : List Nat) (groups : List (CGid × List Nat))
      (asg : List (Nat × CGid)) (counter : Nat),
    ∃ new, (fuzzyLoop θ nm ung anchors processed groups asg counter).1 =
      groups ++ new ∧ ∀ p ∈ new, ∃ k, p.1 = CGid.fuzzy k := by
  intro anchors
  induction anchors with
  | nil => intro p g a c; exact ⟨[], by simp [fuzzyLoop], by simp⟩
  | cons i anchors ih =>
    intro p g a c
    rw [fuzzyLoop_cons]
    by_cases h1 : i ∈ p
    · rw [if_pos h1]
      exact ih p g a c
    · rw [if_neg h1]
      by_cases h2 : (nm i).isEmpty
      · rw [if_pos h2]
        exact ih p g a c
      · rw [if_neg h2]
        by_cases h3 : 1 < (fuzzyCollect θ nm i ung p).1.length
        · rw [if_pos h3]
          obtain ⟨new, hn1, hn2⟩ := ih ((fuzzyCollect θ nm i ung p).1 ++
            (fuzzyCollect θ nm i ung p).2)
            (g ++ [(CGid.fuzzy c, (fuzzyCollect θ nm i ung p).1)])
            (asgWrite a (CGid.fuzzy c) (fuzzyCollect θ nm i ung p).1) (c + 1)
          refine ⟨(CGid.fuzzy c, (fuzzyCollect θ nm i ung p).1) :: new,
            ?_, ?_⟩
          · rw [hn1]
            simp
          · intro q hq
            rcases List.mem_cons.mp hq with rfl | hq
            · exact ⟨c, rfl⟩
            · exact hn2 q hq
        · rw [if_neg h3]
          exact ih (fuzzyCollect θ nm i ung p).2 g a c

theorem find_duplicates_domain_nongeneric (leads : List Lead) (θ : ℚ)
    (r : List (CGid × List Nat) × List (Nat × CGid))
    (h : find_duplicates leads θ = Except.ok r) (d : PStr) (is : List Nat)
    (hmem : (CGid.domain d, is) ∈ r.1) : d ∉ genericDomains := by
  unfold find_duplicates at h
  cases hd : exMapM extract_domain leads with
  | error e => rw [hd] at h; cases h
  | ok doms =>
    rw [hd] at h
    dsimp only at h
    cases hn : normNamePairs leads
        (ungroupedIdx leads.length (pass1Result doms).2) with
    | error e => rw [hn] at h; cases h
    | ok nps =>
      rw [hn] at h
      dsimp only at h
      injection h with h
      subst h
      obtain ⟨new, hn1, hn2⟩ := fuzzyLoop_extend θ (nmFun nps)
        (ungroupedIdx leads.length (pass1Result doms).2)
        (ungroupedIdx leads.length (pass1Result doms).2) []
        (pass1Result doms).1 (pass1Result doms).2 0
      rw [hn1] at hmem
      rcases List.mem_append.mp hmem with hmem | hmem
      · obtain ⟨d', hg, _, hne, _⟩ :=
          (pass1_groups_mem doms _ is).mp hmem
        have hdd : d = d' := by
          injection hg
        subst hdd
        cases hfil : (pass1Pairs doms).filter (fun p => p.1 = d) with
        | nil => rw [hfil] at hne; simp at hne
        | cons q qs =>
          have hq : q ∈ (pass1Pairs doms).filter (fun p => p.1 = d) := by
            rw [hfil]
            simp
          rw [List.mem_filter] at hq
          have hq2 : q.1 = d := by simpa using hq.2
          have := (pass1Pairs_mem doms q.1 q.2).mp (by
            simpa using hq.1)
          rw [hq2] at this
          exact this.2
      · obtain ⟨k, hk⟩ := hn2 _ hmem
        cases hk

theorem emails_are_aliases_true (v1 v2 : PyV)
    (h : emails_are_aliases v1 v2 = Except.ok true) :
    ∃ s1 s2, v1 = PyV.vstr s1 ∧ v2 = PyV.vstr s2 ∧
      (splitOnChar '@' (pyLower s1)).getD 1 [] =
        (splitOnChar '@' (pyLower s2)).getD 1 [] ∧
      (splitOnChar '@' (pyLower s1)).getD 1 [] ∉ genericDomains := by
  unfold emails_are_aliases at h
  by_cases hT : (!pyTruthy v1 || !pyTruthy v2) = true
  · rw [if_pos hT] at h
    simp at h
  · rw [if_neg hT] at h
    cases v1 with
    | vnone => simp [pyLowerV] at h
    | vint n => simp [pyLowerV] at h
    | vstr s1 =>
      cases v2 with
      | vnone => simp [pyLowerV] at h
      | vint n => simp [pyLowerV] at h
      | vstr s2 =>
        simp only [pyLowerV] at h
        refine ⟨s1, s2, rfl, rfl, ?_⟩
        by_cases h1 : '@' ∉ pyLower s1 ∨ '@' ∉ pyLower s2
        · rw [if_pos h1] at h
          simp at h
        · rw [if_neg h1] at h
          by_cases h2 : (splitOnChar '@' (pyLower s1)).getD 1 [] ≠
              (splitOnChar '@' (pyLower s2)).getD 1 []
          · rw [if_pos h2] at h
            simp at h
          · rw [if_neg h2] at h
            by_cases h3 : (splitOnChar '@' (pyLower s1)).getD 1 [] ∈
                genericDomains
            · rw [if_pos h3] at h
              simp at h
            · exact ⟨by simpa using h2, h3⟩

theorem same_company_true (l1 l2 : Lead)
    (h : same_company l1 l2 = Except.ok true) :
    (∃ d1 d2, pyLowerV (dictGet l1 "company_domain" (PyV.vstr []))
        = Except.ok d1 ∧
      pyLowerV (dictGet l2 "company_domain" (PyV.vstr [])) = Except.ok d2 ∧
      d1 ≠ [] ∧ d2 ≠ [] ∧ d1 = d2) ∨
    (∃ ed1 ed2, emailDomainOf (dictGet l1 "email" (PyV.vstr []))
        = Except.ok ed1 ∧
      emailDomainOf (dictGet l2 "email" (PyV.vstr [])) = Except.ok ed2 ∧
      ed1 ≠ [] ∧ ed2 ≠ [] ∧ ed1 = ed2 ∧ ed1 ∉ genericDomains) ∨
    sameCompanyNames l1 l2 = Except.ok true := by
  unfold same_company at h
  cases hd1 : pyLowerV (dictGet l1 "company_domain" (PyV.vstr [])) with
  | error e => rw [hd1] at h; cases h
  | ok d1 =>
    rw [hd1] at h
    dsimp only at h
    cases hd2 : pyLowerV (dictGet l2 "company_domain" (PyV.vstr [])) with
    | error e => rw [hd2] at h; cases h
    | ok d2 =>
      rw [hd2] at h
      dsimp only at h
      by_cases hb : d1 ≠ [] ∧ d2 ≠ [] ∧ d1 = d2
      · exact Or.inl ⟨d1, d2, rfl, rfl, hb⟩
      · rw [if_neg hb] at h
        by_cases he : (pyTruthy (dictGet l1 "email" (PyV.vstr [])) &&
            pyTruthy (dictGet l2 "email" (PyV.vstr []))) = true
        · rw [if_pos he] at h
          cases he1 : emailDomainOf (dictGet l1 "email" (PyV.vstr [])) with
          | error e => rw [he1] at h; cases h
          | ok ed1 =>
            rw [he1] at h
            dsimp only at h
            cases he2 : emailDomainOf (dictGet l2 "email" (PyV.vstr [])) with
            | error e => rw [he2] at h; cases h
            | ok ed2 =>
              rw [he2] at h
              dsimp only at h
              by_cases hc : ed1 ≠ [] ∧ ed2 ≠ [] ∧ ed1 = ed2 ∧
                  ed1 ∉ genericDomains
              · exact Or.inr (Or.inl ⟨ed1, ed2, rfl, rfl, hc⟩)
              · rw [if_neg hc] at h
                exact Or.inr (Or.inr h)
        · rw [if_neg he] at h
          exact Or.inr (Or.inr h)

/-! ## Conservation of `_duplicate_count` over the merged output -/

theorem sum_filterMap_int {α : Type} (g : α → Option Int) :
    ∀ l : List α,
    (l.filterMap g).sum = (l.map (fun x => (g x).getD 0)).sum := by
  intro l
  induction l with
  | nil => rfl
  | cons x xs ih =>
    rw [List.filterMap_cons, List.map_cons, List.sum_cons]
    cases hg : g x with
    | none => rw [ih]; simp
    | some v => rw [List.sum_cons, ih, Option.getD_some]

theorem sum_map_ones {α : Type} (h : α → Int) :
    ∀ l : List α, (∀ x ∈ l, h x = 1) → (l.map h).sum = l.length := by
  intro l
  induction l with
  | nil => intro _; rfl
  | cons x xs ih =>
    intro hall
    rw [List.map_cons, List.sum_cons, hall x (by simp),
      ih (fun y hy => hall y (List.mem_cons_of_mem _ hy))]
    simp
    omega

theorem sum_map_split (h : Nat → Int) (p : Nat → Bool) :
    ∀ l : List Nat,
    ((l.filter p).map h).sum + ((l.filter (fun x => !(p x))).map h).sum =
      (l.map h).sum := by
  intro l
  induction l with
  | nil => rfl
  | cons x xs ih =>
    by_cases hx : p x = true
    · rw [List.filter_cons_of_pos hx,
        List.filter_cons_of_neg (by simp [hx]), List.map_cons,
        List.sum_cons, List.map_cons, List.sum_cons]
      omega
    · rw [List.filter_cons_of_neg (by simpa using hx),
        List.filter_cons_of_pos (by simpa using hx), List.map_cons,
        List.sum_cons, List.map_cons, List.sum_cons]
      omega

theorem sum_head_indicator (c : Int) (i0 : Nat) :
    ∀ (rest : List Nat), i0 ∉ rest →
    (((i0 :: rest).map (fun i =>
      if (i0 :: rest).head? = some i then c else 0)).sum) = c := by
  intro rest hrest
  rw [List.map_cons, List.sum_cons,
    if_pos (show (i0 :: rest).head? = some i0 from rfl)]
  have hz : ((rest.map (fun i =>
      if (i0 :: rest).head? = some i then c else 0)).sum) = 0 := by
    apply List.sum_eq_zero
    intro x hx
    rw [List.mem_map] at hx
    obtain ⟨j, hj, rfl⟩ := hx
    rw [if_neg]
    intro hc
    rw [List.head?_cons, Option.some.injEq] at hc
    exact hrest (hc ▸ hj)
  rw [hz]
  simp

theorem mergeEmit_sum_core (leads : List Lead)
    (groups : List (CGid × List Nat)) (asg : List (Nat × CGid))
    (hwf : GroupsWF leads.length groups asg) (F : Lead → Int)
    (c : CGid × List Nat → Int)
    (hgrp : ∀ p ∈ groups, ∀ rec, mergeGroupRecord
      (p.2.map (fun idx => leads.getD idx [])) p.1 = Except.ok rec →
      F rec = c p)
    (hpass : ∀ i, i < leads.length → alLookup asg i = none →
      F (leads.getD i []) = 1) :
    ((((List.range leads.length).filterMap
      (mergeEmit leads groups asg)).map F).sum) =
      (groups.map c).sum +
      ((List.range leads.length).filter
        (fun i => (alLookup asg i).isNone)).length := by
  rw [List.map_filterMap, sum_filterMap_int]
  have hh : ∀ i, i < leads.length →
      ((mergeEmit leads groups asg i).map F).getD 0 =
      (match alLookup asg i with
       | none => (1 : Int)
       | some gid =>
         match alLookup groups gid with
         | none => 0
         | some is => if is.head? = some i then c (gid, is) else 0) := by
    intro i hi
    unfold mergeEmit
    cases hasg : alLookup asg i with
    | none =>
      dsimp only
      rw [Option.map_some', Option.getD_some]
      exact hpass i hi hasg
    | some gid =>
      dsimp only
      cases hlook : alLookup groups gid with
      | none => rfl
      | some is =>
        dsimp only
        by_cases hhead : is.head? = some i
        · rw [if_pos hhead, if_pos hhead]
          have hmem : (gid, is) ∈ groups := alLookup_mem hlook
          have hne : is.map (fun idx => leads.getD idx []) ≠ [] := by
            have h2 := (hwf.2.1 (gid, is) hmem).1
            intro hc
            rw [List.map_eq_nil] at hc
            rw [hc] at h2
            simp at h2
          obtain ⟨rec, hrec, _, _⟩ := mergeGroupRecord_ok _ gid hne
          rw [hrec]
          dsimp only
          rw [Option.map_some', Option.getD_some]
          exact hgrp (gid, is) hmem rec hrec
        · rw [if_neg hhead, if_neg hhead]
          rfl
  have hcong : ((List.range leads.length).map (fun i =>
      ((mergeEmit leads groups asg i).map F).getD 0)).sum =
      ((List.range leads.length).map (fun i =>
        (match alLookup asg i with
         | none => (1 : Int)
         | some gid =>
           match alLookup groups gid with
           | none => 0
           | some is => if is.head? = some i then c (gid, is) else 0))).sum
      := by
    congr 1
    apply List.map_congr_left
    intro i hi
    exact hh i (List.mem_range.mp hi)
  rw [hcong]
  rw [← sum_map_split _ (fun i => (alLookup asg i).isSome)]
  have hnone : (((List.range leads.length).filter
      (fun i => !((alLookup asg i).isSome))).map (fun i =>
        (match alLookup asg i with
         | none => (1 : Int)
         | some gid =>
           match alLookup groups gid with
           | none => 0
           | some is => if is.head? = some i then c (gid, is) else 0))).sum
      = (((List.range leads.length).filter
        (fun i => (alLookup asg i).isNone)).length : Int) := by
    have hfun : ((List.range leads.length).filter
        (fun i => (alLookup asg i).isNone))
        = ((List.range leads.length).filter
          (fun i => !((alLookup asg i).isSome))) := by
      congr 1
      funext i
      cases alLookup asg i <;> rfl
    rw [hfun]
    apply sum_map_ones
    intro i hi
    rw [List.mem_filter] at hi
    cases hasg : alLookup asg i with
    | none => rfl
    | some g =>
      rw [hasg] at hi
      simp at hi
  rw [hnone]
  have hnodup : (groups.map Prod.snd).join.Nodup := by
    rw [List.nodup_join]
    constructor
    · intro l hl
      rw [List.mem_map] at hl
      obtain ⟨p, hp, rfl⟩ := hl
      exact ((hwf.2.1 p hp).2.1).imp Nat.ne_of_lt
    · exact groupsWF_pairwise_disjoint hwf
  have hnodup2 : ((List.range leads.length).filter
      (fun i => (alLookup asg i).isSome)).Nodup :=
    (List.nodup_range leads.length).sublist (List.filter_sublist _)
  have hmemiff : ∀ x, x ∈ (groups.map Prod.snd).join ↔
      x ∈ (List.range leads.length).filter
        (fun i => (alLookup asg i).isSome) := by
    intro x
    rw [List.mem_join, List.mem_filter, List.mem_range]
    constructor
    · rintro ⟨l, hl, hx⟩
      rw [List.mem_map] at hl
      obtain ⟨p, hp, rfl⟩ := hl
      obtain ⟨hlt, hlook⟩ := (hwf.2.1 p hp).2.2 x hx
      exact ⟨hlt, by rw [hlook]; rfl⟩
    · rintro ⟨hlt, hs⟩
      cases hlook : alLookup asg x with
      | none => rw [hlook] at hs; cases hs
      | some g =>
        obtain ⟨is, hmem, hx⟩ := hwf.lookup_mem hlook
        exact ⟨is, List.mem_map_of_mem Prod.snd hmem, hx⟩
  have hperm : ((List.range leads.length).filter
      (fun i => (alLookup asg i).isSome)).Perm
      (groups.map Prod.snd).join :=
    ((List.perm_ext_iff_of_nodup hnodup hnodup2).mpr hmemiff).symm
  rw [List.Perm.sum_eq (List.Perm.map _ hperm)]
  have hjoin : (((groups.map Prod.snd).join).map (fun i =>
      (match alLookup asg i with
       | none => (1 : Int)
       | some gid =>
         match alLookup groups gid with
         | none => 0
         | some is => if is.head? = some i then c (gid, is) else 0))).sum
      = (groups.map c).sum := by
    rw [List.map_join, List.sum_join, List.map_map, List.map_map]
    congr 1
    apply List.map_congr_left
    intro p hp
    show ((p.2.map _).sum) = c p
    have hasg : ∀ i ∈ p.2, alLookup asg i = some p.1 :=
      fun i hi => ((hwf.2.1 p hp).2.2 i hi).2
    have hlook : alLookup groups p.1 = some p.2 :=
      alLookup_eq_of_mem_nodup hwf.1 hp
    have hcong2 : (p.2.map (fun i =>
        (match alLookup asg i with
         | none => (1 : Int)
         | some gid =>
           match alLookup groups gid with
           | none => 0
           | some is => if is.head? = some i then c (gid, is) else 0)))
        = p.2.map (fun i => if p.2.head? = some i then c (p.1, p.2)
            else 0) := by
      apply List.map_congr_left
      intro i hi
      rw [hasg i hi]
      dsimp only
      rw [hlook]
    rw [hcong2]
    cases hp2 : p.2 with
    | nil =>
      have := (hwf.2.1 p hp).1
      rw [hp2] at this
      simp at this
    | cons i0 rest =>
      have hnd : (i0 :: rest).Nodup := by
        rw [← hp2]
        exact ((hwf.2.1 p hp).2.1).imp Nat.ne_of_lt
      rw [sum_head_indicator (c (p.1, i0 :: rest)) i0 rest
        (List.nodup_cons.mp hnd).1]
      rw [← hp2]
  rw [hjoin]

/-! ## Remaining helper lemmas for the claims -/

theorem forall2_get? {α β : Type} {R : α → β → Prop} :
    ∀ {xs : List α} {ys : List β}, List.Forall₂ R xs ys →
    ∀ {i : Nat} {x : α}, xs.get? i = some x →
    ∃ y, ys.get? i = some y ∧ R x y := by
  intro xs ys h
  induction h with
  | nil => intro i x hx; cases hx
  | cons hr hrest ih =>
    intro i x hx
    cases i with
    | zero =>
      cases hx
      exact ⟨_, rfl, hr⟩
    | succ i => exact ih hx

theorem normalize_email_no_at (s : PStr) (h : '@' ∉ s) :
    normalize_email (PyV.vstr s) = Except.ok none := by
  simp only [normalize_email]
  by_cases h1 : s.isEmpty
  · rw [if_pos h1]
  · have h2 : '@' ∉ pyStrip (pyLower s) := by
      intro hc
      have h3 : '@' ∈ pyLower s := pyStrip_subset _ _ hc
      have h4 : 0 < (pyLower s).count '@' := List.count_pos_iff.mpr h3
      rw [count_at_pyLower] at h4
      exact h (List.count_pos_iff.mp h4)
    rw [if_neg h1, if_neg h2]

/-! ## The claims -/

/-- C2: the spec's example scenario 2 — `john.doe@foo.com` and
`jdoe@foo.com` grouped as aliases in pass 2, one merged record with
`_contact_duplicate_count` 2 — does not hold of the code: the token-overlap
test fails (`jdoe` is a single token that shares nothing with
`{john, doe}`), the single-letter-initial fallback can never fire because
`extract_name_parts` keeps only tokens of length at least two, so
`emails_are_aliases` answers False, `find_contact_duplicates` produces no
group, and the merge returns the two records unchanged rather than one
merged record. -/
theorem claim_C2_alias_example_not_grouped :
    extract_name_parts (pstr "john.doe@foo.com") =
      [pstr "john", pstr "doe"] ∧
    extract_name_parts (pstr "jdoe@foo.com") = [pstr "jdoe"] ∧
    emails_are_aliases (PyV.vstr (pstr "john.doe@foo.com"))
      (PyV.vstr (pstr "jdoe@foo.com")) = Except.ok false ∧
    find_contact_duplicates
      [[("email", PyV.vstr (pstr "john.doe@foo.com"))],
       [("email", PyV.vstr (pstr "jdoe@foo.com"))]] = Except.ok ([], []) ∧
    merge_contact_duplicates
      [[("email", PyV.vstr (pstr "john.doe@foo.com"))],
       [("email", PyV.vstr (pstr "jdoe@foo.com"))]] [] [] =
      Except.ok
        [[("email", PyV.vstr (pstr "john.doe@foo.com"))],
         [("email", PyV.vstr (pstr "jdoe@foo.com"))]] :=
  ⟨rfl, rfl, rfl, rfl, rfl⟩

/-- C3 (amended): `normalize_company_name` is idempotent at every string
whose normal form is a fixed point of the suffix-stripping stage — in
particular whenever stripping suffixes leaves the normalized name alone,
renormalizing changes nothing.  Unrestricted idempotence is false: the
suffix loop makes a single pass, so a name ending in two stacked suffixes
(`"foo inc ltd"`) normalizes to `"foo inc"`, which a second normalization
strips further to `"foo"` (see the counterexample). -/
theorem claim_C3_normalize_idempotent_at_suffix_fixpoints (s : PStr)
    (h : stripSuffixes (normCompany s) = normCompany s) :
    normalize_company_name (PyV.vstr (normCompany s)) =
      Except.ok (normCompany s) := by
  show Except.ok (normCompany (normCompany s)) = _
  rw [normCompany_fix s h]

theorem claim_C3_witness :
    stripSuffixes (normCompany (pstr "acme corp")) =
      normCompany (pstr "acme corp") ∧
    normalize_company_name (PyV.vstr (normCompany (pstr "acme corp"))) =
      Except.ok (normCompany (pstr "acme corp")) :=
  ⟨rfl, claim_C3_normalize_idempotent_at_suffix_fixpoints
    (pstr "acme corp") rfl⟩

theorem claim_C3_counterexample :
    normalize_company_name (PyV.vstr (pstr "foo inc ltd")) =
      Except.ok (pstr "foo inc") ∧
    normalize_company_name (PyV.vstr (pstr "foo inc")) =
      Except.ok (pstr "foo") ∧
    pstr "foo" ≠ pstr "foo inc" :=
  ⟨rfl, rfl, by decide⟩

theorem matchSum_ratio_low :
    matchSum (pstr "abcdefghijklmnopqrstuvwxy")
      (pstr "abcdefghijklmnopqrstu1234") (25 + 25 + 1) 0 25 0 25 = 21 := by
  decide

theorem matchSum_ratio_hi :
    matchSum (pstr "abcdefghijklmnopqxyz")
      (pstr "abcdefghijklmnopq123") (20 + 20 + 1) 0 20 0 20 = 17 := by
  decide

theorem fuzzy_match_low :
    fuzzy_match (pstr "abcdefghijklmnopqrstuvwxy")
      (pstr "abcdefghijklmnopqrstu1234") = 21/25 := by
  unfold fuzzy_match
  rw [if_neg (by decide)]
  unfold seqRatio
  rw [show (pstr "abcdefghijklmnopqrstuvwxy").length = 25 from rfl,
    show (pstr "abcdefghijklmnopqrstu1234").length = 25 from rfl,
    if_neg (by decide), matchSum_ratio_low]
  norm_num

theorem fuzzy_match_hi :
    fuzzy_match (pstr "abcdefghijklmnopqxyz")
      (pstr "abcdefghijklmnopq123") = 17/20 := by
  unfold fuzzy_match
  rw [if_neg (by decide)]
  unfold seqRatio
  rw [show (pstr "abcdefghijklmnopqxyz").length = 20 from rfl,
    show (pstr "abcdefghijklmnopq123").length = 20 from rfl,
    if_neg (by decide), matchSum_ratio_hi]
  norm_num

/-- C5: in the fuzzy pass, a later record `j` is collected into anchor `i`'s
matches exactly when it is an unprocessed ungrouped index with a nonempty
normalized name whose similarity reaches the threshold; at threshold 0.85 a
pair whose ratio is exactly 21/25 = 0.84 is never collected while a pair
whose ratio is exactly 17/20 = 0.85 is, and both ratios are realized by
concrete company-name pairs. -/
theorem claim_C5_fuzzy_threshold_boundary :
    (∀ (θ : ℚ) (nm : Nat → PStr) (i : Nat) (ung processed : List Nat)
      (j : Nat),
      j ∈ (fuzzyCollect θ nm i ung processed).1 ↔
        j = i ∨ (j ∈ ung ∧ i < j ∧ j ∉ processed ∧
          (nm j).isEmpty = false ∧ θ ≤ fuzzy_match (nm i) (nm j))) ∧
    (∀ (nm : Nat → PStr) (i j : Nat) (ung processed : List Nat),
      fuzzy_match (nm i) (nm j) = 21/25 →
      j ∈ (fuzzyCollect ((17 : ℚ)/20) nm i ung processed).1 → j = i) ∧
    (∀ (nm : Nat → PStr) (i j : Nat) (ung processed : List Nat),
      fuzzy_match (nm i) (nm j) = 17/20 →
      j ∈ ung → i < j → j ∉ processed → (nm j).isEmpty = false →
      j ∈ (fuzzyCollect ((17 : ℚ)/20) nm i ung processed).1) ∧
    fuzzy_match (pstr "abcdefghijklmnopqrstuvwxy")
      (pstr "abcdefghijklmnopqrstu1234") = 21/25 ∧
    fuzzy_match (pstr "abcdefghijklmnopqxyz")
      (pstr "abcdefghijklmnopq123") = 17/20 := by
  have hiff : ∀ (θ : ℚ) (nm : Nat → PStr) (i : Nat)
      (ung processed : List Nat) (j : Nat),
      j ∈ (fuzzyCollect θ nm i ung processed).1 ↔
        j = i ∨ (j ∈ ung ∧ i < j ∧ j ∉ processed ∧
          (nm j).isEmpty = false ∧ θ ≤ fuzzy_match (nm i) (nm j)) := by
    intro θ nm i ung processed j
    unfold fuzzyCollect
    rw [fuzzyCollectAux_mem_iff]
    rw [List.mem_singleton]
  refine ⟨hiff, ?_, ?_, fuzzy_match_low, fuzzy_match_hi⟩
  · intro nm i j ung processed hr hj
    rcases (hiff _ nm i ung processed j).mp hj with hj | hj
    · exact hj
    · rw [hr] at hj
      have := hj.2.2.2.2
      norm_num at this
  · intro nm i j ung processed hr hju hij hjp hne
    refine (hiff _ nm i ung processed j).mpr (Or.inr ⟨hju, hij, hjp, hne, ?_⟩)
    rw [hr]

theorem claim_C5_witness :
    fuzzy_match ((fun k => if k = 0 then pstr "abcdefghijklmnopqxyz"
        else pstr "abcdefghijklmnopq123") 0)
      ((fun k => if k = 0 then pstr "abcdefghijklmnopqxyz"
        else pstr "abcdefghijklmnopq123") 1) = 17/20 ∧
    1 ∈ (fuzzyCollect ((17 : ℚ)/20)
      (fun k => if k = 0 then pstr "abcdefghijklmnopqxyz"
        else pstr "abcdefghijklmnopq123") 0 [0, 1] []).1 := by
  have hr : fuzzy_match ((fun k => if k = 0 then pstr "abcdefghijklmnopqxyz"
      else pstr "abcdefghijklmnopq123") 0)
      ((fun k => if k = 0 then pstr "abcdefghijklmnopqxyz"
        else pstr "abcdefghijklmnopq123") 1) = 17/20 := by
    show fuzzy_match (pstr "abcdefghijklmnopqxyz")
      (pstr "abcdefghijklmnopq123") = 17/20
    exact claim_C5_fuzzy_threshold_boundary.2.2.2.2
  exact ⟨hr, claim_C5_fuzzy_threshold_boundary.2.2.1
    (fun k => if k = 0 then pstr "abcdefghijklmnopqxyz"
      else pstr "abcdefghijklmnopq123") 0 1 [0, 1] [] hr (by decide)
    (by decide) (by decide) (by decide)⟩

/-- C9: `normalize_email` answers None on the empty string and on every
string without `@` (the split leaves an empty domain, and `if domain` is
then falsy); consequently an index whose `email` value lacks `@` is never a
member of any pass-1 `email_`-tagged group of `find_contact_duplicates`. -/
theorem claim_C9_no_at_never_email_grouped :
    normalize_email (PyV.vstr []) = Except.ok none ∧
    (∀ s : PStr, '@' ∉ s → normalize_email (PyV.vstr s) = Except.ok none) ∧
    (∀ (leads : List Lead)
      (r : List (KGid × List Nat) × List (Nat × KGid)) (i : Nat) (l : Lead)
      (s : PStr),
      find_contact_duplicates leads = Except.ok r →
      leads.get? i = some l →
      dictGet l "email" (PyV.vstr []) = PyV.vstr s →
      '@' ∉ s →
      ∀ p ∈ r.1, p.1.tag = KTag.email → i ∉ p.2) := by
  refine ⟨rfl, fun s h => normalize_email_no_at s h, ?_⟩
  intro leads r i l s hfind hget hmail hat p hp htag hi
  obtain ⟨counter, nemails, hne, _, hprov⟩ :=
    find_contact_duplicates_inv leads r hfind
  obtain ⟨e, he⟩ := hprov p hp htag i hi
  obtain ⟨o, ho, hno⟩ := forall2_get? (exMapM_ok_forall2 hne) hget
  rw [hmail, normalize_email_no_at s hat] at hno
  injection hno with hno
  rw [ho, ← hno] at he
  cases he

theorem claim_C9_witness :
    find_contact_duplicates [[("email", PyV.vstr (pstr "abc"))],
      [("email", PyV.vstr (pstr "abc"))]] = Except.ok ([], []) ∧
    normalize_email (PyV.vstr (pstr "abc")) = Except.ok none ∧
    (∀ p ∈ ([] : List (KGid × List Nat)), p.1.tag = KTag.email →
      0 ∉ p.2) :=
  ⟨rfl, claim_C9_no_at_never_email_grouped.2.1 (pstr "abc") (by decide),
    claim_C9_no_at_never_email_grouped.2.2
      [[("email", PyV.vstr (pstr "abc"))], [("email", PyV.vstr (pstr "abc"))]]
      ([], []) 0 [("email", PyV.vstr (pstr "abc"))] (pstr "abc") rfl rfl rfl
      (by decide)⟩

/-- C10: the three passes of `find_contact_duplicates` share one group
counter, so in any successful run the `k`-th group created carries numeric
id exactly `k` (hence all ids are distinct and a later pass never restarts
at 0), the tags are monotone in creation order — every `email_` group
precedes every `alias_` group, which precedes every `name_` group — and the
group ids are pairwise distinct. -/
theorem claim_C10_shared_group_counter (leads : List Lead)
    (r : List (KGid × List Nat) × List (Nat × KGid))
    (h : find_contact_duplicates leads = Except.ok r) :
    (∀ k (hk : k < r.1.length), (r.1.get ⟨k, hk⟩).1.num = k) ∧
    (∀ k k' (hk : k < r.1.length) (hk' : k' < r.1.length), k ≤ k' →
      tagRank (r.1.get ⟨k, hk⟩).1.tag ≤ tagRank (r.1.get ⟨k', hk'⟩).1.tag) ∧
    (r.1.map Prod.fst).Nodup := by
  obtain ⟨counter, nemails, _, hinv, _⟩ :=
    find_contact_duplicates_inv leads r h
  refine ⟨hinv.num_eq, hinv.tag_mono, ?_⟩
  rw [List.nodup_iff_injective_get]
  intro a b hab
  rw [List.get_map, List.get_map] at hab
  have ha := hinv.num_eq a.1 (by simpa using a.2)
  have hb := hinv.num_eq b.1 (by simpa using b.2)
  have : a.1 = b.1 := by
    rw [← ha, ← hb, hab]
  exact Fin.ext (by simpa using this)

theorem claim_C10_witness :
    (∀ k (hk : k < (([(⟨KTag.email, 0⟩, [0, 1]), (⟨KTag.name, 1⟩, [2, 3])],
        [(0, (⟨KTag.email, 0⟩ : KGid)), (1, ⟨KTag.email, 0⟩),
         (2, ⟨KTag.name, 1⟩), (3, ⟨KTag.name, 1⟩)]) :
        List (KGid × List Nat) × List (Nat × KGid)).1.length),
      ((([(⟨KTag.email, 0⟩, [0, 1]), (⟨KTag.name, 1⟩, [2, 3])],
        [(0, (⟨KTag.email, 0⟩ : KGid)), (1, ⟨KTag.email, 0⟩),
         (2, ⟨KTag.name, 1⟩), (3, ⟨KTag.name, 1⟩)]) :
        List (KGid × List Nat) × List (Nat × KGid)).1.get ⟨k, hk⟩).1.num
        = k) ∧
    (∀ k k' (hk : k < (([(⟨KTag.email, 0⟩, [0, 1]),
        (⟨KTag.name, 1⟩, [2, 3])],
        [(0, (⟨KTag.email, 0⟩ : KGid)), (1, ⟨KTag.email, 0⟩),
         (2, ⟨KTag.name, 1⟩), (3, ⟨KTag.name, 1⟩)]) :
        List (KGid × List Nat) × List (Nat × KGid)).1.length)
      (hk' : k' < (([(⟨KTag.email, 0⟩, [0, 1]), (⟨KTag.name, 1⟩, [2, 3])],
        [(0, (⟨KTag.email, 0⟩ : KGid)), (1, ⟨KTag.email, 0⟩),
         (2, ⟨KTag.name, 1⟩), (3, ⟨KTag.name, 1⟩)]) :
        List (KGid × List Nat) × List (Nat × KGid)).1.length), k ≤ k' →
      tagRank ((([(⟨KTag.email, 0⟩, [0, 1]), (⟨KTag.name, 1⟩, [2, 3])],
        [(0, (⟨KTag.email, 0⟩ : KGid)), (1, ⟨KTag.email, 0⟩),
         (2, ⟨KTag.name, 1⟩), (3, ⟨KTag.name, 1⟩)]) :
        List (KGid × List Nat) × List (Nat × KGid)).1.get ⟨k, hk⟩).1.tag ≤
      tagRank ((([(⟨KTag.email, 0⟩, [0, 1]), (⟨KTag.name, 1⟩, [2, 3])],
        [(0, (⟨KTag.email, 0⟩ : KGid)), (1, ⟨KTag.email, 0⟩),
         (2, ⟨KTag.name, 1⟩), (3, ⟨KTag.name, 1⟩)]) :
        List (KGid × List Nat) × List (Nat × KGid)).1.get ⟨k', hk'⟩).1.tag) ∧
    ((([(⟨KTag.email, 0⟩, [0, 1]), (⟨KTag.name, 1⟩, [2, 3])],
        [(0, (⟨KTag.email, 0⟩ : KGid)), (1, ⟨KTag.email, 0⟩),
         (2, ⟨KTag.name, 1⟩), (3, ⟨KTag.name, 1⟩)]) :
        List (KGid × List Nat) × List (Nat × KGid)).1.map Prod.fst).Nodup :=
  claim_C10_shared_group_counter
    [[("email", PyV.vstr (pstr "x@foo.com"))],
     [("email", PyV.vstr (pstr "x@foo.com"))],
     [("full_name", PyV.vstr (pstr "bob jones")),
      ("company_name", PyV.vstr (pstr "acme"))],
     [("full_name", PyV.vstr (pstr "bob jones")),
      ("company_name", PyV.vstr (pstr "acme"))]]
    ([(⟨KTag.email, 0⟩, [0, 1]), (⟨KTag.name, 1⟩, [2, 3])],
     [(0, ⟨KTag.email, 0⟩), (1, ⟨KTag.email, 0⟩),
      (2, ⟨KTag.name, 1⟩), (3, ⟨KTag.name, 1⟩)]) rfl

/-- C1 (amended): the generic consumer domains are excluded from the
company domain-grouping pass (no `domain_` group of `find_duplicates` ever
carries one), from alias matching (`emails_are_aliases` answers True only
for a shared non-generic email domain), and from the email-domain branch of
`same_company` (it fires only for equal nonempty non-generic email
domains).  The original claim is too strong: the `company_domain` equality
branch of `same_company` carries no generic-domain exclusion, so two
records both holding `gmail.com` as `company_domain` can still be grouped
by the name+company pass (see the counterexample). -/
theorem claim_C1_generic_domain_exclusion :
    (∀ (leads : List Lead) (θ : ℚ)
      (r : List (CGid × List Nat) × List (Nat × CGid)),
      find_duplicates leads θ = Except.ok r →
      ∀ d is, (CGid.domain d, is) ∈ r.1 → d ∉ genericDomains) ∧
    (∀ v1 v2, emails_are_aliases v1 v2 = Except.ok true →
      ∃ s1 s2, v1 = PyV.vstr s1 ∧ v2 = PyV.vstr s2 ∧
        (splitOnChar '@' (pyLower s1)).getD 1 [] =
          (splitOnChar '@' (pyLower s2)).getD 1 [] ∧
        (splitOnChar '@' (pyLower s1)).getD 1 [] ∉ genericDomains) ∧
    (∀ l1 l2, same_company l1 l2 = Except.ok true →
      (∃ d1 d2, pyLowerV (dictGet l1 "company_domain" (PyV.vstr []))
          = Except.ok d1 ∧
        pyLowerV (dictGet l2 "company_domain" (PyV.vstr []))
          = Except.ok d2 ∧
        d1 ≠ [] ∧ d2 ≠ [] ∧ d1 = d2) ∨
      (∃ ed1 ed2, emailDomainOf (dictGet l1 "email" (PyV.vstr []))
          = Except.ok ed1 ∧
        emailDomainOf (dictGet l2 "email" (PyV.vstr [])) = Except.ok ed2 ∧
        ed1 ≠ [] ∧ ed2 ≠ [] ∧ ed1 = ed2 ∧ ed1 ∉ genericDomains) ∨
      sameCompanyNames l1 l2 = Except.ok true) :=
  ⟨fun leads θ r h d is hmem =>
      find_duplicates_domain_nongeneric leads θ r h d is hmem,
    fun v1 v2 h => emails_are_aliases_true v1 v2 h,
    fun l1 l2 h => same_company_true l1 l2 h⟩

theorem claim_C1_witness : pstr "foo.com" ∉ genericDomains :=
  claim_C1_generic_domain_exclusion.1
    [[("company_domain", PyV.vstr (pstr "foo.com")),
      ("email", PyV.vstr (pstr "a@foo.com"))],
     [("company_domain", PyV.vstr (pstr "foo.com"))],
     [("email", PyV.vstr (pstr "b@bar.com"))]] ((17 : ℚ)/20)
    ([(CGid.domain (pstr "foo.com"), [0, 1])],
     [(0, CGid.domain (pstr "foo.com")), (1, CGid.domain (pstr "foo.com"))])
    rfl (pstr "foo.com") [0, 1] (by decide)

theorem claim_C1_counterexample :
    same_company
      [("company_domain", PyV.vstr (pstr "gmail.com")),
       ("full_name", PyV.vstr (pstr "john smith"))]
      [("company_domain", PyV.vstr (pstr "gmail.com")),
       ("full_name", PyV.vstr (pstr "john smith"))] = Except.ok true ∧
    find_contact_duplicates
      [[("company_domain", PyV.vstr (pstr "gmail.com")),
        ("full_name", PyV.vstr (pstr "john smith"))],
       [("company_domain", PyV.vstr (pstr "gmail.com")),
        ("full_name", PyV.vstr (pstr "john smith"))]] =
      Except.ok ([(⟨KTag.name, 0⟩, [0, 1])],
        [(0, ⟨KTag.name, 0⟩), (1, ⟨KTag.name, 0⟩)]) :=
  ⟨rfl, rfl⟩

/-- C6: the merged record of a duplicate group is built from the member
with the highest completeness score (email counts 2; first_name, last_name,
title, linkedin_url, phone, company_domain, employee_count, industry count
1), ties broken by original relative order — the head of the stable
descending sort is the first score maximum; every key truthy in that
primary keeps the primary's value, and a key falsy in the primary is filled
by the first lower-ranked member holding a truthy value (no fill happens
when none does); in the spec's example — member A with email and title
only, member B additionally with linkedin_url and phone — the merged
record's linkedin_url and phone equal B's values. -/
theorem claim_C6_completeness_merge :
    (∀ (gls : List Lead), (sortDescBy completeness_score gls).head? =
      firstMaxBy completeness_score gls) ∧
    (∀ (gls : List Lead) (gid : CGid) (primary : Lead)
      (others : List Lead) (rec : Lead) (k : String),
      sortDescBy completeness_score gls = primary :: others →
      mergeGroupRecord gls gid = Except.ok rec →
      k ≠ "_duplicate_count" → k ≠ "_duplicate_group" →
      (pyTruthyO (alLookup primary k) = true →
        alLookup rec k = alLookup primary k) ∧
      (pyTruthyO (alLookup primary k) = false →
        ∀ v, firstFill others k = some v → alLookup rec k = some v) ∧
      (firstFill others k = none →
        alLookup rec k = alLookup primary k)) ∧
    (∃ rec, mergeGroupRecord
        [[("email", PyV.vstr (pstr "a@x.com")),
          ("title", PyV.vstr (pstr "ceo"))],
         [("email", PyV.vstr (pstr "b@x.com")),
          ("title", PyV.vstr (pstr "cto")),
          ("linkedin_url", PyV.vstr (pstr "urlB")),
          ("phone", PyV.vstr (pstr "123"))]] (CGid.fuzzy 0) =
        Except.ok rec ∧
      alLookup rec "linkedin_url" = some (PyV.vstr (pstr "urlB")) ∧
      alLookup rec "phone" = some (PyV.vstr (pstr "123")) ∧
      alLookup rec "email" = some (PyV.vstr (pstr "b@x.com")) ∧
      alLookup rec "title" = some (PyV.vstr (pstr "cto"))) := by
  refine ⟨sortDescBy_head completeness_score, ?_, ?_⟩
  · intro gls gid primary others rec k hsort hrec hk1 hk2
    have hrec2 : rec = alSet
        (alSet (mergeOthers primary others)
          "_duplicate_count" (PyV.vint gls.length))
        "_duplicate_group" (PyV.vstr gid.render) := by
      unfold mergeGroupRecord at hrec
      rw [hsort] at hrec
      injection hrec with hrec
      exact hrec.symm
    have hlk : alLookup rec k = alLookup (mergeOthers primary others) k := by
      rw [hrec2, alLookup_alSet, if_neg hk2, alLookup_alSet, if_neg hk1]
    refine ⟨?_, ?_, ?_⟩
    · intro ht
      rw [hlk]
      exact mergeOthers_keep others primary k ht
    · intro hf v hv
      rw [hlk]
      exact mergeOthers_fillSome others primary k v hf hv
    · intro hn
      rw [hlk]
      exact mergeOthers_fillNone others primary k hn
  · exact ⟨_, rfl, rfl, rfl, rfl, rfl⟩

theorem claim_C6_witness :
    (pyTruthyO (alLookup
        [("email", PyV.vstr (pstr "b@x.com")),
         ("title", PyV.vstr (pstr "cto")),
         ("linkedin_url", PyV.vstr (pstr "urlB")),
         ("phone", PyV.vstr (pstr "123"))] "phone") = true →
      alLookup
        [("email", PyV.vstr (pstr "b@x.com")),
         ("title", PyV.vstr (pstr "cto")),
         ("linkedin_url", PyV.vstr (pstr "urlB")),
         ("phone", PyV.vstr (pstr "123")),
         ("_duplicate_count", PyV.vint 2),
         ("_duplicate_group", PyV.vstr (pstr "fuzzy_0"))] "phone" =
      alLookup
        [("email", PyV.vstr (pstr "b@x.com")),
         ("title", PyV.vstr (pstr "cto")),
         ("linkedin_url", PyV.vstr (pstr "urlB")),
         ("phone", PyV.vstr (pstr "123"))] "phone") ∧
    (pyTruthyO (alLookup
        [("email", PyV.vstr (pstr "b@x.com")),
         ("title", PyV.vstr (pstr "cto")),
         ("linkedin_url", PyV.vstr (pstr "urlB")),
         ("phone", PyV.vstr (pstr "123"))] "phone") = false →
      ∀ v, firstFill [[("email", PyV.vstr (pstr "a@x.com")),
          ("title", PyV.vstr (pstr "ceo"))]] "phone" = some v →
      alLookup
        [("email", PyV.vstr (pstr "b@x.com")),
         ("title", PyV.vstr (pstr "cto")),
         ("linkedin_url", PyV.vstr (pstr "urlB")),
         ("phone", PyV.vstr (pstr "123")),
         ("_duplicate_count", PyV.vint 2),
         ("_duplicate_group", PyV.vstr (pstr "fuzzy_0"))] "phone" = some v) ∧
    (firstFill [[("email", PyV.vstr (pstr "a@x.com")),
        ("title", PyV.vstr (pstr "ceo"))]] "phone" = none →
      alLookup
        [("email", PyV.vstr (pstr "b@x.com")),
         ("title", PyV.vstr (pstr "cto")),
         ("linkedin_url", PyV.vstr (pstr "urlB")),
         ("phone", PyV.vstr (pstr "123")),
         ("_duplicate_count", PyV.vint 2),
         ("_duplicate_group", PyV.vstr (pstr "fuzzy_0"))] "phone" =
      alLookup
        [("email", PyV.vstr (pstr "b@x.com")),
         ("title", PyV.vstr (pstr "cto")),
         ("linkedin_url", PyV.vstr (pstr "urlB")),
         ("phone", PyV.vstr (pstr "123"))] "phone") :=
  claim_C6_completeness_merge.2.1
    [[("email", PyV.vstr (pstr "a@x.com")),
      ("title", PyV.vstr (pstr "ceo"))],
     [("email", PyV.vstr (pstr "b@x.com")),
      ("title", PyV.vstr (pstr "cto")),
      ("linkedin_url", PyV.vstr (pstr "urlB")),
      ("phone", PyV.vstr (pstr "123"))]] (CGid.fuzzy 0)
    [("email", PyV.vstr (pstr "b@x.com")),
     ("title", PyV.vstr (pstr "cto")),
     ("linkedin_url", PyV.vstr (pstr "urlB")),
     ("phone", PyV.vstr (pstr "123"))]
    [[("email", PyV.vstr (pstr "a@x.com")),
      ("title", PyV.vstr (pstr "ceo"))]]
    [("email", PyV.vstr (pstr "b@x.com")),
     ("title", PyV.vstr (pstr "cto")),
     ("linkedin_url", PyV.vstr (pstr "urlB")),
     ("phone", PyV.vstr (pstr "123")),
     ("_duplicate_count", PyV.vint 2),
     ("_duplicate_group", PyV.vstr (pstr "fuzzy_0"))] "phone"
    rfl rfl (by decide) (by decide)

theorem sum_map_natCast {α : Type} (f : α → Nat) :
    ∀ l : List α, (l.map (fun x => (f x : Int))).sum =
      ((l.map f).sum : Int) := by
  intro l
  induction l with
  | nil => rfl
  | cons x xs ih =>
    rw [List.map_cons, List.sum_cons, List.map_cons, List.sum_cons, ih,
      Nat.cast_add]

/-- C4: conservation — on any `find_duplicates` output the duplicate groups
are pairwise disjoint index sets, the group sizes together with the
ungrouped indices account for every input index exactly once, and (for
inputs that do not already carry a `_duplicate_count` field) the sum of
`_duplicate_count` over the merged output, counting each pass-through
record as 1, equals the original input length. -/
theorem claim_C4_conservation (leads : List Lead) (θ : ℚ)
    (r : List (CGid × List Nat) × List (Nat × CGid))
    (h : find_duplicates leads θ = Except.ok r)
    (hclean : ∀ l ∈ leads, alLookup l "_duplicate_count" = none) :
    List.Pairwise List.Disjoint (r.1.map Prod.snd) ∧
    (r.1.map (fun p => p.2.length)).sum +
      ((List.range leads.length).filter
        (fun i => (alLookup r.2 i).isNone)).length = leads.length ∧
    ∃ out, merge_duplicates leads r.1 r.2 = Except.ok out ∧
      (out.map recCount).sum = (leads.length : Int) := by
  have hwf : GroupsWF leads.length r.1 r.2 := find_duplicates_wf leads θ h
  refine ⟨groupsWF_pairwise_disjoint hwf, groupsWF_conservation hwf,
    _, merge_duplicates_structure leads r.1 r.2 hwf, ?_⟩
  have hgrp : ∀ p ∈ r.1, ∀ rec, mergeGroupRecord
      (p.2.map (fun idx => leads.getD idx [])) p.1 = Except.ok rec →
      recCount rec = ((fun p : CGid × List Nat => (p.2.length : Int)) p) := by
    intro p hp rec hrec
    obtain ⟨rec', hrec', hcount, _⟩ := mergeGroupRecord_ok
      (p.2.map (fun idx => leads.getD idx [])) p.1 (by
        intro hc
        have h2 := (hwf.2.1 p hp).1
        rw [List.map_eq_nil_iff] at hc
        rw [hc] at h2
        simp at h2)
    rw [hrec'] at hrec
    injection hrec with hrec
    subst hrec
    unfold recCount
    rw [hcount]
    simp
  have hpass : ∀ i, i < leads.length → alLookup r.2 i = none →
      recCount (leads.getD i []) = 1 := by
    intro i hi _
    have hgd : leads.getD i [] = leads.get ⟨i, hi⟩ := by
      simp [List.getD, ← List.get?_eq_getElem?, List.get?_eq_get hi]
    unfold recCount
    rw [hgd, hclean _ (List.get_mem _ _ _)]
  have hsum := mergeEmit_sum_core leads r.1 r.2 hwf recCount
    (fun p => (p.2.length : Int)) hgrp hpass
  rw [hsum, sum_map_natCast]
  have hcons := groupsWF_conservation hwf
  omega

theorem claim_C4_witness :
    List.Pairwise List.Disjoint
      ((([(CGid.domain (pstr "foo.com"), [0, 1])],
        [(0, CGid.domain (pstr "foo.com")),
         (1, CGid.domain (pstr "foo.com"))]) :
        List (CGid × List Nat) × List (Nat × CGid)).1.map Prod.snd) ∧
    ((([(CGid.domain (pstr "foo.com"), [0, 1])],
        [(0, CGid.domain (pstr "foo.com")),
         (1, CGid.domain (pstr "foo.com"))]) :
        List (CGid × List Nat) × List (Nat × CGid)).1.map
      (fun p => p.2.length)).sum +
      ((List.range ([[("company_domain", PyV.vstr (pstr "foo.com")),
          ("email", PyV.vstr (pstr "a@foo.com"))],
         [("company_domain", PyV.vstr (pstr "foo.com"))],
         [("email", PyV.vstr (pstr "b@bar.com"))]] :
          List Lead).length).filter
        (fun i => (alLookup (([(CGid.domain (pstr "foo.com"), [0, 1])],
          [(0, CGid.domain (pstr "foo.com")),
           (1, CGid.domain (pstr "foo.com"))]) :
          List (CGid × List Nat) × List (Nat × CGid)).2 i).isNone)).length
      = ([[("company_domain", PyV.vstr (pstr "foo.com")),
          ("email", PyV.vstr (pstr "a@foo.com"))],
         [("company_domain", PyV.vstr (pstr "foo.com"))],
         [("email", PyV.vstr (pstr "b@bar.com"))]] : List Lead).length ∧
    ∃ out, merge_duplicates
        [[("company_domain", PyV.vstr (pstr "foo.com")),
          ("email", PyV.vstr (pstr "a@foo.com"))],
         [("company_domain", PyV.vstr (pstr "foo.com"))],
         [("email", PyV.vstr (pstr "b@bar.com"))]]
        (([(CGid.domain (pstr "foo.com"), [0, 1])],
          [(0, CGid.domain (pstr "foo.com")),
           (1, CGid.domain (pstr "foo.com"))]) :
          List (CGid × List Nat) × List (Nat × CGid)).1
        (([(CGid.domain (pstr "foo.com"), [0, 1])],
          [(0, CGid.domain (pstr "foo.com")),
           (1, CGid.domain (pstr "foo.com"))]) :
          List (CGid × List Nat) × List (Nat × CGid)).2 = Except.ok out ∧
      (out.map recCount).sum =
        (([[("company_domain", PyV.vstr (pstr "foo.com")),
          ("email", PyV.vstr (pstr "a@foo.com"))],
         [("company_domain", PyV.vstr (pstr "foo.com"))],
         [("email", PyV.vstr (pstr "b@bar.com"))]] : List Lead).length :
          Int) :=
  claim_C4_conservation
    [[("company_domain", PyV.vstr (pstr "foo.com")),
      ("email", PyV.vstr (pstr "a@foo.com"))],
     [("company_domain", PyV.vstr (pstr "foo.com"))],
     [("email", PyV.vstr (pstr "b@bar.com"))]] ((17 : ℚ)/20)
    ([(CGid.domain (pstr "foo.com"), [0, 1])],
     [(0, CGid.domain (pstr "foo.com")), (1, CGid.domain (pstr "foo.com"))])
    rfl (by decide)

/-- C7: the merge step returns exactly the records emitted by position —
one merged record per duplicate group, placed at the position of the
group's first member, and one unchanged pass-through record per unassigned
position — so the output has one record per group plus one per ungrouped
input, in the original order of first appearance. -/
theorem claim_C7_merge_output_structure (leads : List Lead) (θ : ℚ)
    (r : List (CGid × List Nat) × List (Nat × CGid))
    (h : find_duplicates leads θ = Except.ok r) :
    merge_duplicates leads r.1 r.2 =
      Except.ok ((List.range leads.length).filterMap
        (mergeEmit leads r.1 r.2)) ∧
    (∀ i, i < leads.length → alLookup r.2 i = none →
      mergeEmit leads r.1 r.2 i = some (leads.getD i [])) ∧
    (∀ p ∈ r.1, ∀ i, p.2.head? = some i →
      ∃ rec, mergeGroupRecord (p.2.map (fun idx => leads.getD idx []))
        p.1 = Except.ok rec ∧ mergeEmit leads r.1 r.2 i = some rec) ∧
    (∀ p ∈ r.1, ∀ i ∈ p.2, p.2.head? ≠ some i →
      mergeEmit leads r.1 r.2 i = none) ∧
    (((List.range leads.length).filterMap
        (mergeEmit leads r.1 r.2)).length : Int) =
      (r.1.length : Int) + ((List.range leads.length).filter
        (fun i => (alLookup r.2 i).isNone)).length := by
  have hwf : GroupsWF leads.length r.1 r.2 := find_duplicates_wf leads θ h
  refine ⟨merge_duplicates_structure leads r.1 r.2 hwf, ?_, ?_, ?_, ?_⟩
  · intro i _ hnone
    unfold mergeEmit
    rw [hnone]
  · intro p hp i hhead
    have hmem_i : i ∈ p.2 := List.mem_of_mem_head? (by rw [hhead]; rfl)
    have hasg : alLookup r.2 i = some p.1 :=
      ((hwf.2.1 p hp).2.2 i hmem_i).2
    have hlook : alLookup r.1 p.1 = some p.2 :=
      alLookup_eq_of_mem_nodup hwf.1 hp
    obtain ⟨rec, hrec, _, _⟩ := mergeGroupRecord_ok
      (p.2.map (fun idx => leads.getD idx [])) p.1 (by
        intro hc
        have h2 := (hwf.2.1 p hp).1
        rw [List.map_eq_nil_iff] at hc
        rw [hc] at h2
        simp at h2)
    refine ⟨rec, hrec, ?_⟩
    unfold mergeEmit
    rw [hasg]
    dsimp only
    rw [hlook]
    dsimp only
    rw [if_pos hhead, hrec]
  · intro p hp i hi hnh
    unfold mergeEmit
    rw [((hwf.2.1 p hp).2.2 i hi).2]
    dsimp only
    rw [alLookup_eq_of_mem_nodup hwf.1 hp]
    dsimp only
    rw [if_neg hnh]
  · have hs := mergeEmit_sum_core leads r.1 r.2 hwf (fun _ => (1 : Int))
      (fun _ => (1 : Int)) (fun p hp rec hrec => rfl)
      (fun i hi hnone => rfl)
    have hlen1 : (((List.range leads.length).filterMap
        (mergeEmit leads r.1 r.2)).map (fun _ => (1 : Int))).sum =
        (((List.range leads.length).filterMap
          (mergeEmit leads r.1 r.2)).length : Int) :=
      sum_map_ones _ _ (fun x _ => rfl)
    have hlen2 : (r.1.map (fun _ => (1 : Int))).sum = (r.1.length : Int) :=
      sum_map_ones _ _ (fun x _ => rfl)
    rw [hlen1, hlen2] at hs
    omega

theorem claim_C7_witness :
    merge_duplicates
      [[("company_domain", PyV.vstr (pstr "foo.com")),
        ("email", PyV.vstr (pstr "a@foo.com"))],
       [("company_domain", PyV.vstr (pstr "foo.com"))],
       [("email", PyV.vstr (pstr "b@bar.com"))]]
      (([(CGid.domain (pstr "foo.com"), [0, 1])],
        [(0, CGid.domain (pstr "foo.com")),
         (1, CGid.domain (pstr "foo.com"))]) :
        List (CGid × List Nat) × List (Nat × CGid)).1
      (([(CGid.domain (pstr "foo.com"), [0, 1])],
        [(0, CGid.domain (pstr "foo.com")),
         (1, CGid.domain (pstr "foo.com"))]) :
        List (CGid × List Nat) × List (Nat × CGid)).2 =
      Except.ok ((List.range
        ([[("company_domain", PyV.vstr (pstr "foo.com")),
          ("email", PyV.vstr (pstr "a@foo.com"))],
         [("company_domain", PyV.vstr (pstr "foo.com"))],
         [("email", PyV.vstr (pstr "b@bar.com"))]] : List Lead).length
        ).filterMap
        (mergeEmit
          [[("company_domain", PyV.vstr (pstr "foo.com")),
            ("email", PyV.vstr (pstr "a@foo.com"))],
           [("company_domain", PyV.vstr (pstr "foo.com"))],
           [("email", PyV.vstr (pstr "b@bar.com"))]]
          (([(CGid.domain (pstr "foo.com"), [0, 1])],
            [(0, CGid.domain (pstr "foo.com")),
             (1, CGid.domain (pstr "foo.com"))]) :
            List (CGid × List Nat) × List (Nat × CGid)).1
          (([(CGid.domain (pstr "foo.com"), [0, 1])],
            [(0, CGid.domain (pstr "foo.com")),
             (1, CGid.domain (pstr "foo.com"))]) :
            List (CGid × List Nat) × List (Nat × CGid)).2)) :=
  (claim_C7_merge_output_structure
    [[("company_domain", PyV.vstr (pstr "foo.com")),
      ("email", PyV.vstr (pstr "a@foo.com"))],
     [("company_domain", PyV.vstr (pstr "foo.com"))],
     [("email", PyV.vstr (pstr "b@bar.com"))]] ((17 : ℚ)/20)
    ([(CGid.domain (pstr "foo.com"), [0, 1])],
     [(0, CGid.domain (pstr "foo.com")), (1, CGid.domain (pstr "foo.com"))])
    rfl).1

/-- C8 (amended): the matching core raises no exception on any input whose
present field values are all strings with at most one `@` in each `email`
value: both deduplication pipelines and both merge steps succeed.  The
original unrestricted claim is false — a record holding `None` (or any
truthy non-string) in a field the matchers `.lower()`, or an email with two
`@`, raises and propagates out (see the counterexample). -/
theorem claim_C8_no_raise_on_string_records (leads : List Lead) (θ : ℚ)
    (h : safeLeads leads = true) :
    (∃ r, find_duplicates leads θ = Except.ok r ∧
      ∃ out, merge_duplicates leads r.1 r.2 = Except.ok out) ∧
    (∃ rc, find_contact_duplicates leads = Except.ok rc ∧
      ∃ outc, merge_contact_duplicates leads rc.1 rc.2 = Except.ok outc) := by
  constructor
  · obtain ⟨r, hr⟩ := find_duplicates_ok leads θ h
    have hwf : GroupsWF leads.length r.1 r.2 := find_duplicates_wf leads θ hr
    exact ⟨r, hr, _, merge_duplicates_structure leads r.1 r.2 hwf⟩
  · obtain ⟨rc, hrc⟩ := find_contact_duplicates_ok leads h
    obtain ⟨counter, nemails, _, hinv, _⟩ :=
      find_contact_duplicates_inv leads rc hrc
    exact ⟨rc, hrc, merge_contact_duplicates_ok leads rc.1 rc.2
      hinv.asg_keys hinv.mem_ne hinv.mem_lt⟩

theorem claim_C8_witness :
    safeLeads [[("email", PyV.vstr (pstr "john.doe@foo.com"))],
      [("email", PyV.vstr (pstr "jdoe@foo.com"))]] = true ∧
    ((∃ r, find_duplicates
        [[("email", PyV.vstr (pstr "john.doe@foo.com"))],
         [("email", PyV.vstr (pstr "jdoe@foo.com"))]] ((17 : ℚ)/20) =
        Except.ok r ∧
      ∃ out, merge_duplicates
        [[("email", PyV.vstr (pstr "john.doe@foo.com"))],
         [("email", PyV.vstr (pstr "jdoe@foo.com"))]] r.1 r.2 =
        Except.ok out) ∧
    (∃ rc, find_contact_duplicates
        [[("email", PyV.vstr (pstr "john.doe@foo.com"))],
         [("email", PyV.vstr (pstr "jdoe@foo.com"))]] = Except.ok rc ∧
      ∃ outc, merge_contact_duplicates
        [[("email", PyV.vstr (pstr "john.doe@foo.com"))],
         [("email", PyV.vstr (pstr "jdoe@foo.com"))]] rc.1 rc.2 =
        Except.ok outc)) :=
  ⟨by decide, claim_C8_no_raise_on_string_records
    [[("email", PyV.vstr (pstr "john.doe@foo.com"))],
     [("email", PyV.vstr (pstr "jdoe@foo.com"))]] ((17 : ℚ)/20) (by decide)⟩

theorem claim_C8_counterexample :
    find_contact_duplicates
      [[("full_name", PyV.vstr (pstr "john")),
        ("company_name", PyV.vstr (pstr "acme"))],
       [("company_domain", PyV.vnone),
        ("company_name", PyV.vstr (pstr "acme"))]] = Except.error () ∧
    normalize_email (PyV.vstr (pstr "a@b@c.com")) = Except.error () :=
  ⟨rfl, rfl⟩
